import Mathlib

/-!
# go-marshaler: a shallow embedding of the decoding engine

The development embeds the Go package `marshaler` (files `decoder.go`,
`utils.go`, `values.go`, `map.go`, `types.go`) and its Consul backend (files
`consul/kv.go`, `consul/decoder.go`), and states its specification against the
embedding.

Modelling conventions.

* Go strings are Lean `String`s; the parsers work on the list of characters.
  A non-ASCII character is a run of bytes `>= 0x80` in Go, none of which is a
  digit or a sign, so the character-level parsers agree with the byte-level
  ones of `strconv`.
* Go values seen through `reflect` are the trees of type `Val`.  A pointer
  owns its pointee (no aliasing) and types are finite trees (no recursive
  struct types).  A nil pointer carries the zero value of its element type,
  which is what `reflect.New(t.Type.Elem())` allocates.
* Machine integers are `Nat`/`Int` with explicit wrap-around.
* `time.ParseDuration`, `time.Parse`, `strconv.ParseFloat` and the `Scan`
  methods of user types are parameters (`Lib`).
* The interface `Value` is open: next to `NullValue` and `StringValue` a
  backend may return a value of a type of its own, whose `UnmarshalTo` is a
  parameter as well (`Lib.unmarshalCustom`), bound only to keep the type of its
  target.
* The key-value backend is a state machine; the walker also records the keys
  it passes to `Get`.
* The Consul client `api.KV` is a parameter (`ConsulClient`), a state machine
  of its own; the bytes of a pair are taken as a string.
-/

namespace Marshaler

/-! ## Errors -/

/-- Go `error` values, as far as the package builds them. -/
inductive GoError where
  /-- The result of `fmt.Errorf(format, args...)` without `%w`, or `errors.New`. -/
  | errorf (format : String) (args : List String)
  /-- The result of `fmt.Errorf(format, args..., cause)` with one `%w`. -/
  | wrapf (format : String) (args : List String) (cause : GoError)
  /-- The result of `errors.Join(errs...)`. -/
  | join (errs : List GoError)
  /-- The error `*strconv.NumError` with `Err = strconv.ErrSyntax`. -/
  | numSyntax (fn : String) (num : String)
  /-- The error `*strconv.NumError` with `Err = strconv.ErrRange`. -/
  | numRange (fn : String) (num : String)

/-- How a call ended: it returned `nil`, returned an error, or panicked. -/
inductive Outcome where
  | ok
  | fail (e : GoError)
  | panicked

/-- Whether the outcome is a returned `nil`. -/
def Outcome.isOk : Outcome → Bool
  | .ok => true
  | _ => false

/-- Whether the outcome is a returned non-nil error. -/
def Outcome.isFail : Outcome → Bool
  | .fail _ => true
  | _ => false

/-- The chain of `Unwrap` steps: `e.unwrapsTo n c` when `c` is reached from `e`
by unwrapping `n` single-cause wrappers (`fmt.Errorf` with `%w`). -/
def GoError.unwrapsTo : GoError → Nat → GoError → Prop
  | e, 0, c => e = c
  | .wrapf _ _ cause, n + 1, c => cause.unwrapsTo n c
  | _, _ + 1, _ => False

/-- The error `e` wraps `c`: some number of `Unwrap` steps leads from `e` to `c`. -/
def GoError.wraps (e c : GoError) : Prop := ∃ n, e.unwrapsTo n c

/-! ## strconv -/

/-- The value of a decimal digit byte, `c - '0'` when `'0' <= c <= '9'`. -/
def digitVal (c : Char) : Option Nat :=
  if 48 ≤ c.toNat ∧ c.toNat ≤ 57 then some (c.toNat - 48) else none

/-- The kind of a `strconv.NumError`. -/
inductive NumErr where
  | syn
  | range
  deriving DecidableEq, Repr

/-- The constant `maxUint64/10 + 1`, the `cutoff` of `strconv.ParseUint` in base 10. -/
def uintCutoff : Nat := (2 ^ 64 - 1) / 10 + 1

/-- The digit loop of `strconv.ParseUint(s, 10, bitSize)`: `n` is the
accumulator (a `uint64`), `maxVal = 1<<bitSize - 1`.  Returns the value and
the error, as the Go function does (`maxVal` with a range error). -/
def parseUintLoop (maxVal : Nat) : List Char → Nat → Nat × Option NumErr
  | [], n => (n, none)
  | c :: cs, n =>
    match digitVal c with
    | none => (0, some .syn)
    | some d =>
      if n ≥ uintCutoff then (maxVal, some .range)
      else
        let n10 := (n * 10) % 2 ^ 64
        let n1 := (n10 + d) % 2 ^ 64
        if n1 < n10 ∨ n1 > maxVal then (maxVal, some .range)
        else parseUintLoop maxVal cs n1

/-- The function `strconv.ParseUint(s, 10, bitSize)` for `0 < bitSize <= 64`. -/
def parseUint (s : List Char) (bitSize : Nat) : Nat × Option NumErr :=
  match s with
  | [] => (0, some .syn)
  | _ => parseUintLoop (2 ^ bitSize - 1) s 0

/-- The conversion `int64(x)` of an integer, by two's complement wrap-around. -/
def wrapInt (bits : Nat) (x : Int) : Int :=
  (x + 2 ^ (bits - 1)) % 2 ^ bits - 2 ^ (bits - 1)

/-- The part of `strconv.ParseInt(s, 10, bitSize)` after the sign is taken
off: `neg` tells whether the sign was `-`, `rest` is what follows the sign. -/
def parseIntTail (neg : Bool) (rest : List Char) (bitSize : Nat) : Int × Option NumErr :=
  let r := parseUint rest bitSize
  if r.2 = some .syn then (0, some .syn)
  else
    let un := r.1
    let cutoff := 2 ^ (bitSize - 1)
    if neg = false ∧ un ≥ cutoff then ((cutoff : Int) - 1, some .range)
    else if neg = true ∧ un > cutoff then (-(cutoff : Int), some .range)
    else
      let n := wrapInt 64 un
      (if neg then wrapInt 64 (-n) else n, none)

/-- The function `strconv.ParseInt(s, 10, bitSize)` for `0 < bitSize <= 64`. -/
def parseInt (s : List Char) (bitSize : Nat) : Int × Option NumErr :=
  match s with
  | [] => (0, some .syn)
  | c :: cs =>
    parseIntTail (decide (c = '-')) (if c = '+' then cs else if c = '-' then cs else c :: cs)
      bitSize

/-- The function `strconv.ParseBool`. -/
def parseBool (s : String) : Option Bool :=
  if s = "1" ∨ s = "t" ∨ s = "T" ∨ s = "TRUE" ∨ s = "true" ∨ s = "True" then some true
  else if s = "0" ∨ s = "f" ∨ s = "F" ∨ s = "FALSE" ∨ s = "false" ∨ s = "False" then some false
  else none

/-- The size of `int` and `uint` in bits (a 64-bit platform). -/
def intSize : Nat := 64

/-! ## strings -/

/-- The scan of `strings.Split(s, sep)` for a non-empty `sep`: `skip` counts the
characters of a matched separator still to be dropped, `cur` is the current
piece, reversed. -/
def splitGo (sep : List Char) : List Char → Nat → List Char → List (List Char)
  | [], _, cur => [cur.reverse]
  | _ :: cs, skip + 1, cur => splitGo sep cs skip cur
  | c :: cs, 0, cur =>
    if sep.isPrefixOf (c :: cs) then cur.reverse :: splitGo sep cs (sep.length - 1) []
    else splitGo sep cs 0 (c :: cur)

/-- The function `strings.Split(s, sep)`; with an empty `sep` Go explodes the
string into its characters. -/
def stringsSplit (s sep : String) : List String :=
  if sep.data = [] then s.data.map (fun c => String.mk [c])
  else (splitGo sep.data s.data 0 []).map String.mk

/-! ## Go values seen through reflection -/

/-- The receiver of a `Scan` method: `func (t T) Scan` or `func (t *T) Scan`. -/
inductive Recv where
  | value
  | pointer
  deriving DecidableEq, Repr

/-- The widths of the sized integer types. -/
inductive Width where
  | w8
  | w16
  | w32
  | w64
  deriving DecidableEq, Repr

/-- The number of bits of a width. -/
def Width.bits : Width → Nat
  | .w8 => 8
  | .w16 => 16
  | .w32 => 32
  | .w64 => 64

/-- A `time.Time`, as an instant and a zone offset. -/
structure Time where
  unixNano : Int
  zoneOffset : Int
  deriving DecidableEq, Repr

/-- A struct tag, `reflect.StructTag`, as its list of `name:"value"` pairs. -/
abbrev StructTag := List (String × String)

/-- The method `StructTag.Get`: the value of the first pair named `name`, or `""`. -/
def StructTag.Get (tag : StructTag) (name : String) : String :=
  (tag.lookup name).getD ""

mutual
/-- A Go value together with its static type. -/
inductive Val where
  /-- A `time.Duration`, in nanoseconds. -/
  | duration (ns : Int)
  /-- A `time.Time`: a struct whose fields `wall`, `ext`, `loc` are unexported. -/
  | time (t : Time)
  | str (s : String)
  | int (n : Int)
  /-- The types `int8`, `int16`, `int32`, `int64`. -/
  | intN (w : Width) (n : Int)
  | uint (n : Nat)
  /-- The types `uint8`, `uint16`, `uint32`, `uint64`. -/
  | uintN (w : Width) (n : Nat)
  | bool (b : Bool)
  /-- A `float32`, as its bit pattern. -/
  | float32 (bits : Nat)
  /-- A `float64`, as its bit pattern. -/
  | float64 (bits : Nat)
  /-- A `[]string`; the nil slice is the empty list. -/
  | strs (xs : List String)
  /-- A struct without a `Scan` method. -/
  | struct (fs : Fields)
  /-- A pointer to `elem`; when `isNil`, the pointer is nil and `elem` is the
  zero value of the element type. -/
  | ptr (isNil : Bool) (elem : Val)
  /-- A value of the defined type `tname`, which declares a `Scan` method with
  receiver `recv` and whose underlying value is `under`. -/
  | scanner (tname : String) (recv : Recv) (under : Val)
  /-- A value of any other type (`interface{}`, a map, a defined type without
  methods over a basic type, ...). -/
  | other (tname : String)
/-- The fields of a struct, in declaration order. -/
inductive Fields where
  | nil
  | cons (name : String) (exported : Bool) (tag : StructTag) (v : Val) (rest : Fields)
end

/-- The kinds `reflect.Kind` that the walker tells apart. -/
inductive Kind where
  | ptr
  | struct
  | other
  deriving DecidableEq, Repr

/-- The method `reflect.Value.Kind`. -/
def Val.kind : Val → Kind
  | .ptr _ _ => .ptr
  | .struct _ => .struct
  | .time _ => .struct
  | .scanner _ _ (.struct _) => .struct
  | .scanner _ _ (.time _) => .struct
  | _ => .other

/-- Whether the dynamic type of `v` has `Scan` in its method set, that is
whether `v.(Scanner)` succeeds: a defined type with a value receiver, or a
pointer to a defined type with either receiver. -/
def Val.implementsScanner : Val → Bool
  | .scanner _ .value _ => true
  | .ptr _ (.scanner _ _ _) => true
  | _ => false

/-- The pointee of a pointer. -/
def Val.deref : Val → Val
  | .ptr _ e => e
  | v => v

/-- The name of the dynamic type, as `%T` prints it.  The model keeps no name
and no field list of a struct type, which is printed as `struct`. -/
def Val.typeName : Val → String
  | .duration _ => "time.Duration"
  | .time _ => "time.Time"
  | .str _ => "string"
  | .int _ => "int"
  | .intN w _ => "int" ++ toString w.bits
  | .uint _ => "uint"
  | .uintN w _ => "uint" ++ toString w.bits
  | .bool _ => "bool"
  | .float32 _ => "float32"
  | .float64 _ => "float64"
  | .strs _ => "[]string"
  | .struct _ => "struct"
  | .ptr _ e => "*" ++ e.typeName
  | .scanner n _ _ => n
  | .other n => n

/-- The concatenation of two field lists. -/
def Fields.append : Fields → Fields → Fields
  | .nil, gs => gs
  | .cons n e t v fs, gs => .cons n e t v (fs.append gs)

/-- The constructor of a value as a number: the kind of type the value has. -/
def Val.head : Val → Nat
  | .duration _ => 0
  | .time _ => 1
  | .str _ => 2
  | .int _ => 3
  | .intN _ _ => 4
  | .uint _ => 5
  | .uintN _ _ => 6
  | .bool _ => 7
  | .float32 _ => 8
  | .float64 _ => 9
  | .strs _ => 10
  | .struct _ => 11
  | .ptr _ _ => 12
  | .scanner _ _ _ => 13
  | .other _ => 14

/-- The constructor of a value and, for a pointer, of its pointee. -/
def Val.shape : Val → Nat × Nat
  | .ptr _ e => (12, e.head)
  | v => (v.head, 0)

/-- The options `ValueUnmarshalOpts`. -/
structure ValueUnmarshalOpts where
  SliceSep : String
  deriving DecidableEq, Repr

/-! ## The standard library and user code taken as parameters -/

/-- The parsers of the standard library that are not modelled, the `Scan`
methods of the user types, and the `UnmarshalTo` methods of the types of the
caller that implement `Value`. -/
structure Lib where
  /-- The function `time.ParseDuration`. -/
  parseDuration : String → Except GoError Int
  /-- The function `time.Parse(time.RFC3339, ·)`. -/
  parseTime : String → Except GoError Time
  /-- The function `strconv.ParseFloat(·, bitSize)`, giving the bit pattern. -/
  parseFloat : String → Nat → Except GoError Nat
  /-- The method `Scan` of the defined type `tname`, called with the string
  `src` on a receiver whose underlying value is `under`: the underlying value
  of the target after the call and the outcome.  With a value receiver Go runs
  the method on a copy of the target, so that the call changes of the target
  only what the copy shares with it (what its pointers, maps and slices refer
  to); a `Lib` that stands for Go code gives for such a receiver an
  underlying value that differs from `under` in nothing else. -/
  scan : (tname : String) → (src : String) → (under : Val) → Val × Outcome
  /-- The method `Scan` of `tname` with a pointer receiver, called on a nil
  pointer. -/
  scanNil : (tname : String) → (src : String) → Outcome
  /-- The method `UnmarshalTo(out, opts)` of the value `name` of a type of the
  caller that implements `Value`: `out` after the call and the outcome. -/
  unmarshalCustom : (name : String) → (out : Val) → ValueUnmarshalOpts → Val × Outcome
  /-- Go is typed: whatever the method stores through `out`, the type of `out`
  and of its pointee stays. -/
  unmarshalCustom_shape : ∀ name out opts, (unmarshalCustom name out opts).1.shape = out.shape

/-! ## values.go -/

/-- The interface `Value`: the two implementations that the package provides,
and the values of the types of the caller that implement it. -/
inductive Value where
  /-- The value `NullValue`. -/
  | null
  /-- A `StringValue`. -/
  | string (value : String)
  /-- A value of a type of the caller that implements `Value`; its method
  `UnmarshalTo` is `Lib.unmarshalCustom name`. -/
  | custom (name : String)
  deriving DecidableEq, Repr

/-- The method `nullValue.UnmarshalTo`. -/
def nullValue.UnmarshalTo (out : Val) (_opts : ValueUnmarshalOpts) : Val × Outcome :=
  (out, .ok)

/-- The assignment `*out = v`: a nil `out` panics. -/
def assign (isNil : Bool) (old new : Val) : Val × Outcome :=
  if isNil then (.ptr true old, .panicked) else (.ptr false new, .ok)

/-- The conversion `T(val)` of an `int64` to the integer type of width `w`. -/
def convSigned (w : Width) (val : Int) : Int := wrapInt w.bits val

/-- The conversion `T(val)` of an `int64` to the unsigned type of width `w`. -/
def convUnsigned (w : Width) (val : Int) : Nat := (val % 2 ^ w.bits).toNat

/-- The error of `strconv` for function `fn` on input `s`. -/
def numError (fn s : String) : NumErr → GoError
  | .syn => .numSyntax fn s
  | .range => .numRange fn s

/-- The function `unmarshalIntNumber[T]`: `conv` is the conversion `T(val)` into
the target type, `old` the value `out` points to. -/
def unmarshalIntNumber (s : String) (size : Nat) (isNil : Bool) (old : Val)
    (conv : Int → Val) : Val × Option GoError × Bool :=
  match parseInt s.data size with
  | (_, some err) =>
    (.ptr isNil old,
      some (.wrapf "parse (u)int%d from %q: %w" [toString size, s] (numError "ParseInt" s err)),
      false)
  | (val, none) =>
    if isNil then (.ptr true old, none, true) else (.ptr false (conv val), none, false)

/-- The function `unmarshalFloatNumber[T]`. -/
def unmarshalFloatNumber (L : Lib) (s : String) (size : Nat) (isNil : Bool) (old : Val)
    (conv : Nat → Val) : Val × Option GoError × Bool :=
  match L.parseFloat s size with
  | .error err =>
    (.ptr isNil old,
      some (.wrapf "parse float%d from %q: %w" [toString size, s] err), false)
  | .ok val =>
    if isNil then (.ptr true old, none, true) else (.ptr false (conv val), none, false)

/-- The tail of `StringValue.UnmarshalTo` after the type switch, for the cases
that set `parseErr`: the triple is the new `out`, `parseErr`, and whether the
helper panicked. -/
def finishParse (tname : String) (r : Val × Option GoError × Bool) : Val × Outcome :=
  match r with
  | (out, _, true) => (out, .panicked)
  | (out, some parseErr, false) => (out, .fail (.wrapf "unmarshal %T: %w" [tname] parseErr))
  | (out, none, false) => (out, .ok)

/-- The outcome of the `Scan` call as `StringValue.UnmarshalTo` returns it. -/
def wrapScan : Outcome → Outcome
  | .ok => .ok
  | .fail err => .fail (.wrapf "unmarshal binary: %w" [] err)
  | .panicked => .panicked

/-- The method `StringValue.UnmarshalTo`, on the value `out` passed as `any`;
the result is `out` after the call (a pointer with its new pointee) and the
outcome. -/
def StringValue.UnmarshalTo (L : Lib) (value : String) (out : Val)
    (opts : ValueUnmarshalOpts) : Val × Outcome :=
  match out with
  -- if s, ok := out.(Scanner); ok
  | .scanner n .value u =>
    let r := L.scan n value u
    (.scanner n .value r.1, wrapScan r.2)
  | .ptr false (.scanner n rc u) =>
    let r := L.scan n value u
    (.ptr false (.scanner n rc r.1), wrapScan r.2)
  | .ptr true (.scanner n .pointer u) =>
    (.ptr true (.scanner n .pointer u), wrapScan (L.scanNil n value))
  | .ptr true (.scanner n .value u) =>
    (.ptr true (.scanner n .value u), .panicked)
  -- switch out := out.(type)
  | .ptr isNil (.duration old) =>
    match L.parseDuration value with
    | .error err =>
      (.ptr isNil (.duration old), .fail (.wrapf "parse duration from %q: %w" [value] err))
    | .ok d => assign isNil (.duration old) (.duration d)
  | .ptr isNil (.time old) =>
    match L.parseTime value with
    | .error err =>
      (.ptr isNil (.time old), .fail (.wrapf "parse time from %q: %w" [value] err))
    | .ok t => assign isNil (.time old) (.time t)
  | .ptr isNil (.str old) => assign isNil (.str old) (.str value)
  | .ptr isNil (.int old) =>
    match parseInt value.data intSize with
    | (_, some err) =>
      (.ptr isNil (.int old),
        .fail (.wrapf "parse int from %q: %w" [value] (numError "Atoi" value err)))
    | (intVal, none) => assign isNil (.int old) (.int intVal)
  | .ptr isNil (.intN w old) =>
    finishParse ("*int" ++ toString w.bits)
      (unmarshalIntNumber value w.bits isNil (.intN w old) (fun val => .intN w (convSigned w val)))
  | .ptr isNil (.uint old) =>
    match parseUint value.data 64 with
    | (_, some err) =>
      (.ptr isNil (.uint old),
        .fail (.wrapf "parse uint from %q: %w" [value] (numError "ParseUint" value err)))
    | (uintVal, none) => assign isNil (.uint old) (.uint (uintVal % 2 ^ intSize))
  | .ptr isNil (.uintN w old) =>
    finishParse ("*uint" ++ toString w.bits)
      (unmarshalIntNumber value w.bits isNil (.uintN w old)
        (fun val => .uintN w (convUnsigned w val)))
  | .ptr isNil (.bool old) =>
    match parseBool value with
    | none =>
      (.ptr isNil (.bool old),
        .fail (.wrapf "parse bool from %q: %w" [value] (.numSyntax "ParseBool" value)))
    | some boolVal => assign isNil (.bool old) (.bool boolVal)
  | .ptr isNil (.float32 old) =>
    finishParse "*float32"
      (unmarshalFloatNumber L value 32 isNil (.float32 old) (fun val => .float32 val))
  | .ptr isNil (.float64 old) =>
    finishParse "*float64"
      (unmarshalFloatNumber L value 64 isNil (.float64 old) (fun val => .float64 val))
  | .ptr isNil (.strs old) =>
    if opts.SliceSep = "" then
      (.ptr isNil (.strs old), .fail (.errorf "slice separator is not set" []))
    else assign isNil (.strs old) (.strs (stringsSplit value opts.SliceSep))
  | out => (out, .fail (.errorf "unsupported type %T" [out.typeName]))

/-- The method `Value.UnmarshalTo`, dispatched on the implementation. -/
def Value.UnmarshalTo (L : Lib) (v : Value) (out : Val) (opts : ValueUnmarshalOpts) :
    Val × Outcome :=
  match v with
  | .null => nullValue.UnmarshalTo out opts
  | .string value => StringValue.UnmarshalTo L value out opts
  | .custom name => L.unmarshalCustom name out opts

/-! ## types.go, map.go -/

/-- A `context.Context`, as the value of `ctx.Err()`: `none` while the context
is live. -/
structure Context where
  err : Option GoError

/-- The context `context.Background()`. -/
def Context.background : Context := ⟨none⟩

/-- The interface `KV`: a backend with state `σ` whose `Get` returns a value
or an error and the next state. -/
structure KV (σ : Type) where
  Get : Context → σ → String → Except GoError Value × σ

/-- The type `MapKV`, a map of strings, as an association list in which the
first binding of a key counts. -/
abbrev MapKV := List (String × String)

/-- The method `MapKV.Get`. -/
def MapKV.Get (m : MapKV) (_ctx : Context) (key : String) : Except GoError Value :=
  match m.lookup key with
  | none => .ok .null
  | some val => .ok (.string val)

/-- A `MapKV` as a backend; it has no state. -/
def MapKV.toKV (m : MapKV) : KV Unit :=
  ⟨fun ctx s key => (m.Get ctx key, s)⟩

/-! ## utils.go -/

/-- The function `initField`: a nil pointer field is set to a new instance. -/
def initField : Val → Val
  | .ptr true e => .ptr false e
  | v => v

/-- The type `tagSpec`. -/
structure tagSpec where
  key : String
  omitempty : Bool
  deriving DecidableEq, Repr

/-- The function `getTagSpec`; `strings.Split` never returns an empty slice, so
the function does not panic. -/
def getTagSpec (tag : String) : tagSpec :=
  match stringsSplit tag "," with
  | [] => ⟨"", false⟩
  | key :: mods => ⟨key, mods.any (fun m => m = "omitempty")⟩

/-! ## decoder.go -/

/-- The type `decoderConfig`; `pfx` is the Go field `prefix`. -/
structure decoderConfig where
  separator : String
  sliceSep : String
  tag : String
  pfx : String
  deriving DecidableEq, Repr

/-- The variable `defaultConfig`. -/
def defaultConfig : decoderConfig :=
  { separator := "/", sliceSep := ",", tag := "kv", pfx := "" }

/-- The error `ErrEmptyKeySep`. -/
def ErrEmptyKeySep : GoError := .errorf "empty key separator" []

/-- The error `ErrEmptySliceSep`. -/
def ErrEmptySliceSep : GoError := .errorf "empty slice separator" []

/-- The error `ErrorEmptyTag`. -/
def ErrorEmptyTag : GoError := .errorf "empty tag name" []

/-- The type `DecoderOption`: the configuration after the call and the error. -/
abbrev DecoderOption := decoderConfig → decoderConfig × Option GoError

/-- The option `WithSeparator`. -/
def WithSeparator (separator : String) : DecoderOption := fun c =>
  if separator = "" then (c, some ErrEmptyKeySep)
  else ({ c with separator := separator }, none)

/-- The option `WithSliceSeparator`. -/
def WithSliceSeparator (separator : String) : DecoderOption := fun d =>
  if separator = "" then (d, some ErrEmptySliceSep)
  else ({ d with sliceSep := separator }, none)

/-- The option `WithTag`. -/
def WithTag (tag : String) : DecoderOption := fun d =>
  if tag = "" then (d, some ErrorEmptyTag)
  else ({ d with tag := tag }, none)

/-- The option `WithPrefix`. -/
def WithPrefix (p : String) : DecoderOption := fun d =>
  ({ d with pfx := p }, none)

/-- The type `Decoder`. -/
structure Decoder (σ : Type) where
  kv : KV σ
  config : decoderConfig

/-- The loop of `NewDecoder` over the options: the configuration and the
errors collected so far. -/
def applyOptions : List DecoderOption → decoderConfig → List GoError →
    decoderConfig × List GoError
  | [], cfg, errs => (cfg, errs)
  | opt :: opts, cfg, errs =>
    match opt cfg with
    | (cfg1, some err) => applyOptions opts cfg1 (errs ++ [err])
    | (cfg1, none) => applyOptions opts cfg1 errs

/-- The function `NewDecoder`. -/
def NewDecoder {σ : Type} (kv : KV σ) (opts : List DecoderOption) :
    Option (Decoder σ) × Option GoError :=
  match applyOptions opts defaultConfig [] with
  | (cfg, []) => (some ⟨kv, cfg⟩, none)
  | (_, e :: errs) => (none, some (.join (e :: errs)))

/-- The state of a walk: the value walked as it is now, the state of the
backend, the keys passed to `Get` so far in call order, and how it ended. -/
structure Walk (σ : Type) (α : Type) where
  val : α
  store : σ
  gets : List String
  status : Outcome

/-- The statement `return fmt.Errorf(format, arg, err)` on a non-nil error. -/
def wrapOutcome (format : String) (arg : String) : Outcome → Outcome
  | .ok => .ok
  | .fail err => .fail (.wrapf format [arg] err)
  | .panicked => .panicked

/-- The key of a field in `decodeField`: `none` when the tag is empty and the
field is skipped, else `pfx + tagSpec.key`. -/
def fieldKey (cfg : decoderConfig) (pfx : String) (tag : StructTag) : Option String :=
  if tag.Get cfg.tag = "" then none
  else some (pfx ++ (getTagSpec (tag.Get cfg.tag)).key)

/-- The part of `decodeField` for a field that `structField` does not report
as a struct: `initField`, then `Get`, then `UnmarshalTo` on the field itself
when it is a pointer and on its address otherwise. -/
def decodeLeaf {σ : Type} (L : Lib) (d : Decoder σ) (ctx : Context) (key : String)
    (v : Val) (s : σ) : Walk σ Val :=
  let f := initField v
  let g := d.kv.Get ctx s key
  match g.1 with
  | .error err => ⟨f, g.2, [key], .fail (.wrapf "get key %q: %w" [key] err)⟩
  | .ok value =>
    let opts : ValueUnmarshalOpts := ⟨d.config.sliceSep⟩
    if f.kind = .ptr then
      let r := value.UnmarshalTo L f opts
      ⟨r.1, g.2, [key], wrapOutcome "unmarshal value of %q: %w" key r.2⟩
    else
      let r := value.UnmarshalTo L (.ptr false f) opts
      ⟨r.1.deref, g.2, [key], wrapOutcome "unmarshal value of %q: %w" key r.2⟩

mutual
/-- The method `Decoder.decodeStruct` on the fields of `val`. -/
def decodeStruct {σ : Type} (L : Lib) (d : Decoder σ) (ctx : Context) (pfx : String) :
    Fields → σ → Walk σ Fields
  | .nil, s => ⟨.nil, s, [], .ok⟩
  | .cons name exported tag v rest, s =>
    if !exported then
      -- !field.CanSet(): continue
      let r := decodeStruct L d ctx pfx rest s
      ⟨.cons name exported tag v r.val, r.store, r.gets, r.status⟩
    else
      let r1 := decodeField L d ctx pfx name tag v s
      match r1.status with
      | .ok =>
        let r2 := decodeStruct L d ctx pfx rest r1.store
        ⟨.cons name exported tag r1.val r2.val, r2.store, r1.gets ++ r2.gets, r2.status⟩
      | st =>
        ⟨.cons name exported tag r1.val rest, r1.store, r1.gets,
          wrapOutcome "decode field %s: %w" name st⟩
/-- The method `Decoder.decodeField` on the field value `f` with name `name`
and tag `tag`.  The cases are those of `structField` after `initField`. -/
def decodeField {σ : Type} (L : Lib) (d : Decoder σ) (ctx : Context) (pfx : String)
    (name : String) (tag : StructTag) : Val → σ → Walk σ Val
  | .ptr isNil (.struct fs), s =>
    match fieldKey d.config pfx tag with
    | none => ⟨.ptr isNil (.struct fs), s, [], .ok⟩
    | some key =>
      let r := decodeStruct L d ctx (key ++ "/") fs s
      ⟨.ptr false (.struct r.val), r.store, r.gets,
        wrapOutcome "decode struct field %s: %w" name r.status⟩
  | .ptr isNil (.time t), s =>
    -- a pointer to time.Time: the struct has no settable field
    match fieldKey d.config pfx tag with
    | none => ⟨.ptr isNil (.time t), s, [], .ok⟩
    | some _ => ⟨.ptr false (.time t), s, [], .ok⟩
  | .struct fs, s =>
    match fieldKey d.config pfx tag with
    | none => ⟨.struct fs, s, [], .ok⟩
    | some key =>
      let r := decodeStruct L d ctx (key ++ "/") fs s
      ⟨.struct r.val, r.store, r.gets,
        wrapOutcome "decode struct field %s: %w" name r.status⟩
  | .time t, s =>
    -- time.Time is of kind Struct and has no settable field
    ⟨.time t, s, [], .ok⟩
  | .scanner n .pointer (.struct fs), s =>
    -- the field is not a pointer, so its method set lacks the pointer method
    match fieldKey d.config pfx tag with
    | none => ⟨.scanner n .pointer (.struct fs), s, [], .ok⟩
    | some key =>
      let r := decodeStruct L d ctx (key ++ "/") fs s
      ⟨.scanner n .pointer (.struct r.val), r.store, r.gets,
        wrapOutcome "decode struct field %s: %w" name r.status⟩
  | .scanner n .pointer (.time t), s =>
    ⟨.scanner n .pointer (.time t), s, [], .ok⟩
  | v, s =>
    match fieldKey d.config pfx tag with
    | none => ⟨v, s, [], .ok⟩
    | some key => decodeLeaf L d ctx key v s
end

/-- The method `Decoder.DecodeContext` on the value `v` passed as `any`. -/
def Decoder.DecodeContext {σ : Type} (L : Lib) (d : Decoder σ) (ctx : Context)
    (v : Val) (s : σ) : Walk σ Val :=
  match v with
  | .ptr false (.struct fs) =>
    let r := decodeStruct L d ctx d.config.pfx fs s
    ⟨.ptr false (.struct r.val), r.store, r.gets, r.status⟩
  | .ptr false (.time t) => ⟨.ptr false (.time t), s, [], .ok⟩
  | .ptr false (.scanner n rc (.struct fs)) =>
    let r := decodeStruct L d ctx d.config.pfx fs s
    ⟨.ptr false (.scanner n rc (.struct r.val)), r.store, r.gets, r.status⟩
  | .ptr false (.scanner n rc (.time t)) =>
    ⟨.ptr false (.scanner n rc (.time t)), s, [], .ok⟩
  | .ptr false e =>
    ⟨.ptr false e, s, [], .fail (.errorf "decode target must be a pointer to a struct" [])⟩
  | v => ⟨v, s, [], .fail (.errorf "decode target must be a non-nil pointer" [])⟩

/-- The method `Decoder.Decode`. -/
def Decoder.Decode {σ : Type} (L : Lib) (d : Decoder σ) (v : Val) (s : σ) : Walk σ Val :=
  d.DecodeContext L Context.background v s

/-- The fields of `time.Time` as reflection shows them: all unexported. -/
def timeFields : Fields :=
  .cons "wall" false [] (.other "uint64")
    (.cons "ext" false [] (.other "int64")
      (.cons "loc" false [] (.ptr true (.other "time.Location")) .nil))

/-! ## The fixtures of the tests -/

/-- The library on the literals that the tests use: `time.ParseDuration` on
`"1s"` and `"5s"`, `time.Parse` on `"2021-01-01T00:00:00Z"`,
`strconv.ParseFloat` on `"42.42"`, and the `Scan` methods of the types
`scanner` and `errScanner` of `values_test.go`; a counting scanner `counter`
appends the scanned string to its value; a value `append` of the caller
appends `"x"` to a `[]string` target. -/
def testLib : Lib where
  parseDuration := fun s =>
    if s = "1s" then .ok 1000000000
    else if s = "5s" then .ok 5000000000
    else .error (.errorf "time: invalid duration %q" [s])
  parseTime := fun s =>
    if s = "2021-01-01T00:00:00Z" then .ok ⟨1609459200000000000, 0⟩
    else .error (.errorf "parsing time %q" [s])
  parseFloat := fun s size =>
    if s = "42.42" then .ok (if size = 32 then 1110027796 else 4631166901565532406)
    else .error (.numSyntax "ParseFloat" s)
  scan := fun tname src under =>
    if tname = "scanner" then
      (.struct (.cons "value" false [] (.str src) .nil), .ok)
    else if tname = "counter" then
      match under with
      | .str old => (.str (old ++ src), .ok)
      | u => (u, .ok)
    else (under, .fail (.errorf "scan error" []))
  scanNil := fun _ _ => .panicked
  unmarshalCustom := fun name out _ =>
    match out with
    | .ptr false (.strs xs) =>
      if name = "append" then (.ptr false (.strs (xs ++ ["x"])), .ok)
      else (.ptr false (.strs xs), .fail (.errorf "unknown value" []))
    | v => (v, .fail (.errorf "unsupported target" []))
  unmarshalCustom_shape := by
    intro name out opts
    dsimp only
    split
    · split <;> rfl
    · rfl

/-- The zero value of `time.Time`: January 1, year 1, 00:00:00 UTC. -/
def zeroTime : Time := ⟨-62135596800000000000, 0⟩

/-! ## Specification-side definitions -/

/-- One call `out.Scan(src)` on a value whose method set has `Scan`: through a
non-nil pointer the method runs on the pointee, a value receiver reached
through a nil pointer is a nil dereference. -/
def callScan (L : Lib) (src : String) : Val → Val × Outcome
  | .scanner n .value u => (.scanner n .value (L.scan n src u).1, (L.scan n src u).2)
  | .ptr false (.scanner n rc u) => (.ptr false (.scanner n rc (L.scan n src u).1), (L.scan n src u).2)
  | .ptr true (.scanner n .pointer u) => (.ptr true (.scanner n .pointer u), L.scanNil n src)
  | .ptr true (.scanner n .value u) => (.ptr true (.scanner n .value u), .panicked)
  | v => (v, .ok)

/-- The target of the key-composition example: a struct with a field `A` tagged
`"a"` that is a struct with a string field `B` tagged `"b"`. -/
def nestedTarget : Val :=
  .ptr false (.struct
    (.cons "A" true [("kv", "a")] (.struct (.cons "B" true [("kv", "b")] (.str "") .nil)) .nil))

/-- A target with one field `T time.Time` tagged `"t"`, at the zero time. -/
def timeTarget : Val :=
  .ptr false (.struct (.cons "T" true [("kv", "t")] (.time zeroTime) .nil))

/-- A target with one field `N uint8` tagged `"n"`, at zero. -/
def uint8Target : Val :=
  .ptr false (.struct (.cons "N" true [("kv", "n")] (.uintN .w8 0) .nil))

/-- A decoder over a map with the default configuration. -/
def mapDecoder (m : MapKV) : Decoder Unit := ⟨m.toKV, defaultConfig⟩

/-- Whether a character is one of the decimal digits `'0'`..`'9'`. -/
def isDecimalDigit (c : Char) : Bool := decide (48 ≤ c.toNat ∧ c.toNat ≤ 57)

/-- The number that a string of decimal digits writes, most significant digit
first. -/
def decimalValue (ds : List Char) : Nat :=
  Nat.ofDigits 10 (ds.reverse.map (fun c => c.toNat - 48))

/-- The value of an unsigned base-10 literal: a non-empty string of decimal
digits. -/
def unsignedLiteral (ds : List Char) : Option Nat :=
  if ds ≠ [] ∧ ds.all isDecimalDigit = true then some (decimalValue ds) else none

/-- The value of an optionally signed base-10 literal: an optional `+` or `-`
and then a non-empty string of decimal digits. -/
def signedLiteral (s : String) : Option Int :=
  match s.data with
  | '+' :: ds => (unsignedLiteral ds).map (fun (n : Nat) => Int.ofNat n)
  | '-' :: ds => (unsignedLiteral ds).map (fun (n : Nat) => -Int.ofNat n)
  | ds => (unsignedLiteral ds).map (fun (n : Nat) => Int.ofNat n)

/-- The accumulation of decimal digits onto `n`, without any bound. -/
def foldDigits (n : Nat) (cs : List Char) : Nat :=
  cs.foldl (fun a c => a * 10 + (c.toNat - 48)) n

/-- The ways in which a field holds a struct that the walker recurses into: a
pointer to a struct, a struct, or a struct of a defined type whose `Scan`
has a pointer receiver (the field itself is then no Scanner). -/
inductive StructShape where
  | ptr
  | plain
  | scanner (tname : String)

/-- The field that holds the struct with fields `fs` in the given way, after
the walk: a pointer is not nil. -/
def StructShape.build : StructShape → Fields → Val
  | .ptr, fs => .ptr false (.struct fs)
  | .plain, fs => .struct fs
  | .scanner n, fs => .scanner n .pointer (.struct fs)

/-- What `initField` and `structField` make of a tagged field. -/
inductive FieldClass where
  /-- The field is reported as a struct with the fields `fs`. -/
  | nested (shape : StructShape) (fs : Fields)
  /-- The field is reported as a struct without a settable field
  (`time.Time`); `after` is the field after `initField`. -/
  | closed (after : Val)
  /-- The field is not reported as a struct: it is looked up. -/
  | leaf

/-- The class of a field value: a view of the cases of `decodeField`. -/
def Val.fieldClass : Val → FieldClass
  | .ptr _ (.struct fs) => .nested .ptr fs
  | .ptr _ (.time t) => .closed (.ptr false (.time t))
  | .struct fs => .nested .plain fs
  | .time t => .closed (.time t)
  | .scanner n .pointer (.struct fs) => .nested (.scanner n) fs
  | .scanner n .pointer (.time t) => .closed (.scanner n .pointer (.time t))
  | _ => .leaf

/-- The key that a chain of tag keys `k1, ..., kn` composes with the separator
`/`: `k1/k2/.../kn`. -/
def joinKeys : List String → String
  | [] => ""
  | [k] => k
  | k :: ks => k ++ "/" ++ joinKeys ks

mutual
/-- The chains of tag keys that lead to the leaf fields of a struct, in
declaration order and depth first: a field counts when it is exported and
has a non-empty tag under `tagName`. -/
def leafChains (tagName : String) : Fields → List (List String)
  | .nil => []
  | .cons _ exported tag v rest =>
    if exported = false ∨ tag.Get tagName = "" then leafChains tagName rest
    else
      (fieldChains tagName v).map (fun ch => (getTagSpec (tag.Get tagName)).key :: ch) ++
        leafChains tagName rest
/-- The chains of tag keys below a tagged field: the empty chain for a leaf, the
chains of its fields for a struct or a pointer to one. -/
def fieldChains (tagName : String) : Val → List (List String)
  | .ptr _ (.struct fs) => leafChains tagName fs
  | .ptr _ (.time _) => []
  | .struct fs => leafChains tagName fs
  | .time _ => []
  | .scanner _ .pointer (.struct fs) => leafChains tagName fs
  | .scanner _ .pointer (.time _) => []
  | _ => [[]]
end

mutual
/-- The fields of a struct after the auto-vivification that a walk performs:
every exported field with a non-empty tag under `tagName` that is a nil
pointer becomes a pointer to the zero value of its element type, also inside
the structs that the walk recurses into; nothing else changes. -/
def vivify (tagName : String) : Fields → Fields
  | .nil => .nil
  | .cons n exported tag v rest =>
    if exported = false ∨ tag.Get tagName = "" then .cons n exported tag v (vivify tagName rest)
    else .cons n exported tag (vivifyField tagName v) (vivify tagName rest)
/-- The auto-vivification of a tagged field. -/
def vivifyField (tagName : String) : Val → Val
  | .ptr _ (.struct fs) => .ptr false (.struct (vivify tagName fs))
  | .ptr _ e => .ptr false e
  | .struct fs => .struct (vivify tagName fs)
  | .scanner n .pointer (.struct fs) => .scanner n .pointer (.struct (vivify tagName fs))
  | v => v
end

mutual
/-- Whether no pointer in the fields is nil. -/
def Fields.nilFree : Fields → Bool
  | .nil => true
  | .cons _ _ _ v rest => v.nilFree && rest.nilFree
/-- Whether no pointer in the value is nil. -/
def Val.nilFree : Val → Bool
  | .ptr isNil e => !isNil && e.nilFree
  | .struct fs => fs.nilFree
  | .scanner _ _ u => u.nilFree
  | _ => true
end

/-- A target with one field `P *int` tagged `"p"` that is nil. -/
def nilPtrTarget : Val :=
  .ptr false (.struct (.cons "P" true [("kv", "p")] (.ptr true (.int 0)) .nil))

/-- A zero-valued target without pointers: a string `Foo`, an int `Bar` and a
struct `Baz` with a bool `Asd`. -/
def flatTarget : Val :=
  .ptr false (.struct
    (.cons "Foo" true [("kv", "foo")] (.str "")
      (.cons "Bar" true [("kv", "bar")] (.int 0)
        (.cons "Baz" true [("kv", "baz")]
          (.struct (.cons "Asd" true [("kv", "asd")] (.bool false) .nil)) .nil))))

/-- The zero value of the struct behind `Zxc` in the target of `TestDecoder`:
`Num int`, `Dur time.Duration` and `Bin *scanner`. -/
def zxcFields : Fields :=
  .cons "Num" true [("kv", "num")] (.int 0)
    (.cons "Dur" true [("kv", "dur")] (.duration 0)
      (.cons "Bin" true [("kv", "bin")]
        (.ptr true (.scanner "scanner" .pointer (.struct (.cons "value" false [] (.str "") .nil))))
        .nil))

/-- The fields `Qwe` and `Asd` that precede `Zxc` in the struct `Baz` of the
target of `TestDecoder`. -/
def bazHead : Fields :=
  .cons "Qwe" true [("kv", "qwe")] (.str "")
    (.cons "Asd" true [("kv", "asd")] (.bool false) .nil)

/-- The zero-valued target of `TestDecoder`. -/
def testTarget : Val :=
  .ptr false (.struct
    (.cons "Foo" true [("kv", "foo")] (.str "")
      (.cons "Bar" true [("kv", "bar")] (.int 0)
        (.cons "Baz" true [("kv", "baz")]
          (.struct (bazHead.append
            (.cons "Zxc" true [("kv", "zxc")] (.ptr true (.struct zxcFields)) .nil))) .nil))))

/-- The backend of `TestDecoder`. -/
def testKV : MapKV :=
  [("foo", "bar"), ("bar", "42"), ("baz/qwe", "qwe"), ("baz/asd", "true"),
    ("baz/zxc/num", "42"), ("baz/zxc/dur", "1s"), ("baz/zxc/bin", "hello")]

mutual
/-- Whether, in the fields of a struct, no exported field with a non-empty tag
under `tagName` is a nil pointer to a struct, also inside the structs and
pointed structs of such fields. -/
def Fields.structPtrsSet (tagName : String) : Fields → Bool
  | .nil => true
  | .cons _ exported tag v rest =>
    (!exported || decide (tag.Get tagName = "") || v.structPtrsSet tagName) &&
      rest.structPtrsSet tagName
/-- Whether a tagged field is no nil pointer to a struct and holds none. -/
def Val.structPtrsSet (tagName : String) : Val → Bool
  | .ptr isNil (.struct fs) => !isNil && fs.structPtrsSet tagName
  | .struct fs => fs.structPtrsSet tagName
  | _ => true
end

/-- The function `UnmarshalContext`. -/
def UnmarshalContext {σ : Type} (L : Lib) (ctx : Context) (kv : KV σ) (v : Val) (s : σ) :
    Walk σ Val :=
  match NewDecoder kv [] with
  | (_, some err) => ⟨v, s, [], .fail err⟩
  | (some dec, none) => dec.DecodeContext L ctx v s
  | (none, none) => ⟨v, s, [], .panicked⟩

/-- The function `Unmarshal`. -/
def Unmarshal {σ : Type} (L : Lib) (kv : KV σ) (v : Val) (s : σ) : Walk σ Val :=
  UnmarshalContext L Context.background kv v s

/-- The relation of `errors.Is`: the error is the target, or wraps an error
that is, or joins errors one of which is. -/
inductive GoError.Is : GoError → GoError → Prop where
  | refl (e : GoError) : GoError.Is e e
  | wrap (format : String) (args : List String) (cause target : GoError) :
    GoError.Is cause target → GoError.Is (.wrapf format args cause) target
  | join (errs : List GoError) (e target : GoError) :
    e ∈ errs → GoError.Is e target → GoError.Is (.join errs) target

/-- The configuration after all the options of a list were applied in order,
each to the configuration that the one before left. -/
def runOptions (opts : List DecoderOption) (cfg : decoderConfig) : decoderConfig :=
  opts.foldl (fun c opt => (opt c).1) cfg

/-- The errors that the options of a list return when applied in order, each
to the configuration that the one before left. -/
def optionErrors : List DecoderOption → decoderConfig → List GoError
  | [], _ => []
  | opt :: opts, cfg => (opt cfg).2.toList ++ optionErrors opts (opt cfg).1

/-- The options that the package provides, by name. -/
inductive BuiltinOption where
  | separator (s : String)
  | sliceSeparator (s : String)
  | tag (s : String)
  | pfx (p : String)

/-- The option of the package that a name stands for. -/
def BuiltinOption.toOption : BuiltinOption → DecoderOption
  | .separator s => WithSeparator s
  | .sliceSeparator s => WithSliceSeparator s
  | .tag s => WithTag s
  | .pfx p => WithPrefix p

/-- Whether the option is a `WithSeparator`. -/
def BuiltinOption.isSeparator : BuiltinOption → Bool
  | .separator _ => true
  | _ => false

/-- Whether the option is a `WithSliceSeparator`. -/
def BuiltinOption.isSliceSeparator : BuiltinOption → Bool
  | .sliceSeparator _ => true
  | _ => false

/-- Whether the option is a `WithTag`. -/
def BuiltinOption.isTag : BuiltinOption → Bool
  | .tag _ => true
  | _ => false

/-- Whether the option is a `WithPrefix`. -/
def BuiltinOption.isPfx : BuiltinOption → Bool
  | .pfx _ => true
  | _ => false

/-- The literals that `strconv.ParseBool` reads as true. -/
def trueLiterals : List String := ["1", "t", "T", "TRUE", "true", "True"]

/-- The literals that `strconv.ParseBool` reads as false. -/
def falseLiterals : List String := ["0", "f", "F", "FALSE", "false", "False"]

/-- The failure of a leaf at the key `k`: `e0` is the error that `Get` returned
for `k` in some state of the backend, or the error that `UnmarshalTo`
returned for the value that `Get` gave for `k`. -/
def LeafFailure {σ : Type} (L : Lib) (d : Decoder σ) (ctx : Context) (k : String)
    (e0 : GoError) : Prop :=
  ∃ s', (d.kv.Get ctx s' k).1 = .error e0 ∨
    ∃ value out, (d.kv.Get ctx s' k).1 = .ok value ∧
      (value.UnmarshalTo L out ⟨d.config.sliceSep⟩).2 = .fail e0

/-- The fields of a value of kind struct, as reflection shows them. -/
def Val.structFields : Val → Option Fields
  | .struct fs => some fs
  | .time _ => some timeFields
  | .scanner _ _ (.struct fs) => some fs
  | .scanner _ _ (.time _) => some timeFields
  | _ => none

/-- Whether a value is a non-nil pointer to a struct. -/
def Val.isStructPtr : Val → Bool
  | .ptr false e => decide (e.kind = .struct)
  | _ => false
/-- The field `Foo` that precedes `Bar` in the target of `TestDecoder`. -/
def rootHead : Fields := .cons "Foo" true [("kv", "foo")] (.str "") .nil

/-- The field `Baz` that follows `Bar` in the zero-valued target of
`TestDecoder`. -/
def rootTail : Fields :=
  .cons "Baz" true [("kv", "baz")]
    (.struct (bazHead.append
      (.cons "Zxc" true [("kv", "zxc")] (.ptr true (.struct zxcFields)) .nil))) .nil

/-- The backend of `TestDecoder` with a value for `bar` that is no integer. -/
def badKV : MapKV :=
  [("foo", "bar"), ("bar", "x"), ("baz/qwe", "qwe"), ("baz/asd", "true"),
    ("baz/zxc/num", "42"), ("baz/zxc/dur", "1s"), ("baz/zxc/bin", "hello")]

/-- The backend of `TestDecoder` with a key `secret` added. -/
def secretKV : MapKV := ("secret", "5") :: testKV

/-- The value that `decodeField` passes to `UnmarshalTo` for a field: the field
itself when it is a pointer, allocated if it was nil, and its address
otherwise. -/
def fieldTarget (v : Val) : Val :=
  if v.kind = .ptr then initField v else .ptr false v

/-- The field behind the value that was passed to `UnmarshalTo`. -/
def fieldOfTarget (v out : Val) : Val :=
  if v.kind = .ptr then out else out.deref

/-- The nil field `Bin *scanner` of the target of `TestDecoder`. -/
def binField : Val :=
  .ptr true (.scanner "scanner" .pointer (.struct (.cons "value" false [] (.str "") .nil)))

/-- The keys of the leaf fields of a struct walked under the prefix `pfx`, in
declaration order and depth first: the prefix followed by the chain of tag
keys of the leaf, joined with `/`. -/
def leafKeys (tagName pfx : String) (fs : Fields) : List String :=
  (leafChains tagName fs).map (fun ch => pfx ++ joinKeys ch)

/-- A backend that behaves as `kv` and records, in its state, the keys that
`Get` is called with, in call order. -/
def KV.recording {σ : Type} (kv : KV σ) : KV (σ × List String) :=
  ⟨fun ctx st key => ((kv.Get ctx st.1 key).1, ((kv.Get ctx st.1 key).2, st.2 ++ [key]))⟩

/-- The decoder over the recording backend. -/
def Decoder.recording {σ : Type} (d : Decoder σ) : Decoder (σ × List String) :=
  ⟨d.kv.recording, d.config⟩

/-- The pieces of `s` between the successive occurrences of `sep`, found from
left to right without overlap: `parts` is such a list of pieces when its last
piece is what is left of `s` and holds no occurrence of `sep`, and each piece
before is followed in `s` by an occurrence of `sep` that is the leftmost one
from where the piece starts. -/
def IsSplit (sep : List Char) : List Char → List (List Char) → Prop
  | _, [] => False
  | s, [p] => s = p ∧ ∀ i, ¬ sep <+: s.drop i
  | s, p :: q :: parts =>
    ∃ rest, s = p ++ sep ++ rest ∧ (∀ i, i < p.length → ¬ sep <+: s.drop i) ∧
      IsSplit sep rest (q :: parts)

/-- Whether `out` is a pointer to one of the types listed in the type switch of
`StringValue.UnmarshalTo`. -/
def Val.isSupportedTarget : Val → Bool
  | .ptr _ (.duration _) => true
  | .ptr _ (.time _) => true
  | .ptr _ (.str _) => true
  | .ptr _ (.int _) => true
  | .ptr _ (.intN _ _) => true
  | .ptr _ (.uint _) => true
  | .ptr _ (.uintN _ _) => true
  | .ptr _ (.bool _) => true
  | .ptr _ (.float32 _) => true
  | .ptr _ (.float64 _) => true
  | .ptr _ (.strs _) => true
  | _ => false

/-- A target of type `*interface{}`, pointing to a nil interface. -/
def anyTarget : Val := .ptr false (.other "interface {}")

/-- The function `getTagSpec` with its panic kept: `none` is the branch
`len(specs) == 0`, and the modifiers are folded as the `for` loop does. -/
def getTagSpecChecked (tag : String) : Option tagSpec :=
  match stringsSplit tag "," with
  | [] => none
  | key :: rest =>
    some (rest.foldl
      (fun spec s => if s = "omitempty" then { spec with omitempty := true } else spec)
      ⟨key, false⟩)

/-- A target with one field `F` of value `v` whose annotation under the
default tag name is `a`. -/
def annotatedTarget (a : String) (v : Val) : Val :=
  .ptr false (.struct (.cons "F" true [("kv", a)] v .nil))

/-- The function `strings.Count(s, sep)` for a non-empty `sep`: the number of
occurrences of `sep` met when scanning `s` from the left and resuming after
each occurrence; `skip` counts the characters of a matched occurrence still to
be passed. -/
def countGo (sep : List Char) : List Char → Nat → Nat
  | [], _ => 0
  | _ :: cs, skip + 1 => countGo sep cs skip
  | c :: cs, 0 =>
    if sep.isPrefixOf (c :: cs) then countGo sep cs (sep.length - 1) + 1
    else countGo sep cs 0

/-- The function `strings.Join(elems, sep)`. -/
def stringsJoin : List String → String → String
  | [], _ => ""
  | [a], _ => a
  | a :: b :: rest, sep => a ++ sep ++ stringsJoin (b :: rest) sep

/-! ## consul/kv.go, consul/decoder.go -/

/-- The client `*api.KV` of Consul, with state `σ`: `Get(key, nil)` gives the
value of the pair stored at `key` (`none` for a nil pair) or an error, and the
next state.  The query metadata is dropped. -/
structure ConsulClient (σ : Type) where
  Get : σ → String → Except GoError (Option String) × σ

/-- The method `consulKV.Get`: the `select` on `ctx.Done()` comes first. -/
def consulKV.Get {σ : Type} (ckv : ConsulClient σ) (ctx : Context) (s : σ) (key : String) :
    Except GoError Value × σ :=
  match ctx.err with
  | some err => (.error err, s)
  | none =>
    let r := ckv.Get s key
    match r.1 with
    | .error err => (.error (.wrapf "get key %q: %w" [key] err), r.2)
    | .ok none => (.ok .null, r.2)
    | .ok (some value) => (.ok (.string value), r.2)

/-- The type `consulKV` as a backend. -/
def consulKV.toKV {σ : Type} (ckv : ConsulClient σ) : KV σ :=
  ⟨consulKV.Get ckv⟩

/-- The type `decoderConfig` of the package `consul`. -/
structure Consul.decoderConfig where
  sliceSep : String
  pfx : String
  deriving DecidableEq, Repr

/-- The type `DecoderOption` of the package `consul`. -/
abbrev Consul.DecoderOption := Consul.decoderConfig → Consul.decoderConfig

/-- The option `consul.WithSliceSeparator`. -/
def Consul.WithSliceSeparator (separator : String) : Consul.DecoderOption := fun d =>
  { d with sliceSep := separator }

/-- The option `consul.WithPrefix`. -/
def Consul.WithPrefix (p : String) : Consul.DecoderOption := fun d =>
  { d with pfx := p }

/-- The function `consul.NewDecoder`; the result is the `marshaler.Decoder` that
the `consul.Decoder` wraps and delegates to. -/
def Consul.NewDecoder {σ : Type} (ckv : ConsulClient σ) (opts : List Consul.DecoderOption) :
    Option (Decoder σ) × Option GoError :=
  let cfg := opts.foldl (fun c opt => opt c) (⟨"", ""⟩ : Consul.decoderConfig)
  let decOpts : List Marshaler.DecoderOption :=
    [Marshaler.WithSeparator "/", Marshaler.WithTag "consul"] ++
      (if cfg.sliceSep ≠ "" then [Marshaler.WithSliceSeparator cfg.sliceSep] else []) ++
      (if cfg.pfx ≠ "" then [ Marshaler.WithPrefix cfg.pfx] else [])
  match Marshaler.NewDecoder (consulKV.toKV ckv) decOpts with
  | (_, some err) => (none, some (.wrapf "create decoder: %w" [] err))
  | (dec, none) => (dec, none)

/-- The error `context.Canceled`. -/
def Canceled : GoError := .errorf "context canceled" []

/-- A Consul client that holds `"1"` at every key and counts its calls. -/
def countingClient : ConsulClient Nat :=
  ⟨fun n _ => (.ok (some "1"), n + 1)⟩

/-- The fields `A string` and `B int`, tagged `consul:"a"` and `consul:"b"`. -/
def consulFields : Fields :=
  .cons "A" true [("consul", "a")] (.str "")
    (.cons "B" true [("consul", "b")] (.int 0) .nil)

/-- Whether a value is of one of the built-in types that the walker looks up and
the type switch of `StringValue.UnmarshalTo` lists: `time.Duration`, `string`,
the integer types, `bool`, the float types, `[]string`.  (A `time.Time` is of
kind struct and is not looked up.) -/
def Val.isBasic : Val → Bool
  | .duration _ => true
  | .str _ => true
  | .int _ => true
  | .intN _ _ => true
  | .uint _ => true
  | .uintN _ _ => true
  | .bool _ => true
  | .float32 _ => true
  | .float64 _ => true
  | .strs _ => true
  | _ => false

/-- Whether a field is of a built-in leaf type or a pointer to one. -/
def Val.isBasicLeaf : Val → Bool
  | .ptr _ e => e.isBasic
  | v => v.isBasic

mutual
/-- Whether every leaf that the walk over the fields looks up, that is every
exported field with a non-empty tag under `tagName` that is not walked as a
struct, also inside the structs walked, is of a built-in leaf type or a
pointer to one. -/
def Fields.builtinLeaves (tagName : String) : Fields → Bool
  | .nil => true
  | .cons _ exported tag v rest =>
    if exported = false ∨ tag.Get tagName = "" then rest.builtinLeaves tagName
    else v.builtinLeaves tagName && rest.builtinLeaves tagName
/-- Whether the leaves below a tagged field are of built-in leaf types. -/
def Val.builtinLeaves (tagName : String) : Val → Bool
  | .ptr _ (.struct fs) => fs.builtinLeaves tagName
  | .ptr _ (.time _) => true
  | .struct fs => fs.builtinLeaves tagName
  | .time _ => true
  | .scanner _ .pointer (.struct fs) => fs.builtinLeaves tagName
  | .scanner _ .pointer (.time _) => true
  | .ptr _ e => e.isBasic
  | v => v.isBasic
end

/-- The fields of `basicTarget`: a string `A`, a nil `*int` `P`, and a nil
pointer `S` to a struct with a `uint8` `N` and a `[]string` `L`. -/
def basicFields : Fields :=
  .cons "A" true [("kv", "a")] (.str "")
    (.cons "P" true [("kv", "p")] (.ptr true (.int 0))
      (.cons "S" true [("kv", "s")]
        (.ptr true (.struct
          (.cons "N" true [("kv", "n")] (.uintN .w8 0)
            (.cons "L" true [("kv", "l")] (.strs []) .nil)))) .nil))

/-- A target with a string `A`, a nil `*int` `P`, and a nil pointer `S` to a
struct with a `uint8` `N` and a `[]string` `L`. -/
def basicTarget : Val := .ptr false (.struct basicFields)

/-- A backend for `basicTarget`; the key `"p"` is absent. -/
def basicKV : MapKV := [("a", "x"), ("s/n", "3"), ("s/l", "u,v")]

/-- A backend without state whose `Get` gives, for every key, the value `append`
of a type of the caller that implements `Value`. -/
def appendKV : KV Unit :=
  ⟨fun _ s _ => (.ok (.custom "append"), s)⟩

/-- The field `L []string` tagged `"l"`, holding `xs`. -/
def seqFields (xs : List String) : Fields :=
  .cons "L" true [("kv", "l")] (.strs xs) .nil

/-- A target with the one field `L []string` tagged `"l"`, holding `xs`. -/
def seqTarget (xs : List String) : Val := .ptr false (.struct (seqFields xs))

/-- The type `Custom` of the docstring of `Scanner` in `types.go`, at its zero
value: a struct with the fields `Foo string` and `Bar int`, without tags,
whose `Scan` has a pointer receiver. -/
def customVal : Val :=
  .scanner "Custom" .pointer
    (.struct (.cons "Foo" true [] (.str "") (.cons "Bar" true [] (.int 0) .nil)))

/-- A target with the one field `C Custom` tagged `"c"`. -/
def customTarget : Val :=
  .ptr false (.struct (.cons "C" true [("kv", "c")] customVal .nil))

/-! # Theorems -/

/-! ## Values -/

/-- C8: `NullValue.UnmarshalTo` is a no-op success: for every target and every
option set it returns nil and leaves the target as it was, also when called
through the interface `Value`. -/
theorem nullValue_UnmarshalTo_noop (L : Lib) (out : Val) (opts : ValueUnmarshalOpts) :
    nullValue.UnmarshalTo out opts = (out, .ok) ∧
      Value.UnmarshalTo L .null out opts = (out, .ok) :=
  ⟨rfl, rfl⟩

theorem wrapScan_ok_iff (o : Outcome) : wrapScan o = .ok ↔ o = .ok := by
  cases o <;> simp [wrapScan]

theorem wrapScan_fail (o : Outcome) (e : GoError) (h : o = .fail e) :
    wrapScan o = .fail (.wrapf "unmarshal binary: %w" [] e) := by
  subst h; rfl

theorem UnmarshalTo_scanner (L : Lib) (s : String) (out : Val) (opts : ValueUnmarshalOpts)
    (h : out.implementsScanner = true) :
    StringValue.UnmarshalTo L s out opts = ((callScan L s out).1, wrapScan (callScan L s out).2) := by
  unfold Val.implementsScanner at h
  split at h
  · rfl
  · rename_i b n rc u
    cases b <;> cases rc <;> rfl
  · simp at h

/-- C10: custom-Scan priority.  For every string `s` and every target whose
method set has `Scan`, `StringValue.UnmarshalTo` does what one call of the
target's `Scan` on `s` does and nothing else: the target afterwards is the one
that call leaves, the result is nil exactly when `Scan` returned nil, an
error of `Scan` comes back wrapped, and neither the options nor the built-in
parsers have any influence. -/
theorem UnmarshalTo_scanner_priority (L : Lib) (s : String) (out : Val)
    (opts : ValueUnmarshalOpts) (h : out.implementsScanner = true) :
    (StringValue.UnmarshalTo L s out opts).1 = (callScan L s out).1 ∧
      ((StringValue.UnmarshalTo L s out opts).2 = .ok ↔ (callScan L s out).2 = .ok) ∧
      (∀ e, (callScan L s out).2 = .fail e →
        ∃ e', (StringValue.UnmarshalTo L s out opts).2 = .fail e' ∧ e'.wraps e) ∧
      (∀ (L' : Lib) (opts' : ValueUnmarshalOpts), L'.scan = L.scan → L'.scanNil = L.scanNil →
        StringValue.UnmarshalTo L' s out opts' = StringValue.UnmarshalTo L s out opts) := by
  rw [UnmarshalTo_scanner L s out opts h]
  refine ⟨rfl, wrapScan_ok_iff _, ?_, ?_⟩
  · intro e he
    exact ⟨_, wrapScan_fail _ e he, 1, by simp [GoError.unwrapsTo]⟩
  · intro L' opts' h1 h2
    rw [UnmarshalTo_scanner L' s out opts' h]
    unfold Val.implementsScanner at h
    split at h
    · simp [callScan, h1]
    · rename_i b n rc u
      cases b <;> cases rc <;> simp [callScan, h1, h2]
    · simp at h

/-- Witness of C10: a `*counter` target, whose `Scan` appends the string to its
value, holds `"hello"` once after the call; the type has a string underneath
and the built-in string case is not used. -/
theorem UnmarshalTo_scanner_priority_witness :
    (Val.ptr false (.scanner "counter" .pointer (.str ""))).implementsScanner = true ∧
      (StringValue.UnmarshalTo testLib "hello"
        (.ptr false (.scanner "counter" .pointer (.str ""))) ⟨""⟩).1 =
        .ptr false (.scanner "counter" .pointer (.str "hello")) ∧
      (StringValue.UnmarshalTo testLib "hello"
        (.ptr false (.scanner "counter" .pointer (.str ""))) ⟨""⟩).2 = .ok :=
  ⟨rfl,
    (UnmarshalTo_scanner_priority testLib "hello"
      (.ptr false (.scanner "counter" .pointer (.str ""))) ⟨""⟩ rfl).1.trans rfl,
    (UnmarshalTo_scanner_priority testLib "hello"
      (.ptr false (.scanner "counter" .pointer (.str ""))) ⟨""⟩ rfl).2.1.2 rfl⟩

theorem assign_fst_of_ne_ok (b : Bool) (old new : Val) (h : (assign b old new).2 ≠ .ok) :
    (assign b old new).1 = .ptr b old := by
  cases b <;> simp_all [assign]

theorem finishParse_int_fst (tname s : String) (size : Nat) (b : Bool) (old : Val)
    (conv : Int → Val)
    (h : (finishParse tname (unmarshalIntNumber s size b old conv)).2 ≠ .ok) :
    (finishParse tname (unmarshalIntNumber s size b old conv)).1 = .ptr b old := by
  unfold unmarshalIntNumber at *
  split at h
  · simp_all [finishParse]
  · cases b <;> simp_all [finishParse]

theorem finishParse_float_fst (L : Lib) (tname s : String) (size : Nat) (b : Bool) (old : Val)
    (conv : Nat → Val)
    (h : (finishParse tname (unmarshalFloatNumber L s size b old conv)).2 ≠ .ok) :
    (finishParse tname (unmarshalFloatNumber L s size b old conv)).1 = .ptr b old := by
  unfold unmarshalFloatNumber at *
  split at h
  · simp_all [finishParse]
  · cases b <;> simp_all [finishParse]

/-- C6: no partial writes.  For every string, every option set and every
target that is not a Scanner (the built-in targets among them), when
`StringValue.UnmarshalTo` does not return nil the target holds the value it
held before the call; it is assigned only when the call returns nil. -/
theorem UnmarshalTo_no_partial_write (L : Lib) (s : String) (out : Val)
    (opts : ValueUnmarshalOpts) (h : out.implementsScanner = false)
    (herr : (StringValue.UnmarshalTo L s out opts).2 ≠ .ok) :
    (StringValue.UnmarshalTo L s out opts).1 = out := by
  unfold StringValue.UnmarshalTo at *
  split at herr
  all_goals first
    | (simp [Val.implementsScanner] at h; done)
    | (exact assign_fst_of_ne_ok _ _ _ herr)
    | (exact finishParse_int_fst _ _ _ _ _ _ herr)
    | (exact finishParse_float_fst _ _ _ _ _ _ _ herr)
    | rfl
    | skip
  all_goals
    split
    · rfl
    · rename_i heq
      first
        | (rw [heq] at herr; exact assign_fst_of_ne_ok _ _ _ herr)
        | (rw [if_neg heq] at herr; exact assign_fst_of_ne_ok _ _ _ herr)

theorem Outcome.ne_ok_of_isOk {o : Outcome} (h : o.isOk = false) : o ≠ .ok := by
  intro e; subst e; simp [Outcome.isOk] at h

/-- Witness of C6 on the test `TestStringValue/Invalid/Int8`: the literal
`"invalid"` into an `int8` target holding 7. -/
theorem UnmarshalTo_no_partial_write_witness :
    (Val.ptr false (.intN .w8 7)).implementsScanner = false ∧
      (StringValue.UnmarshalTo testLib "invalid" (.ptr false (.intN .w8 7)) ⟨","⟩).2 ≠ .ok ∧
      (StringValue.UnmarshalTo testLib "invalid" (.ptr false (.intN .w8 7)) ⟨","⟩).1 =
        .ptr false (.intN .w8 7) :=
  ⟨rfl, Outcome.ne_ok_of_isOk (by decide),
    UnmarshalTo_no_partial_write testLib "invalid" (.ptr false (.intN .w8 7)) ⟨","⟩ rfl
      (Outcome.ne_ok_of_isOk (by decide))⟩

/-- C4 (the code departs from it): into a `uint8` target the literal `"200"`,
which is within `0..255`, is rejected with an error and the target keeps its
value, and the literal `"-1"` is accepted and stores 255; the unsigned cases
parse with `strconv.ParseInt` at the signed range of the width. -/
theorem UnmarshalTo_uint8_signed_range (L : Lib) (opts : ValueUnmarshalOpts) :
    (StringValue.UnmarshalTo L "200" (.ptr false (.uintN .w8 0)) opts).1 =
        .ptr false (.uintN .w8 0) ∧
      (StringValue.UnmarshalTo L "200" (.ptr false (.uintN .w8 0)) opts).2.isFail = true ∧
      (StringValue.UnmarshalTo L "-1" (.ptr false (.uintN .w8 0)) opts).1 =
        .ptr false (.uintN .w8 255) ∧
      (StringValue.UnmarshalTo L "-1" (.ptr false (.uintN .w8 0)) opts).2.isOk = true :=
  ⟨rfl, rfl, rfl, rfl⟩

/-! ## Code that departs from its documentation -/

/-- C2 (the code departs from it): a decoder built with `WithSeparator(".")`
still looks up the leaf `B` tagged `"b"` inside the struct field tagged `"a"`
at the key `"a/b"`, not at `"a.b"`: `decodeField` recurses with `key + "/"`
and never reads the configured separator. -/
theorem decode_ignores_separator (L : Lib) :
    ∃ d : Decoder Unit,
      NewDecoder (MapKV.toKV [("a.b", "dot"), ("a/b", "slash")]) [WithSeparator "."] =
          (some d, none) ∧
        d.config.separator = "." ∧
        (d.Decode L nestedTarget ()).gets = ["a/b"] ∧
        (d.Decode L nestedTarget ()).val =
          .ptr false (.struct (.cons "A" true [("kv", "a")]
            (.struct (.cons "B" true [("kv", "b")] (.str "slash") .nil)) .nil)) :=
  ⟨⟨MapKV.toKV [("a.b", "dot"), ("a/b", "slash")], { defaultConfig with separator := "." }⟩,
    rfl, rfl, rfl, rfl⟩

/-- C3 (the code departs from it): a `time.Time` field tagged `"t"` is never
decoded.  Against the backend `{"t": "2021-01-01T00:00:00Z"}`, and whatever
`time.Parse` does, `Decode` succeeds without a single `Get` and leaves the
field at the zero time, because `structField` takes the field for a struct
to recurse into.  A `uint8` field against `{"n": "200"}` makes `Decode` fail
and keeps its value.  `StringValue.UnmarshalTo` itself, given a `*time.Time`,
stores the parsed instant. -/
theorem decode_time_field_untouched (L : Lib) :
    ((mapDecoder [("t", "2021-01-01T00:00:00Z")]).Decode L timeTarget ()).status.isOk = true ∧
      ((mapDecoder [("t", "2021-01-01T00:00:00Z")]).Decode L timeTarget ()).gets = [] ∧
      ((mapDecoder [("t", "2021-01-01T00:00:00Z")]).Decode L timeTarget ()).val = timeTarget ∧
      ((mapDecoder [("n", "200")]).Decode L uint8Target ()).status.isFail = true ∧
      ((mapDecoder [("n", "200")]).Decode L uint8Target ()).val = uint8Target ∧
      StringValue.UnmarshalTo testLib "2021-01-01T00:00:00Z" (.ptr false (.time zeroTime)) ⟨","⟩ =
        (.ptr false (.time ⟨1609459200000000000, 0⟩), .ok) :=
  ⟨rfl, rfl, rfl, rfl, rfl, rfl⟩

/-! ## Integer literals -/

theorem foldDigits_cons (n : Nat) (c : Char) (cs : List Char) :
    foldDigits n (c :: cs) = foldDigits (n * 10 + (c.toNat - 48)) cs := rfl

theorem foldDigits_eq (cs : List Char) (n : Nat) :
    foldDigits n cs = n * 10 ^ cs.length + decimalValue cs := by
  induction cs generalizing n with
  | nil => simp [foldDigits, decimalValue]
  | cons c cs ih =>
    rw [foldDigits_cons, ih]
    simp only [decimalValue, List.reverse_cons, List.map_append, List.map_cons, List.map_nil,
      Nat.ofDigits_append, Nat.ofDigits_singleton, List.length_map, List.length_reverse,
      List.length_cons]
    ring

theorem foldDigits_zero (cs : List Char) : foldDigits 0 cs = decimalValue cs := by
  simp [foldDigits_eq]

theorem le_foldDigits (cs : List Char) (n : Nat) : n ≤ foldDigits n cs := by
  induction cs generalizing n with
  | nil => simp [foldDigits]
  | cons c cs ih =>
    rw [foldDigits_cons]
    exact le_trans (by omega) (ih _)

theorem digitVal_of_isDecimalDigit {c : Char} (h : isDecimalDigit c = true) :
    digitVal c = some (c.toNat - 48) ∧ c.toNat - 48 ≤ 9 := by
  simp only [isDecimalDigit, decide_eq_true_eq] at h
  simp only [digitVal, h, and_self, if_true, true_and]
  omega

theorem digitVal_of_not_isDecimalDigit {c : Char} (h : isDecimalDigit c = false) :
    digitVal c = none := by
  simp only [isDecimalDigit, decide_eq_false_iff_not] at h
  simp [digitVal, h]

/-- The digit loop on a string of digits: the accumulated value when it fits,
a range error otherwise. -/
theorem parseUintLoop_digits (M : Nat) (hM : M < 2 ^ 64) (cs : List Char) (n : Nat)
    (hn : n ≤ M) (hall : cs.all isDecimalDigit = true) :
    parseUintLoop M cs n =
      if foldDigits n cs ≤ M then (foldDigits n cs, none) else (M, some .range) := by
  induction cs generalizing n with
  | nil => simp [parseUintLoop, foldDigits, hn]
  | cons c cs ih =>
    simp only [List.all_cons, Bool.and_eq_true] at hall
    obtain ⟨hd, hd9⟩ := digitVal_of_isDecimalDigit hall.1
    have hge := le_foldDigits cs (n * 10 + (c.toNat - 48))
    rw [foldDigits_cons]
    simp only [parseUintLoop, hd]
    norm_num [uintCutoff] at hM ⊢
    by_cases h1 : 1844674407370955162 ≤ n
    · rw [if_pos h1, if_neg (by omega)]
    · rw [if_neg h1]
      have e10 : n * 10 % 18446744073709551616 = n * 10 := Nat.mod_eq_of_lt (by omega)
      rw [e10]
      by_cases h2 : n * 10 + (c.toNat - 48) < 18446744073709551616
      · rw [Nat.mod_eq_of_lt h2]
        by_cases h3 : M < n * 10 + (c.toNat - 48)
        · rw [if_pos (Or.inr h3), if_neg (by omega)]
        · rw [if_neg (by omega)]
          exact ih _ (by omega) hall.2
      · have : (n * 10 + (c.toNat - 48)) % 18446744073709551616 < n * 10 := by omega
        rw [if_pos (Or.inl this), if_neg (by omega)]

/-- The digit loop ends with no error, with a syntax error, or with `maxVal`
and a range error. -/
theorem parseUintLoop_cases (M : Nat) (cs : List Char) (n : Nat) :
    (parseUintLoop M cs n).2 = none ∨ (parseUintLoop M cs n).2 = some .syn ∨
      parseUintLoop M cs n = (M, some .range) := by
  induction cs generalizing n with
  | nil => simp [parseUintLoop]
  | cons c cs ih =>
    simp only [parseUintLoop]
    split
    · simp
    · split
      · simp
      · split
        · simp
        · exact ih _

/-- The digit loop on a string with a character that is no digit ends with an
error. -/
theorem parseUintLoop_nondigit (M : Nat) (cs : List Char) (n : Nat)
    (hall : cs.all isDecimalDigit = false) : (parseUintLoop M cs n).2 ≠ none := by
  induction cs generalizing n with
  | nil => simp at hall
  | cons c cs ih =>
    simp only [parseUintLoop]
    cases hc : isDecimalDigit c with
    | false => simp [digitVal_of_not_isDecimalDigit hc]
    | true =>
      simp only [List.all_cons, hc, Bool.true_and] at hall
      rw [(digitVal_of_isDecimalDigit hc).1]
      simp only
      split
      · simp
      · split
        · simp
        · exact ih _ hall

theorem parseUint_literal (b : Nat) (hb : b ≤ 64) (ds : List Char) (v : Nat)
    (h : unsignedLiteral ds = some v) :
    parseUint ds b = if v ≤ 2 ^ b - 1 then (v, none) else (2 ^ b - 1, some .range) := by
  unfold unsignedLiteral at h
  split at h
  · rename_i hh
    obtain ⟨hne, hall⟩ := hh
    cases h
    cases ds with
    | nil => exact absurd rfl hne
    | cons c cs =>
      have h1 : 2 ^ b ≤ 2 ^ 64 := Nat.pow_le_pow_right (by norm_num) hb
      have h2 : 0 < 2 ^ b := by positivity
      simp only [parseUint]
      rw [parseUintLoop_digits _ (by omega) _ 0 (Nat.zero_le _) hall, foldDigits_zero]
  · simp at h

theorem parseUint_nonliteral (b : Nat) (ds : List Char) (h : unsignedLiteral ds = none) :
    (parseUint ds b).2 = some .syn ∨ parseUint ds b = (2 ^ b - 1, some .range) := by
  cases ds with
  | nil => left; rfl
  | cons c cs =>
    have hall : (c :: cs).all isDecimalDigit = false := by
      unfold unsignedLiteral at h
      split at h
      · simp at h
      · rename_i hh
        cases hx : (c :: cs).all isDecimalDigit with
        | false => rfl
        | true => exact absurd ⟨List.cons_ne_nil _ _, hx⟩ hh
    simp only [parseUint]
    have h1 := parseUintLoop_nondigit (2 ^ b - 1) (c :: cs) 0 hall
    rcases parseUintLoop_cases (2 ^ b - 1) (c :: cs) 0 with h2 | h2 | h2
    · exact absurd h2 h1
    · exact Or.inl h2
    · exact Or.inr h2

theorem wrapInt64_eq (x : Int) (h1 : -9223372036854775808 ≤ x) (h2 : x < 9223372036854775808) :
    wrapInt 64 x = x := by
  unfold wrapInt
  norm_num
  omega

theorem wrapInt64_top : wrapInt 64 9223372036854775808 = -9223372036854775808 := by
  unfold wrapInt
  norm_num

/-- The facts about a width that the range checks use: with `C = 2^(bits-1)`,
`2^bits = 2 * C` and `1 < C <= 2^63`. -/
theorem Width.cutoff_facts (w : Width) :
    ∃ C : Nat, 2 ^ (w.bits - 1) = C ∧ 2 ^ w.bits = 2 * C ∧ 1 < C ∧ C ≤ 9223372036854775808 := by
  cases w <;> simp [Width.bits]

/-- The part of `ParseInt` after `ParseUint`, when `ParseUint` gave `un`
without a syntax error. -/
theorem parseIntTail_of_parseUint (neg : Bool) (ds : List Char) (b : Nat)
    (h : (parseUint ds b).2 ≠ some .syn) :
    parseIntTail neg ds b =
      if neg = false ∧ (parseUint ds b).1 ≥ 2 ^ (b - 1) then (((2 ^ (b - 1) : Nat) : Int) - 1, some .range)
      else if neg = true ∧ (parseUint ds b).1 > 2 ^ (b - 1) then (-((2 ^ (b - 1) : Nat) : Int), some .range)
      else (if neg then wrapInt 64 (-(wrapInt 64 (parseUint ds b).1)) else wrapInt 64 (parseUint ds b).1, none) := by
  unfold parseIntTail
  simp only [if_neg h]

/-- The signed parser after the sign, on a literal within the range of the
width: the value, negated under a minus sign. -/
theorem parseIntTail_in_range (w : Width) (neg : Bool) (ds : List Char) (v : Nat)
    (h : unsignedLiteral ds = some v)
    (hlo : -(2 : Int) ^ (w.bits - 1) ≤ (if neg then -(v : Int) else v))
    (hhi : (if neg then -(v : Int) else v) ≤ 2 ^ (w.bits - 1) - 1) :
    parseIntTail neg ds w.bits = (if neg then -(v : Int) else v, none) := by
  have hb : w.bits ≤ 64 := by cases w <;> simp [Width.bits]
  obtain ⟨C, hC1, hC2, hC3, hC4⟩ := w.cutoff_facts
  have hCi : (2 : Int) ^ (w.bits - 1) = (C : Int) := by exact_mod_cast hC1
  rw [hCi] at hlo hhi
  have hu := parseUint_literal w.bits hb ds v h
  rw [hC2] at hu
  cases neg with
  | false =>
    simp only [Bool.false_eq_true, if_false] at hlo hhi ⊢
    rw [if_pos (by omega)] at hu
    rw [parseIntTail_of_parseUint _ _ _ (by rw [hu]; simp), hu, hC1]
    simp only [Bool.false_eq_true, if_false, false_and]
    rw [if_neg (by omega), wrapInt64_eq _ (by omega) (by omega)]
  | true =>
    simp only [if_true] at hlo hhi ⊢
    rw [if_pos (by omega)] at hu
    rw [parseIntTail_of_parseUint _ _ _ (by rw [hu]; simp), hu, hC1]
    simp only [Bool.true_eq_false, false_and, if_false, true_and, if_true]
    rw [if_neg (by omega)]
    by_cases hv : (v : Int) < 9223372036854775808
    · rw [wrapInt64_eq _ (by omega) hv, wrapInt64_eq _ (by omega) (by omega)]
    · have hv' : (v : Int) = 9223372036854775808 := by omega
      rw [hv', wrapInt64_top]
      norm_num [wrapInt]

/-- The signed parser after the sign, on a literal outside the range of the
width: an error. -/
theorem parseIntTail_out_of_range (w : Width) (neg : Bool) (ds : List Char) (v : Nat)
    (h : unsignedLiteral ds = some v)
    (hout : ¬(-(2 : Int) ^ (w.bits - 1) ≤ (if neg then -(v : Int) else v) ∧
      (if neg then -(v : Int) else v) ≤ 2 ^ (w.bits - 1) - 1)) :
    (parseIntTail neg ds w.bits).2 ≠ none := by
  have hb : w.bits ≤ 64 := by cases w <;> simp [Width.bits]
  obtain ⟨C, hC1, hC2, hC3, hC4⟩ := w.cutoff_facts
  have hCi : (2 : Int) ^ (w.bits - 1) = (C : Int) := by exact_mod_cast hC1
  rw [hCi] at hout
  have hu := parseUint_literal w.bits hb ds v h
  rw [hC2] at hu
  by_cases hv : v ≤ 2 * C - 1
  · rw [if_pos hv] at hu
    rw [parseIntTail_of_parseUint _ _ _ (by rw [hu]; simp), hu, hC1]
    cases neg with
    | false =>
      simp only [Bool.false_eq_true, if_false] at hout
      rw [if_pos ⟨rfl, by show C ≤ v; omega⟩]
      simp
    | true =>
      simp only [if_true] at hout
      rw [if_neg (by simp), if_pos ⟨rfl, by show C < v; omega⟩]
      simp
  · rw [if_neg hv] at hu
    rw [parseIntTail_of_parseUint _ _ _ (by rw [hu]; simp), hu, hC1]
    cases neg with
    | false =>
      rw [if_pos ⟨rfl, by show C ≤ 2 * C - 1; omega⟩]
      simp
    | true =>
      rw [if_neg (by simp), if_pos ⟨rfl, by show C < 2 * C - 1; omega⟩]
      simp

/-- The signed parser after the sign, on a string that is no literal: an error. -/
theorem parseIntTail_nonliteral (w : Width) (neg : Bool) (ds : List Char)
    (h : unsignedLiteral ds = none) : (parseIntTail neg ds w.bits).2 ≠ none := by
  obtain ⟨C, hC1, hC2, hC3, hC4⟩ := w.cutoff_facts
  rcases parseUint_nonliteral w.bits ds h with hs | hr
  · unfold parseIntTail
    simp [hs]
  · rw [hC2] at hr
    rw [parseIntTail_of_parseUint _ _ _ (by rw [hr]; simp), hr, hC1]
    cases neg with
    | false =>
      rw [if_pos ⟨rfl, by show C ≤ 2 * C - 1; omega⟩]
      simp
    | true =>
      rw [if_neg (by simp), if_pos ⟨rfl, by show C < 2 * C - 1; omega⟩]
      simp

theorem signedLiteral_plus (s : String) (ds : List Char) (h : s.data = '+' :: ds) :
    signedLiteral s = (unsignedLiteral ds).map (fun (n : Nat) => Int.ofNat n) := by
  unfold signedLiteral; rw [h]
  split <;> simp_all

theorem signedLiteral_minus (s : String) (ds : List Char) (h : s.data = '-' :: ds) :
    signedLiteral s = (unsignedLiteral ds).map (fun (n : Nat) => -Int.ofNat n) := by
  unfold signedLiteral; rw [h]
  split <;> simp_all

theorem signedLiteral_unsigned (s : String) (h1 : ∀ ds, s.data ≠ '+' :: ds)
    (h2 : ∀ ds, s.data ≠ '-' :: ds) :
    signedLiteral s = (unsignedLiteral s.data).map (fun (n : Nat) => Int.ofNat n) := by
  unfold signedLiteral
  split
  · rename_i ds h; exact absurd h (h1 ds)
  · rename_i ds h; exact absurd h (h2 ds)
  · rfl

/-- The function `strconv.ParseInt(s, 10, bits)` against the literal that `s`
writes: with `neg` and `ds` the sign and digits of `s`. -/
theorem parseInt_eq_tail (s : String) :
    s.data = [] ∨
    ∃ (neg : Bool) (ds : List Char),
      (∀ b, parseInt s.data b = parseIntTail neg ds b) ∧
      signedLiteral s =
        (unsignedLiteral ds).map (fun (n : Nat) => if neg then -(n : Int) else (n : Int)) := by
  cases hs : s.data with
  | nil => left; rfl
  | cons c cs =>
    right
    by_cases hp : c = '+'
    · subst hp
      exact ⟨false, cs, fun b => by simp [parseInt], by
        rw [signedLiteral_plus s cs hs]; simp⟩
    · by_cases hm : c = '-'
      · subst hm
        exact ⟨true, cs, fun b => by simp [parseInt], by
          rw [signedLiteral_minus s cs hs]; simp⟩
      · refine ⟨false, c :: cs, fun b => by simp [parseInt, hp, hm], ?_⟩
        rw [signedLiteral_unsigned s (fun ds h => hp (by rw [hs] at h; exact (List.cons.inj h).1))
          (fun ds h => hm (by rw [hs] at h; exact (List.cons.inj h).1)), hs]
        simp

theorem signedLiteral_empty (s : String) (h : s.data = []) : signedLiteral s = none := by
  rw [signedLiteral_unsigned s (by simp [h]) (by simp [h]), h]
  rfl

/-- The function `strconv.ParseInt(s, 10, bits)` at a width: the value of the
literal when `s` is an optionally signed literal in the range of the width,
an error otherwise. -/
theorem parseInt_spec (w : Width) (s : String) :
    (∀ n, signedLiteral s = some n → -(2 : Int) ^ (w.bits - 1) ≤ n → n ≤ 2 ^ (w.bits - 1) - 1 →
      parseInt s.data w.bits = (n, none)) ∧
    ((∀ n, signedLiteral s = some n →
        ¬(-(2 : Int) ^ (w.bits - 1) ≤ n ∧ n ≤ 2 ^ (w.bits - 1) - 1)) →
      (parseInt s.data w.bits).2 ≠ none) := by
  rcases parseInt_eq_tail s with he | ⟨neg, ds, hp, hl⟩
  · rw [signedLiteral_empty s he, he]
    exact ⟨fun n h => by simp at h, fun _ => by simp [parseInt]⟩
  · rw [hp, hl]
    cases hu : unsignedLiteral ds with
    | none =>
      exact ⟨fun n h => by simp at h, fun _ => parseIntTail_nonliteral w neg ds hu⟩
    | some v =>
      constructor
      · intro n hn hlo hhi
        simp only [Option.map_some', Option.some.injEq] at hn
        subst hn
        exact parseIntTail_in_range w neg ds v hu hlo hhi
      · intro hout
        exact parseIntTail_out_of_range w neg ds v hu (hout _ (by simp))

theorem convSigned_of_range (w : Width) (n : Int) (hlo : -(2 : Int) ^ (w.bits - 1) ≤ n)
    (hhi : n ≤ 2 ^ (w.bits - 1) - 1) : convSigned w n = n := by
  cases w <;> simp only [Width.bits, convSigned, wrapInt] at * <;> norm_num at * <;> omega

theorem UnmarshalTo_intN_eq (L : Lib) (w : Width) (s : String) (old : Int)
    (opts : ValueUnmarshalOpts) :
    StringValue.UnmarshalTo L s (.ptr false (.intN w old)) opts =
      finishParse ("*int" ++ toString w.bits)
        (unmarshalIntNumber s w.bits false (.intN w old)
          (fun val => .intN w (convSigned w val))) := rfl

/-- C5: signed integers are parsed base-10 with the range check of the width.
For every width `w` of 8, 16, 32 or 64 bits and every string `s`,
`StringValue.UnmarshalTo` into an `intW` target returns nil and stores `n`
when `s` is an optionally signed base-10 literal of an integer `n` with
`-2^(w-1) <= n <= 2^(w-1) - 1`, and in every other case returns an error and
leaves the target as it was. -/
theorem UnmarshalTo_intN_spec (L : Lib) (w : Width) (s : String) (old : Int)
    (opts : ValueUnmarshalOpts) :
    (∀ n, signedLiteral s = some n → -(2 : Int) ^ (w.bits - 1) ≤ n →
        n ≤ 2 ^ (w.bits - 1) - 1 →
        StringValue.UnmarshalTo L s (.ptr false (.intN w old)) opts =
          (.ptr false (.intN w n), .ok)) ∧
      ((∀ n, signedLiteral s = some n →
          ¬(-(2 : Int) ^ (w.bits - 1) ≤ n ∧ n ≤ 2 ^ (w.bits - 1) - 1)) →
        (StringValue.UnmarshalTo L s (.ptr false (.intN w old)) opts).1 =
            .ptr false (.intN w old) ∧
          (StringValue.UnmarshalTo L s (.ptr false (.intN w old)) opts).2.isFail = true) := by
  rw [UnmarshalTo_intN_eq]
  constructor
  · intro n hn hlo hhi
    have hp := (parseInt_spec w s).1 n hn hlo hhi
    simp only [unmarshalIntNumber, hp, finishParse, Bool.false_eq_true, if_false,
      convSigned_of_range w n hlo hhi]
  · intro hout
    have hp := (parseInt_spec w s).2 hout
    unfold unmarshalIntNumber
    split
    · exact ⟨rfl, rfl⟩
    · rename_i val heq
      rw [heq] at hp
      exact absurd rfl hp

/-- Witness of C5: the literals `"-128"` and `"127"` are stored into an `int8`
target, and `"128"` and `"invalid"` are rejected. -/
theorem UnmarshalTo_intN_spec_witness :
    StringValue.UnmarshalTo testLib "-128" (.ptr false (.intN .w8 0)) ⟨","⟩ =
        (.ptr false (.intN .w8 (-128)), .ok) ∧
      StringValue.UnmarshalTo testLib "127" (.ptr false (.intN .w8 0)) ⟨","⟩ =
        (.ptr false (.intN .w8 127), .ok) ∧
      (StringValue.UnmarshalTo testLib "128" (.ptr false (.intN .w8 0)) ⟨","⟩).2.isFail = true ∧
      (StringValue.UnmarshalTo testLib "invalid" (.ptr false (.intN .w8 0)) ⟨","⟩).2.isFail = true :=
  ⟨(UnmarshalTo_intN_spec testLib .w8 "-128" 0 ⟨","⟩).1 (-128) (by decide) (by decide) (by decide),
    (UnmarshalTo_intN_spec testLib .w8 "127" 0 ⟨","⟩).1 127 (by decide) (by decide) (by decide),
    ((UnmarshalTo_intN_spec testLib .w8 "128" 0 ⟨","⟩).2 (by
      intro n hn
      have : n = 128 := by
        have h : signedLiteral "128" = some 128 := by decide
        rw [h] at hn; exact (Option.some.inj hn).symm
      subst this; decide)).2,
    ((UnmarshalTo_intN_spec testLib .w8 "invalid" 0 ⟨","⟩).2 (by
      intro n hn
      have h : signedLiteral "invalid" = none := by decide
      rw [h] at hn; cases hn)).2⟩

/-! ## The walker -/

/-- The cases of `decodeField`, through the class of the field. -/
theorem decodeField_eq {σ : Type} (L : Lib) (d : Decoder σ) (ctx : Context) (pfx name : String)
    (tag : StructTag) (v : Val) (s : σ) :
    decodeField L d ctx pfx name tag v s =
      match fieldKey d.config pfx tag with
      | none => ⟨v, s, [], .ok⟩
      | some key =>
        match v.fieldClass with
        | .nested shape fs =>
          ⟨shape.build (decodeStruct L d ctx (key ++ "/") fs s).val,
            (decodeStruct L d ctx (key ++ "/") fs s).store,
            (decodeStruct L d ctx (key ++ "/") fs s).gets,
            wrapOutcome "decode struct field %s: %w" name
              (decodeStruct L d ctx (key ++ "/") fs s).status⟩
        | .closed after => ⟨after, s, [], .ok⟩
        | .leaf => decodeLeaf L d ctx key v s := by
  cases v with
  | ptr b e => cases e <;> cases hk : fieldKey d.config pfx tag <;> simp only [decodeField, hk] <;> rfl
  | scanner n r u =>
    cases r <;> cases u <;> cases hk : fieldKey d.config pfx tag <;>
      simp only [decodeField, hk] <;> rfl
  | _ =>
    cases hk : fieldKey d.config pfx tag
    all_goals simp only [decodeField, hk]
    all_goals rfl

/-- The walk over the fields of a `time.Time`, all unexported, touches nothing:
this is the case `closed` of `decodeField`. -/
theorem decodeStruct_timeFields {σ : Type} (L : Lib) (d : Decoder σ) (ctx : Context)
    (pfx : String) (s : σ) :
    decodeStruct L d ctx pfx timeFields s = ⟨timeFields, s, [], .ok⟩ := rfl

/-- The test `TestDecoder/Decode` on the embedding: `Decode` succeeds and looks
the seven leaves up in declaration order, depth first. -/
theorem TestDecoder_Decode :
    ((mapDecoder testKV).Decode testLib testTarget ()).status.isOk = true ∧
      ((mapDecoder testKV).Decode testLib testTarget ()).gets =
        ["foo", "bar", "baz/qwe", "baz/asd", "baz/zxc/num", "baz/zxc/dur", "baz/zxc/bin"] :=
  ⟨rfl, rfl⟩

theorem fieldClass_nested_size (v : Val) (shape : StructShape) (fs : Fields)
    (h : v.fieldClass = .nested shape fs) : sizeOf fs < sizeOf v := by
  cases v with
  | ptr b e =>
    cases e <;> simp only [Val.fieldClass, FieldClass.nested.injEq, reduceCtorEq] at h
    obtain ⟨_, rfl⟩ := h
    simp only [Val.ptr.sizeOf_spec, Val.struct.sizeOf_spec]
    omega
  | struct gs =>
    simp only [Val.fieldClass, FieldClass.nested.injEq] at h
    obtain ⟨_, rfl⟩ := h
    simp only [Val.struct.sizeOf_spec]
    omega
  | scanner n r u =>
    cases r <;> cases u <;> simp only [Val.fieldClass, FieldClass.nested.injEq, reduceCtorEq] at h
    obtain ⟨_, rfl⟩ := h
    simp only [Val.scanner.sizeOf_spec, Val.struct.sizeOf_spec]
    omega
  | _ => simp only [Val.fieldClass, reduceCtorEq] at h

/-- Induction over the structs that the walker visits: a property holds of
every field list when it holds of the empty one and passes from the fields
nested in a field, and from the rest of the list, to the list. -/
theorem Fields.walk_induction {P : Fields → Prop} (hnil : P .nil)
    (hcons : ∀ n e t v rest,
      (∀ shape fs, v.fieldClass = .nested shape fs → P fs) → P rest → P (.cons n e t v rest))
    (fs : Fields) : P fs := by
  have key : ∀ k (gs : Fields), sizeOf gs = k → P gs := by
    intro k
    induction k using Nat.strong_induction_on with
    | _ k ih =>
      intro gs hsz
      cases gs with
      | nil => exact hnil
      | cons n e t v rest =>
        subst hsz
        refine hcons n e t v rest (fun shape gs hc => ih _ ?_ gs rfl) (ih _ ?_ rest rfl)
        · have := fieldClass_nested_size v shape gs hc
          simp only [Fields.cons.sizeOf_spec]
          omega
        · simp only [Fields.cons.sizeOf_spec]
          omega
  exact key _ fs rfl

theorem fieldChains_eq (tagName : String) (v : Val) :
    fieldChains tagName v =
      match v.fieldClass with
      | .nested _ fs => leafChains tagName fs
      | .closed _ => []
      | .leaf => [[]] := by
  cases v with
  | ptr b e => cases e <;> simp only [fieldChains, Val.fieldClass]
  | scanner n r u => cases r <;> cases u <;> simp only [fieldChains, Val.fieldClass]
  | _ => simp only [fieldChains, Val.fieldClass]

theorem decodeLeaf_gets {σ : Type} (L : Lib) (d : Decoder σ) (ctx : Context) (key : String)
    (v : Val) (s : σ) : (decodeLeaf L d ctx key v s).gets = [key] := by
  simp only [decodeLeaf]
  split
  · rfl
  · split <;> rfl

theorem wrapOutcome_eq_ok (format arg : String) (o : Outcome) :
    wrapOutcome format arg o = .ok ↔ o = .ok := by
  cases o <;> simp [wrapOutcome]

theorem fieldKey_none (cfg : decoderConfig) (pfx : String) (tag : StructTag) :
    fieldKey cfg pfx tag = none ↔ tag.Get cfg.tag = "" := by
  unfold fieldKey
  split <;> simp_all

theorem fieldKey_some (cfg : decoderConfig) (pfx : String) (tag : StructTag) (key : String)
    (h : fieldKey cfg pfx tag = some key) :
    tag.Get cfg.tag ≠ "" ∧ key = pfx ++ (getTagSpec (tag.Get cfg.tag)).key := by
  unfold fieldKey at h
  split at h
  · cases h
  · rename_i hne
    exact ⟨hne, (Option.some.inj h).symm⟩

theorem leafChains_ne_nil (tagName : String) (fs : Fields) :
    ∀ ch ∈ leafChains tagName fs, ch ≠ [] := by
  induction fs using Fields.walk_induction with
  | hnil => simp [leafChains]
  | hcons n e t v rest _ ih =>
    intro ch hch
    simp only [leafChains] at hch
    split at hch
    · exact ih ch hch
    · rcases List.mem_append.1 hch with h | h
      · obtain ⟨c, _, rfl⟩ := List.mem_map.1 h
        exact List.cons_ne_nil _ _
      · exact ih ch h

theorem joinKeys_cons (k : String) (ch : List String) (h : ch ≠ []) :
    joinKeys (k :: ch) = k ++ "/" ++ joinKeys ch := by
  cases ch with
  | nil => exact absurd rfl h
  | cons c cs => rfl

theorem map_joinKeys_cons (tagName pfx k : String) (fs : Fields) :
    (leafChains tagName fs).map (fun ch => pfx ++ joinKeys (k :: ch)) =
      (leafChains tagName fs).map (fun ch => (pfx ++ k ++ "/") ++ joinKeys ch) := by
  apply List.map_congr_left
  intro ch hch
  rw [joinKeys_cons k ch (leafChains_ne_nil tagName fs ch hch)]
  simp only [String.append_assoc]

/-- The keys that `decodeStruct` passes to `Get`: the keys of the leaf chains,
each composed onto the prefix, in order; all of them when the walk succeeds
and an initial part of them in any case. -/
theorem decodeStruct_gets {σ : Type} (L : Lib) (d : Decoder σ) (ctx : Context) (fs : Fields) :
    ∀ (pfx : String) (s : σ),
      ((decodeStruct L d ctx pfx fs s).status = .ok →
        (decodeStruct L d ctx pfx fs s).gets =
          (leafChains d.config.tag fs).map (fun ch => pfx ++ joinKeys ch)) ∧
      (decodeStruct L d ctx pfx fs s).gets <+:
        (leafChains d.config.tag fs).map (fun ch => pfx ++ joinKeys ch) := by
  induction fs using Fields.walk_induction with
  | hnil => intro pfx s; simp [decodeStruct, leafChains]
  | hcons n e t v rest ihv ih =>
    intro pfx s
    cases e with
    | false =>
      simp only [decodeStruct, leafChains, Bool.not_false, if_true, true_or]
      exact ih pfx s
    | true =>
      simp only [decodeStruct, leafChains, Bool.not_true, Bool.false_eq_true, if_false,
        false_or, reduceCtorEq]
      rw [decodeField_eq, fieldChains_eq]
      cases hk : fieldKey d.config pfx t with
      | none =>
        rw [if_pos ((fieldKey_none _ _ _).1 hk)]
        simpa using ih pfx s
      | some key =>
        obtain ⟨hne, hkey⟩ := fieldKey_some _ _ _ _ hk
        rw [if_neg hne]
        cases hc : v.fieldClass with
        | nested shape gs =>
          have ihg := ihv shape gs hc (key ++ "/") s
          simp only [List.map_map, Function.comp_def, List.map_append]
          rw [map_joinKeys_cons, ← hkey]
          cases hst : (decodeStruct L d ctx (key ++ "/") gs s).status with
          | ok =>
            simp only [wrapOutcome]
            rw [ihg.1 hst]
            have ihr := ih pfx (decodeStruct L d ctx (key ++ "/") gs s).store
            exact ⟨fun h => by rw [ihr.1 h], (List.prefix_append_right_inj _).2 ihr.2⟩
          | fail err =>
            simp only [wrapOutcome, reduceCtorEq, false_implies, true_and]
            exact ihg.2.trans (List.prefix_append _ _)
          | panicked =>
            simp only [wrapOutcome, reduceCtorEq, false_implies, true_and]
            exact ihg.2.trans (List.prefix_append _ _)
        | closed after =>
          simpa using ih pfx s
        | leaf =>
          simp only [List.map_cons, List.map_nil, List.singleton_append, joinKeys, ← hkey]
          cases hst : (decodeLeaf L d ctx key v s).status with
          | ok =>
            simp only [decodeLeaf_gets, List.singleton_append]
            have ihr := ih pfx (decodeLeaf L d ctx key v s).store
            exact ⟨fun h => by rw [ihr.1 h], List.prefix_cons_inj key |>.2 ihr.2⟩
          | fail err =>
            simp only [wrapOutcome, reduceCtorEq, false_implies, true_and, decodeLeaf_gets]
            exact List.prefix_append [key] _
          | panicked =>
            simp only [wrapOutcome, reduceCtorEq, false_implies, true_and, decodeLeaf_gets]
            exact List.prefix_append [key] _

/-- C1: key composition.  A decoder built with `WithPrefix(p)` and otherwise
the defaults looks every leaf field up at the prefix followed by the chain of
tag keys that leads to the leaf, joined with `/`: the keys passed to `Get`
are `p ++ k1 ++ "/" ++ ... ++ kn` for the chains `k1, ..., kn` of the leaves,
in order, all of them when `Decode` succeeds and an initial part of them
when it fails.  The prefix is prepended as it is. -/
theorem decode_key_composition {σ : Type} (L : Lib) (kv : KV σ) (p : String) (fs : Fields)
    (s : σ) :
    ∃ d : Decoder σ, NewDecoder kv [ WithPrefix p] = (some d, none) ∧
      ((d.Decode L (.ptr false (.struct fs)) s).status = .ok →
        (d.Decode L (.ptr false (.struct fs)) s).gets =
          (leafChains "kv" fs).map (fun ch => p ++ joinKeys ch)) ∧
      (d.Decode L (.ptr false (.struct fs)) s).gets <+:
        (leafChains "kv" fs).map (fun ch => p ++ joinKeys ch) :=
  ⟨⟨kv, { defaultConfig with pfx := p }⟩, rfl,
    decodeStruct_gets L ⟨kv, { defaultConfig with pfx := p }⟩ Context.background fs p s⟩

/-- Witness of C1: the field `B` tagged `"b"` inside the field `A` tagged `"a"`
is looked up at `"a/b"` without a prefix and at `"cfg/a/b"` with the prefix
`"cfg/"`. -/
theorem decode_key_composition_witness :
    (∃ d : Decoder Unit, NewDecoder (MapKV.toKV [("a/b", "x")]) [ WithPrefix ""] = (some d, none) ∧
      (d.Decode testLib nestedTarget ()).gets = ["a/b"]) ∧
    (∃ d : Decoder Unit,
      NewDecoder (MapKV.toKV [("cfg/a/b", "x")]) [ WithPrefix "cfg/"] = (some d, none) ∧
      (d.Decode testLib nestedTarget ()).gets = ["cfg/a/b"]) := by
  constructor
  · obtain ⟨d, hd, h, _⟩ := decode_key_composition testLib (MapKV.toKV [("a/b", "x")]) ""
      (.cons "A" true [("kv", "a")] (.struct (.cons "B" true [("kv", "b")] (.str "") .nil)) .nil) ()
    refine ⟨d, hd, ?_⟩
    cases hd
    exact h rfl
  · obtain ⟨d, hd, h, _⟩ := decode_key_composition testLib (MapKV.toKV [("cfg/a/b", "x")]) "cfg/"
      (.cons "A" true [("kv", "a")] (.struct (.cons "B" true [("kv", "b")] (.str "") .nil)) .nil) ()
    refine ⟨d, hd, ?_⟩
    cases hd
    exact h rfl

/-! ## Absent keys -/

theorem vivifyField_eq (tagName : String) (v : Val) :
    vivifyField tagName v =
      match v.fieldClass with
      | .nested shape fs => shape.build (vivify tagName fs)
      | .closed after => after
      | .leaf => initField v := by
  cases v with
  | ptr b e =>
    cases e <;> cases b <;> simp only [vivifyField, Val.fieldClass, StructShape.build, initField]
  | scanner n r u =>
    cases r <;> cases u <;> simp only [vivifyField, Val.fieldClass, StructShape.build, initField]
  | _ => simp only [vivifyField, Val.fieldClass, StructShape.build, initField]

/-- A leaf whose key is absent: the field after `initField`, and no error. -/
theorem decodeLeaf_null {σ : Type} (L : Lib) (d : Decoder σ) (ctx : Context) (key : String)
    (v : Val) (s : σ) (h : (d.kv.Get ctx s key).1 = .ok .null) :
    (decodeLeaf L d ctx key v s).val = initField v ∧
      (decodeLeaf L d ctx key v s).status = .ok := by
  simp only [decodeLeaf, h, Value.UnmarshalTo, nullValue.UnmarshalTo, wrapOutcome, Val.deref]
  split <;> exact ⟨rfl, rfl⟩

theorem decodeStruct_null {σ : Type} (L : Lib) (d : Decoder σ) (ctx : Context)
    (hnull : ∀ s k, (d.kv.Get ctx s k).1 = .ok .null) (fs : Fields) :
    ∀ (pfx : String) (s : σ),
      (decodeStruct L d ctx pfx fs s).status = .ok ∧
        (decodeStruct L d ctx pfx fs s).val = vivify d.config.tag fs := by
  induction fs using Fields.walk_induction with
  | hnil => intro pfx s; exact ⟨rfl, rfl⟩
  | hcons n e t v rest ihv ih =>
    intro pfx s
    cases e with
    | false =>
      simp only [decodeStruct, vivify, Bool.not_false, if_true, true_or]
      exact ⟨(ih pfx s).1, by rw [(ih pfx s).2]⟩
    | true =>
      simp only [decodeStruct, vivify, Bool.not_true, Bool.false_eq_true, if_false,
        false_or, reduceCtorEq]
      rw [decodeField_eq, vivifyField_eq]
      cases hk : fieldKey d.config pfx t with
      | none =>
        rw [if_pos ((fieldKey_none _ _ _).1 hk)]
        exact ⟨(ih pfx s).1, by simp only [(ih pfx s).2]⟩
      | some key =>
        obtain ⟨hne, _⟩ := fieldKey_some _ _ _ _ hk
        rw [if_neg hne]
        cases hc : v.fieldClass with
        | nested shape gs =>
          have ihg := ihv shape gs hc (key ++ "/") s
          simp only [ihg.1, ihg.2, wrapOutcome]
          exact ⟨(ih pfx _).1, by rw [(ih pfx _).2]⟩
        | closed after =>
          exact ⟨(ih pfx s).1, by simp only [(ih pfx s).2]⟩
        | leaf =>
          obtain ⟨h1, h2⟩ := decodeLeaf_null L d ctx key v s (hnull s key)
          simp only [h1, h2]
          exact ⟨(ih pfx _).1, by rw [(ih pfx _).2]⟩

theorem vivify_of_nilFree (tagName : String) (fs : Fields) :
    fs.nilFree = true → vivify tagName fs = fs := by
  induction fs using Fields.walk_induction with
  | hnil => intro _; rfl
  | hcons n e t v rest ihv ih =>
    intro h
    simp only [Fields.nilFree, Bool.and_eq_true] at h
    simp only [vivify, ih h.2]
    split
    · rfl
    · rw [vivifyField_eq]
      have hv := h.1
      cases v with
      | ptr b u =>
        cases b with
        | true => simp [Val.nilFree] at hv
        | false =>
          cases u <;> simp only [Val.fieldClass, StructShape.build, initField]
          rename_i gs
          simp only [Val.nilFree, Bool.not_false, Bool.true_and] at hv
          rw [ihv _ gs rfl hv]
      | struct gs =>
        simp only [Val.fieldClass, StructShape.build]
        simp only [Val.nilFree] at hv
        rw [ihv _ gs rfl hv]
      | scanner m r u =>
        cases r <;> cases u <;> simp only [Val.fieldClass, StructShape.build, initField]
        rename_i gs
        simp only [Val.nilFree] at hv
        rw [ihv _ gs rfl hv]
      | _ => simp only [Val.fieldClass, initField]

/-- C7 as stated fails: against the empty backend, the target with a nil field
`P *int` tagged `"p"` comes back with `P` allocated, not equal to what it was. -/
theorem decode_absent_allocates :
    ((mapDecoder []).Decode testLib nilPtrTarget ()).status.isOk = true ∧
      ((mapDecoder []).Decode testLib nilPtrTarget ()).val =
        .ptr false (.struct (.cons "P" true [("kv", "p")] (.ptr false (.int 0)) .nil)) ∧
      ((mapDecoder []).Decode testLib nilPtrTarget ()).val ≠ nilPtrTarget := by
  refine ⟨rfl, rfl, ?_⟩
  intro h
  have h2 : Val.ptr false (.struct (.cons "P" true [("kv", "p")] (.ptr false (.int 0)) .nil)) =
      nilPtrTarget := h
  simp [nilPtrTarget] at h2

/-- C7, amended: against a backend in which every key is absent, `DecodeContext`
on a pointer to a struct returns no error and leaves the target as it was
except for the auto-vivification: each exported, tagged nil pointer field that
the walk reaches has become a pointer to the zero value of its element type.
A target in which no pointer is nil is left exactly as it was. -/
theorem decode_absent_keys {σ : Type} (L : Lib) (d : Decoder σ) (ctx : Context)
    (hnull : ∀ s k, (d.kv.Get ctx s k).1 = .ok .null) (fs : Fields) (s : σ) :
    (d.DecodeContext L ctx (.ptr false (.struct fs)) s).status = .ok ∧
      (d.DecodeContext L ctx (.ptr false (.struct fs)) s).val =
        .ptr false (.struct (vivify d.config.tag fs)) ∧
      (fs.nilFree = true →
        (d.DecodeContext L ctx (.ptr false (.struct fs)) s).val = .ptr false (.struct fs)) := by
  have h := decodeStruct_null L d ctx hnull fs d.config.pfx s
  refine ⟨h.1, ?_, fun hn => ?_⟩
  · simp only [Decoder.DecodeContext, h.2]
  · simp only [Decoder.DecodeContext, h.2, vivify_of_nilFree _ fs hn]

/-- Witness of C7, amended: the empty map against the zero-valued target
without pointers, which comes back as it was. -/
theorem decode_absent_keys_witness :
    (∀ (s : Unit) (k : String),
        ((mapDecoder []).kv.Get Context.background s k).1 = .ok .null) ∧
      ((mapDecoder []).Decode testLib flatTarget ()).status = .ok ∧
      ((mapDecoder []).Decode testLib flatTarget ()).val = flatTarget :=
  ⟨fun _ _ => rfl,
    (decode_absent_keys testLib (mapDecoder []) Context.background (fun _ _ => rfl) _ ()).1,
    (decode_absent_keys testLib (mapDecoder []) Context.background (fun _ _ => rfl) _ ()).2.2 rfl⟩

/-! ## Auto-vivification -/

/-- The walk over a field list in two parts: when the first part succeeds, the
walk goes on with the second part from the state that the first part left. -/
theorem decodeStruct_append {σ : Type} (L : Lib) (d : Decoder σ) (ctx : Context) (pfx : String)
    (rest : Fields) (pre : Fields) :
    ∀ s : σ,
      ((decodeStruct L d ctx pfx pre s).status = .ok →
        decodeStruct L d ctx pfx (pre.append rest) s =
          ⟨(decodeStruct L d ctx pfx pre s).val.append
              (decodeStruct L d ctx pfx rest (decodeStruct L d ctx pfx pre s).store).val,
            (decodeStruct L d ctx pfx rest (decodeStruct L d ctx pfx pre s).store).store,
            (decodeStruct L d ctx pfx pre s).gets ++
              (decodeStruct L d ctx pfx rest (decodeStruct L d ctx pfx pre s).store).gets,
            (decodeStruct L d ctx pfx rest (decodeStruct L d ctx pfx pre s).store).status⟩) ∧
      ((decodeStruct L d ctx pfx pre s).status ≠ .ok →
        (decodeStruct L d ctx pfx (pre.append rest) s).status ≠ .ok) := by
  induction pre using Fields.walk_induction with
  | hnil => intro s; exact ⟨fun _ => rfl, fun h => absurd rfl h⟩
  | hcons n e t v tl _ ih =>
    intro s
    cases e with
    | false =>
      simp only [Fields.append, decodeStruct, Bool.not_false, if_true]
      refine ⟨fun h => ?_, fun h => (ih s).2 h⟩
      rw [(ih s).1 h]
    | true =>
      simp only [Fields.append, decodeStruct, Bool.not_true, Bool.false_eq_true, if_false]
      cases hst : (decodeField L d ctx pfx n t v s).status with
      | ok =>
        simp only
        refine ⟨fun h => ?_, fun h => (ih _).2 h⟩
        rw [(ih _).1 h]
        simp only [List.append_assoc, Fields.append]
      | fail err => simp [wrapOutcome]
      | panicked => simp [wrapOutcome]

theorem assign_shape (b : Bool) (old new : Val) (h : old.head = new.head) :
    (assign b old new).1.shape = (Val.ptr b old).shape := by
  cases b <;> simp [assign, Val.shape, h]

theorem finishParse_int_shape (tname s : String) (size : Nat) (b : Bool) (old : Val)
    (conv : Int → Val) (h : ∀ x, (conv x).head = old.head) :
    (finishParse tname (unmarshalIntNumber s size b old conv)).1.shape = (Val.ptr b old).shape := by
  unfold unmarshalIntNumber
  split
  · rfl
  · cases b <;> simp [finishParse, Val.shape, h]

theorem finishParse_float_shape (L : Lib) (tname s : String) (size : Nat) (b : Bool)
    (old : Val) (conv : Nat → Val) (h : ∀ x, (conv x).head = old.head) :
    (finishParse tname (unmarshalFloatNumber L s size b old conv)).1.shape =
      (Val.ptr b old).shape := by
  unfold unmarshalFloatNumber
  split
  · rfl
  · cases b <;> simp [finishParse, Val.shape, h]

/-- The method `UnmarshalTo` keeps the type of its target: the constructor of
the target, and of its pointee, is the same after the call. -/
theorem UnmarshalTo_shape (L : Lib) (value : Value) (out : Val) (opts : ValueUnmarshalOpts) :
    (value.UnmarshalTo L out opts).1.shape = out.shape := by
  cases value with
  | null => rfl
  | custom name => exact L.unmarshalCustom_shape name out opts
  | string sv =>
    simp only [Value.UnmarshalTo]
    unfold StringValue.UnmarshalTo
    split
    all_goals first
      | rfl
      | (exact assign_shape _ _ _ rfl)
      | (exact finishParse_int_shape _ _ _ _ _ _ (fun _ => rfl))
      | (exact finishParse_float_shape _ _ _ _ _ _ _ (fun _ => rfl))
      | (split <;> first | rfl | exact assign_shape _ _ _ rfl)

theorem Val.shape_fst (v : Val) : v.shape.1 = v.head := by
  cases v <;> rfl

theorem initField_shape (v : Val) : (initField v).shape = v.shape := by
  cases v with
  | ptr b e => cases b <;> rfl
  | _ => rfl

theorem Val.structPtrsSet_of_shape (tagName : String) (v : Val) (h1 : v.head ≠ 11)
    (h2 : v.shape ≠ (12, 11)) : v.structPtrsSet tagName = true := by
  cases v with
  | struct fs => exact absurd rfl h1
  | ptr b e =>
    cases e <;> first
      | (exact absurd rfl h2)
      | simp only [Val.structPtrsSet]
  | _ => simp only [Val.structPtrsSet]

theorem shape_ne_of_head (v : Val) (h : v.head ≠ 12) : v.shape ≠ (12, 11) := by
  intro hs
  have := congrArg Prod.fst hs
  rw [Val.shape_fst] at this
  exact h this

theorem fieldClass_leaf_shape (v : Val) (h : v.fieldClass = .leaf) :
    v.head ≠ 11 ∧ v.shape ≠ (12, 11) := by
  cases v with
  | ptr b e =>
    refine ⟨by simp [Val.head], fun hs => ?_⟩
    have h2 := congrArg Prod.snd hs
    cases e <;> simp [Val.shape, Val.head, Val.fieldClass] at h2 h
  | struct fs => simp [Val.fieldClass] at h
  | _ => exact ⟨by simp [Val.head], shape_ne_of_head _ (by simp [Val.head])⟩

theorem fieldClass_closed_structPtrsSet (tagName : String) (v after : Val)
    (h : v.fieldClass = .closed after) : after.structPtrsSet tagName = true := by
  cases v with
  | ptr b e =>
    cases e <;> simp only [Val.fieldClass, FieldClass.closed.injEq, reduceCtorEq] at h
    subst h; rfl
  | time t =>
    simp only [Val.fieldClass, FieldClass.closed.injEq] at h
    subst h; rfl
  | scanner n r u =>
    cases r <;> cases u <;> simp only [Val.fieldClass, FieldClass.closed.injEq, reduceCtorEq] at h
    subst h; rfl
  | _ => simp only [Val.fieldClass, reduceCtorEq] at h

theorem deref_of_shape (x f : Val) (h : x.shape = (12, f.head)) (hf : f.head ≠ 12) :
    x.deref.head = f.head ∧ x.deref.shape ≠ (12, 11) := by
  cases x with
  | ptr b e =>
    simp only [Val.shape, Prod.mk.injEq, true_and] at h
    simp only [Val.deref]
    refine ⟨h, fun hs => ?_⟩
    have := congrArg Prod.fst hs
    rw [Val.shape_fst] at this
    exact hf (h ▸ this)
  | _ =>
    have := congrArg Prod.fst h
    simp [Val.shape, Val.head] at this

theorem kind_ne_ptr_head (v : Val) (h : ¬ v.kind = .ptr) : v.head ≠ 12 := by
  cases v <;> simp [Val.kind, Val.head] at h ⊢

/-- A looked-up field is afterwards no struct and no pointer to a struct. -/
theorem decodeLeaf_structPtrsSet {σ : Type} (L : Lib) (d : Decoder σ) (ctx : Context)
    (key tagName : String) (v : Val) (s : σ) (h : v.fieldClass = .leaf) :
    (decodeLeaf L d ctx key v s).val.structPtrsSet tagName = true := by
  obtain ⟨h1, h2⟩ := fieldClass_leaf_shape v h
  have hi := initField_shape v
  have hih : (initField v).head = v.head := by rw [← Val.shape_fst, hi, Val.shape_fst]
  simp only [decodeLeaf]
  split
  · exact Val.structPtrsSet_of_shape _ _ (hih ▸ h1) (hi ▸ h2)
  · rename_i value _
    split
    · have hs := UnmarshalTo_shape L value (initField v) ⟨d.config.sliceSep⟩
      refine Val.structPtrsSet_of_shape _ _ ?_ (by rw [hs, hi]; exact h2)
      rw [← Val.shape_fst, hs, hi, Val.shape_fst]
      exact h1
    · rename_i hk
      have hs := UnmarshalTo_shape L value (.ptr false (initField v)) ⟨d.config.sliceSep⟩
      obtain ⟨e1, e2⟩ := deref_of_shape _ (initField v) hs (kind_ne_ptr_head _ hk)
      exact Val.structPtrsSet_of_shape _ _ (by rw [e1, hih]; exact h1) e2

/-- After a walk that succeeded, no exported, tagged field that the walk reached
is a nil pointer to a struct. -/
theorem decodeStruct_structPtrsSet {σ : Type} (L : Lib) (d : Decoder σ) (ctx : Context)
    (fs : Fields) :
    ∀ (pfx : String) (s : σ), (decodeStruct L d ctx pfx fs s).status = .ok →
      (decodeStruct L d ctx pfx fs s).val.structPtrsSet d.config.tag = true := by
  induction fs using Fields.walk_induction with
  | hnil => intro pfx s _; rfl
  | hcons n e t v rest ihv ih =>
    intro pfx s
    cases e with
    | false =>
      simp only [decodeStruct, Bool.not_false, if_true, Fields.structPtrsSet, Bool.true_or,
        Bool.true_and]
      exact ih pfx s
    | true =>
      simp only [decodeStruct, Bool.not_true, Bool.false_eq_true, if_false]
      rw [decodeField_eq]
      cases hk : fieldKey d.config pfx t with
      | none =>
        simp only [Fields.structPtrsSet, (fieldKey_none _ _ _).1 hk, decide_True, Bool.or_true,
          Bool.true_or, Bool.true_and]
        exact ih pfx s
      | some key =>
        cases hc : v.fieldClass with
        | nested shape gs =>
          simp only
          cases hst : (decodeStruct L d ctx (key ++ "/") gs s).status with
          | ok =>
            simp only [wrapOutcome, Fields.structPtrsSet, Bool.and_eq_true, Bool.or_eq_true]
            intro hok
            refine ⟨Or.inr ?_, ih pfx _ hok⟩
            have := ihv shape gs hc (key ++ "/") s hst
            cases shape <;> simp [StructShape.build, Val.structPtrsSet, this]
          | fail err => simp [wrapOutcome]
          | panicked => simp [wrapOutcome]
        | closed after =>
          simp only [Fields.structPtrsSet, Bool.and_eq_true, Bool.or_eq_true]
          intro hok
          exact ⟨Or.inr (fieldClass_closed_structPtrsSet _ v after hc), ih pfx s hok⟩
        | leaf =>
          simp only
          have hl := decodeLeaf_structPtrsSet L d ctx key d.config.tag v s hc
          cases hst : (decodeLeaf L d ctx key v s).status with
          | ok =>
            simp only [Fields.structPtrsSet, Bool.and_eq_true, Bool.or_eq_true]
            intro hok
            exact ⟨Or.inr hl, ih pfx _ hok⟩
          | fail err => simp [wrapOutcome]
          | panicked => simp [wrapOutcome]

/-- C9: nested auto-vivification.  When the walk over a struct succeeds and the
struct has an exported, tagged field that is a nil pointer to a struct, then
after the walk the field is a non-nil pointer, the walk over the fields of
the pointed struct under the key of the field followed by `/` has succeeded,
and the pointed struct holds what that walk decoded; and no exported, tagged
field that the walk reached, at any depth, is still a nil pointer to a
struct.  `Decode` runs this walk on the root struct and on every nested one. -/
theorem decode_vivifies_nested {σ : Type} (L : Lib) (d : Decoder σ) (ctx : Context)
    (pfx name key : String) (tag : StructTag) (pre post fs : Fields) (s : σ)
    (hk : fieldKey d.config pfx tag = some key)
    (hok : (decodeStruct L d ctx pfx
      (pre.append (.cons name true tag (.ptr true (.struct fs)) post)) s).status = .ok) :
    (decodeStruct L d ctx (key ++ "/") fs (decodeStruct L d ctx pfx pre s).store).status = .ok ∧
      (decodeStruct L d ctx pfx
          (pre.append (.cons name true tag (.ptr true (.struct fs)) post)) s).val =
        (decodeStruct L d ctx pfx pre s).val.append
          (.cons name true tag
            (.ptr false (.struct
              (decodeStruct L d ctx (key ++ "/") fs (decodeStruct L d ctx pfx pre s).store).val))
            (decodeStruct L d ctx pfx post
              (decodeStruct L d ctx (key ++ "/") fs
                (decodeStruct L d ctx pfx pre s).store).store).val) ∧
      (decodeStruct L d ctx pfx
          (pre.append (.cons name true tag (.ptr true (.struct fs)) post)) s).val.structPtrsSet
        d.config.tag = true := by
  have hset := decodeStruct_structPtrsSet L d ctx _ pfx s hok
  have happ := decodeStruct_append L d ctx pfx
    (.cons name true tag (.ptr true (.struct fs)) post) pre s
  have hpre : (decodeStruct L d ctx pfx pre s).status = .ok := by
    by_contra hne
    exact happ.2 hne hok
  refine ⟨?_, ?_, hset⟩
  all_goals
    rw [happ.1 hpre] at hok
    try rw [happ.1 hpre]
    simp only [decodeStruct, decodeField, hk, Bool.not_true, Bool.false_eq_true, if_false]
      at hok ⊢
    cases hin : (decodeStruct L d ctx (key ++ "/") fs
      (decodeStruct L d ctx pfx pre s).store).status with
    | ok => simp only [hin, wrapOutcome]
    | fail err => simp [hin, wrapOutcome] at hok
    | panicked => simp [hin, wrapOutcome] at hok

/-- Witness of C9 on `TestDecoder`: in the struct `Baz`, walked under the
prefix `"baz/"`, the nil field `Zxc` comes back non-nil with `Num = 42`,
`Dur = 1s` and `Bin` scanned from `"hello"`. -/
theorem decode_vivifies_nested_witness :
    fieldKey (mapDecoder testKV).config "baz/" [("kv", "zxc")] = some "baz/zxc" ∧
      (decodeStruct testLib (mapDecoder testKV) Context.background "baz/"
        (bazHead.append (.cons "Zxc" true [("kv", "zxc")] (.ptr true (.struct zxcFields)) .nil))
        ()).status = .ok ∧
      (decodeStruct testLib (mapDecoder testKV) Context.background "baz/"
        (bazHead.append (.cons "Zxc" true [("kv", "zxc")] (.ptr true (.struct zxcFields)) .nil))
        ()).val =
        .cons "Qwe" true [("kv", "qwe")] (.str "qwe")
          (.cons "Asd" true [("kv", "asd")] (.bool true)
            (.cons "Zxc" true [("kv", "zxc")]
              (.ptr false (.struct
                (.cons "Num" true [("kv", "num")] (.int 42)
                  (.cons "Dur" true [("kv", "dur")] (.duration 1000000000)
                    (.cons "Bin" true [("kv", "bin")]
                      (.ptr false (.scanner "scanner" .pointer
                        (.struct (.cons "value" false [] (.str "hello") .nil))))
                      .nil)))))
              .nil)) :=
  ⟨rfl, rfl,
    (decode_vivifies_nested testLib (mapDecoder testKV) Context.background "baz/" "Zxc"
      "baz/zxc" [("kv", "zxc")] bazHead .nil zxcFields () rfl rfl).2.1.trans rfl⟩

/-! ## Construction -/

/-- C16: option validation.  `WithSeparator`, `WithSliceSeparator` and `WithTag`
return their error (`ErrEmptyKeySep`, `ErrEmptySliceSep`, `ErrorEmptyTag`)
exactly when given the empty string, and then leave the configuration as it
was; given a non-empty string they return nil and set their own field only.
`WithPrefix` returns nil for every string and sets the prefix only. -/
theorem option_validation (x : String) (c : decoderConfig) :
    (((WithSeparator x c).2 = some ErrEmptyKeySep ↔ x = "") ∧
        ((WithSeparator x c).2 = none ↔ x ≠ "") ∧
        (x = "" → (WithSeparator x c).1 = c) ∧
        (x ≠ "" → (WithSeparator x c).1 = ⟨x, c.sliceSep, c.tag, c.pfx⟩)) ∧
      (((WithSliceSeparator x c).2 = some ErrEmptySliceSep ↔ x = "") ∧
        ((WithSliceSeparator x c).2 = none ↔ x ≠ "") ∧
        (x = "" → (WithSliceSeparator x c).1 = c) ∧
        (x ≠ "" → (WithSliceSeparator x c).1 = ⟨c.separator, x, c.tag, c.pfx⟩)) ∧
      (((WithTag x c).2 = some ErrorEmptyTag ↔ x = "") ∧
        ((WithTag x c).2 = none ↔ x ≠ "") ∧
        (x = "" → (WithTag x c).1 = c) ∧
        (x ≠ "" → (WithTag x c).1 = ⟨c.separator, c.sliceSep, x, c.pfx⟩)) ∧
      (( WithPrefix x c).2 = none ∧
        ( WithPrefix x c).1 = ⟨c.separator, c.sliceSep, c.tag, x⟩) := by
  by_cases h : x = ""
  · subst h
    simp [WithSeparator, WithSliceSeparator, WithTag, WithPrefix]
  · simp [WithSeparator, WithSliceSeparator, WithTag, WithPrefix, h]

theorem applyOptions_eq (opts : List DecoderOption) (cfg : decoderConfig) (errs : List GoError) :
    applyOptions opts cfg errs = (runOptions opts cfg, errs ++ optionErrors opts cfg) := by
  induction opts generalizing cfg errs with
  | nil => simp [applyOptions, runOptions, optionErrors]
  | cons opt opts ih =>
    simp only [applyOptions, optionErrors]
    rcases h : opt cfg with ⟨cfg1, _ | err⟩
    · simp only [ih, runOptions, List.foldl_cons, h, Option.toList, List.nil_append]
    · simp only [ih, runOptions, List.foldl_cons, h, Option.toList, List.append_assoc,
        List.singleton_append]

/-- C15: `NewDecoder` aggregates the option errors.  It applies every option of
the list in order, each to the configuration that the one before left.  When
no option returns an error it returns a decoder with the final configuration
and a nil error; when at least one does it returns no decoder and an error
that matches, in the sense of `errors.Is`, every error that an option
returned. -/
theorem NewDecoder_aggregates {σ : Type} (kv : KV σ) (opts : List DecoderOption) :
    (optionErrors opts defaultConfig = [] →
        NewDecoder kv opts = (some ⟨kv, runOptions opts defaultConfig⟩, none)) ∧
      (optionErrors opts defaultConfig ≠ [] →
        ∃ err, NewDecoder kv opts = (none, some err) ∧
          ∀ e ∈ optionErrors opts defaultConfig, err.Is e) := by
  unfold NewDecoder
  rw [applyOptions_eq, List.nil_append]
  constructor
  · intro h
    rw [h]
  · intro h
    cases hl : optionErrors opts defaultConfig with
    | nil => exact absurd hl h
    | cons e errs =>
      exact ⟨_, rfl, fun e' he' => GoError.Is.join _ e' e' he' (GoError.Is.refl e')⟩

/-- Witness of C15: `NewDecoder(kv, WithSeparator(""), WithTag(""))` returns no
decoder and an error that matches both `ErrEmptyKeySep` and `ErrorEmptyTag`. -/
theorem NewDecoder_aggregates_witness :
    optionErrors [WithSeparator "", WithTag ""] defaultConfig ≠ [] ∧
      ∃ err, NewDecoder (MapKV.toKV []) [WithSeparator "", WithTag ""] = (none, some err) ∧
        err.Is ErrEmptyKeySep ∧ err.Is ErrorEmptyTag := by
  have hne : optionErrors [WithSeparator "", WithTag ""] defaultConfig ≠ [] := by
    simp [optionErrors, WithSeparator, WithTag]
  obtain ⟨err, h1, h2⟩ :=
    (NewDecoder_aggregates (MapKV.toKV []) [WithSeparator "", WithTag ""]).2 hne
  exact ⟨hne, err, h1, h2 _ (by simp [optionErrors, WithSeparator, WithTag]),
    h2 _ (by simp [optionErrors, WithSeparator, WithTag])⟩

theorem runOptions_builtin (os : List BuiltinOption) (cfg : decoderConfig) :
    ((∀ o ∈ os, o.isSeparator = false) →
        (runOptions (os.map BuiltinOption.toOption) cfg).separator = cfg.separator) ∧
      ((∀ o ∈ os, o.isSliceSeparator = false) →
        (runOptions (os.map BuiltinOption.toOption) cfg).sliceSep = cfg.sliceSep) ∧
      ((∀ o ∈ os, o.isTag = false) →
        (runOptions (os.map BuiltinOption.toOption) cfg).tag = cfg.tag) ∧
      ((∀ o ∈ os, o.isPfx = false) →
        (runOptions (os.map BuiltinOption.toOption) cfg).pfx = cfg.pfx) := by
  induction os generalizing cfg with
  | nil => simp [runOptions]
  | cons o os ih =>
    have ih' := ih ((o.toOption cfg).1)
    simp only [runOptions, List.map_cons, List.foldl_cons, List.mem_cons, forall_eq_or_imp] at ih' ⊢
    refine ⟨fun h => ?_, fun h => ?_, fun h => ?_, fun h => ?_⟩
    · rw [ih'.1 h.2]
      cases o <;> simp [BuiltinOption.isSeparator] at h <;>
        simp only [BuiltinOption.toOption, WithSliceSeparator, WithTag, WithPrefix] <;> split <;> rfl
    · rw [ih'.2.1 h.2]
      cases o <;> simp [BuiltinOption.isSliceSeparator] at h <;>
        simp only [BuiltinOption.toOption, WithSeparator, WithTag, WithPrefix] <;> split <;> rfl
    · rw [ih'.2.2.1 h.2]
      cases o <;> simp [BuiltinOption.isTag] at h <;>
        simp only [BuiltinOption.toOption, WithSeparator, WithSliceSeparator, WithPrefix] <;>
        split <;> rfl
    · rw [ih'.2.2.2 h.2]
      cases o <;> simp [BuiltinOption.isPfx] at h <;>
        simp only [BuiltinOption.toOption, WithSeparator, WithSliceSeparator, WithTag] <;>
        split <;> rfl

theorem NewDecoder_some {σ : Type} (kv : KV σ) (opts : List DecoderOption) (d : Decoder σ)
    (h : NewDecoder kv opts = (some d, none)) : d.config = runOptions opts defaultConfig := by
  unfold NewDecoder at h
  rw [applyOptions_eq, List.nil_append] at h
  split at h
  · rename_i cfg heq
    simp only [Prod.mk.injEq, Option.some.injEq, and_true] at h heq
    rw [← h, ← heq.1]
  · simp at h

/-! ## Booleans -/

/-- C20: the boolean grammar.  For every string `s`, `StringValue.UnmarshalTo`
into a `bool` target returns nil and stores true when `s` is one of `1`,
`t`, `T`, `TRUE`, `true`, `True`, returns nil and stores false when `s` is
one of `0`, `f`, `F`, `FALSE`, `false`, `False`, and for every other `s`
returns an error and leaves the target as it was. -/
theorem UnmarshalTo_bool_grammar (L : Lib) (s : String) (old : Bool)
    (opts : ValueUnmarshalOpts) :
    (s ∈ trueLiterals →
        StringValue.UnmarshalTo L s (.ptr false (.bool old)) opts =
          (.ptr false (.bool true), .ok)) ∧
      (s ∈ falseLiterals →
        StringValue.UnmarshalTo L s (.ptr false (.bool old)) opts =
          (.ptr false (.bool false), .ok)) ∧
      (s ∉ trueLiterals → s ∉ falseLiterals →
        (StringValue.UnmarshalTo L s (.ptr false (.bool old)) opts).1 =
            .ptr false (.bool old) ∧
          (StringValue.UnmarshalTo L s (.ptr false (.bool old)) opts).2.isFail = true) := by
  have hu : StringValue.UnmarshalTo L s (.ptr false (.bool old)) opts =
      match parseBool s with
      | none =>
        (.ptr false (.bool old),
          .fail (.wrapf "parse bool from %q: %w" [s] (.numSyntax "ParseBool" s)))
      | some boolVal => assign false (.bool old) (.bool boolVal) := rfl
  rw [hu]
  refine ⟨fun h => ?_, fun h => ?_, fun h1 h2 => ?_⟩
  · have : parseBool s = some true := by
      simp only [trueLiterals, List.mem_cons, List.mem_singleton, List.not_mem_nil, or_false] at h
      simp only [parseBool, h, if_true]
    rw [this]; rfl
  · have : parseBool s = some false := by
      simp only [falseLiterals, List.mem_cons, List.mem_singleton, List.not_mem_nil, or_false] at h
      rcases h with h | h | h | h | h | h <;> subst h <;> decide
    rw [this]; rfl
  · have : parseBool s = none := by
      simp only [trueLiterals, falseLiterals, List.mem_cons, List.mem_singleton,
        List.not_mem_nil, or_false] at h1 h2
      simp only [parseBool, h1, h2, if_false]
    rw [this]
    exact ⟨rfl, rfl⟩

/-- Witness of C20 on the tests `TestStringValue/Bool` and `Invalid/Bool`: the
literal `"true"` stores true and `"invalid"` is rejected. -/
theorem UnmarshalTo_bool_grammar_witness :
    StringValue.UnmarshalTo testLib "true" (.ptr false (.bool false)) ⟨","⟩ =
        (.ptr false (.bool true), .ok) ∧
      (StringValue.UnmarshalTo testLib "invalid" (.ptr false (.bool false)) ⟨","⟩).2.isFail =
        true :=
  ⟨(UnmarshalTo_bool_grammar testLib "true" false ⟨","⟩).1 (by decide),
    ((UnmarshalTo_bool_grammar testLib "invalid" false ⟨","⟩).2.2 (by decide) (by decide)).2⟩

/-! ## Failures -/

theorem GoError.wraps_refl (e : GoError) : e.wraps e := ⟨0, by simp [GoError.unwrapsTo]⟩

theorem GoError.wraps_wrapf (format : String) (args : List String) (e c : GoError)
    (h : e.wraps c) : (GoError.wrapf format args e).wraps c := by
  obtain ⟨n, hn⟩ := h
  exact ⟨n + 1, by simpa [GoError.unwrapsTo] using hn⟩

/-- A leaf that fails: the error wraps the error of `Get` or of `UnmarshalTo` at
its key. -/
theorem decodeLeaf_fail {σ : Type} (L : Lib) (d : Decoder σ) (ctx : Context) (key : String)
    (v : Val) (s : σ) (e : GoError) (h : (decodeLeaf L d ctx key v s).status = .fail e) :
    ∃ e0, e.wraps e0 ∧ LeafFailure L d ctx key e0 := by
  simp only [decodeLeaf] at h
  split at h
  · rename_i err hget
    simp only [Outcome.fail.injEq] at h
    subst h
    exact ⟨err, GoError.wraps_wrapf _ _ _ _ (GoError.wraps_refl _), s, Or.inl hget⟩
  · rename_i value hget
    split at h
    · cases hu : (value.UnmarshalTo L (initField v) ⟨d.config.sliceSep⟩).2 with
      | ok => simp [hu, wrapOutcome] at h
      | panicked => simp [hu, wrapOutcome] at h
      | fail e0 =>
        simp only [hu, wrapOutcome, Outcome.fail.injEq] at h
        subst h
        exact ⟨e0, GoError.wraps_wrapf _ _ _ _ (GoError.wraps_refl _), s,
          Or.inr ⟨value, _, hget, hu⟩⟩
    · cases hu : (value.UnmarshalTo L (.ptr false (initField v)) ⟨d.config.sliceSep⟩).2 with
      | ok => simp [hu, wrapOutcome] at h
      | panicked => simp [hu, wrapOutcome] at h
      | fail e0 =>
        simp only [hu, wrapOutcome, Outcome.fail.injEq] at h
        subst h
        exact ⟨e0, GoError.wraps_wrapf _ _ _ _ (GoError.wraps_refl _), s,
          Or.inr ⟨value, _, hget, hu⟩⟩

/-- A walk that fails: the last key passed to `Get` is the key of a leaf that
failed, and the error of the walk wraps the error of that leaf. -/
theorem decodeStruct_fail_origin {σ : Type} (L : Lib) (d : Decoder σ) (ctx : Context)
    (fs : Fields) :
    ∀ (pfx : String) (s : σ) (e : GoError), (decodeStruct L d ctx pfx fs s).status = .fail e →
      ∃ k e0, (decodeStruct L d ctx pfx fs s).gets.getLast? = some k ∧ e.wraps e0 ∧
        LeafFailure L d ctx k e0 := by
  induction fs using Fields.walk_induction with
  | hnil => intro pfx s e h; simp [decodeStruct] at h
  | hcons n ex t v rest ihv ih =>
    intro pfx s e
    cases ex with
    | false =>
      simp only [decodeStruct, Bool.not_false, if_true]
      exact ih pfx s e
    | true =>
      simp only [decodeStruct, Bool.not_true, Bool.false_eq_true, if_false]
      rw [decodeField_eq]
      cases hk : fieldKey d.config pfx t with
      | none =>
        simp only [List.nil_append]
        exact ih pfx s e
      | some key =>
        cases hc : v.fieldClass with
        | nested shape gs =>
          simp only
          cases hst : (decodeStruct L d ctx (key ++ "/") gs s).status with
          | ok =>
            simp only [wrapOutcome]
            intro h
            obtain ⟨k, e0, h1, h2, h3⟩ := ih pfx _ e h
            exact ⟨k, e0, by simp [h1], h2, h3⟩
          | fail err =>
            simp only [wrapOutcome, Outcome.fail.injEq]
            intro h
            subst h
            obtain ⟨k, e0, h1, h2, h3⟩ := ihv shape gs hc (key ++ "/") s err hst
            exact ⟨k, e0, h1, GoError.wraps_wrapf _ _ _ _ (GoError.wraps_wrapf _ _ _ _ h2), h3⟩
          | panicked => simp [wrapOutcome]
        | closed after =>
          simp only [List.nil_append]
          exact ih pfx s e
        | leaf =>
          simp only
          cases hst : (decodeLeaf L d ctx key v s).status with
          | ok =>
            simp only
            intro h
            obtain ⟨k, e0, h1, h2, h3⟩ := ih pfx _ e h
            exact ⟨k, e0, by simp [h1], h2, h3⟩
          | fail err =>
            simp only [wrapOutcome, Outcome.fail.injEq]
            intro h
            subst h
            obtain ⟨e0, h2, h3⟩ := decodeLeaf_fail L d ctx key v s err hst
            exact ⟨key, e0, by simp [decodeLeaf_gets], GoError.wraps_wrapf _ _ _ _ h2, h3⟩
          | panicked => simp [wrapOutcome]

/-- A field that fails: the last key passed to `Get` is the key of a leaf that
failed, and the error of the field wraps the error of that leaf. -/
theorem decodeField_fail_origin {σ : Type} (L : Lib) (d : Decoder σ) (ctx : Context)
    (pfx name : String) (tag : StructTag) (v : Val) (s : σ) (e : GoError)
    (h : (decodeField L d ctx pfx name tag v s).status = .fail e) :
    ∃ k e0, (decodeField L d ctx pfx name tag v s).gets.getLast? = some k ∧ e.wraps e0 ∧
      LeafFailure L d ctx k e0 := by
  rw [decodeField_eq] at h ⊢
  cases hk : fieldKey d.config pfx tag with
  | none => simp [hk] at h
  | some key =>
    simp only [hk] at h ⊢
    cases hc : v.fieldClass with
    | nested shape gs =>
      simp only [hc] at h ⊢
      cases hst : (decodeStruct L d ctx (key ++ "/") gs s).status with
      | ok => simp [hst, wrapOutcome] at h
      | panicked => simp [hst, wrapOutcome] at h
      | fail err =>
        simp only [hst, wrapOutcome, Outcome.fail.injEq] at h
        subst h
        obtain ⟨k, e0, h1, h2, h3⟩ := decodeStruct_fail_origin L d ctx gs (key ++ "/") s err hst
        exact ⟨k, e0, h1, GoError.wraps_wrapf _ _ _ _ h2, h3⟩
    | closed after => simp [hc] at h
    | leaf =>
      simp only [hc] at h ⊢
      obtain ⟨e0, h2, h3⟩ := decodeLeaf_fail L d ctx key v s e h
      exact ⟨key, e0, by simp [decodeLeaf_gets], h2, h3⟩

/-- The walk over a field list in two parts, when the first part does not
succeed: the second part is left as it was. -/
theorem decodeStruct_append_fail {σ : Type} (L : Lib) (d : Decoder σ) (ctx : Context)
    (pfx : String) (rest : Fields) (pre : Fields) :
    ∀ s : σ, (decodeStruct L d ctx pfx pre s).status ≠ .ok →
      decodeStruct L d ctx pfx (pre.append rest) s =
        ⟨(decodeStruct L d ctx pfx pre s).val.append rest,
          (decodeStruct L d ctx pfx pre s).store,
          (decodeStruct L d ctx pfx pre s).gets,
          (decodeStruct L d ctx pfx pre s).status⟩ := by
  induction pre using Fields.walk_induction with
  | hnil => intro s h; exact absurd rfl h
  | hcons n e t v tl _ ih =>
    intro s
    cases e with
    | false =>
      simp only [Fields.append, decodeStruct, Bool.not_false, if_true]
      intro h
      rw [ih s h]
    | true =>
      simp only [Fields.append, decodeStruct, Bool.not_true, Bool.false_eq_true, if_false]
      cases hst : (decodeField L d ctx pfx n t v s).status with
      | ok =>
        simp only
        intro h
        rw [ih _ h]
        simp only [Fields.append]
      | fail err => simp [Fields.append]
      | panicked => simp [Fields.append]

/-- C13: the first failure aborts the decode.  In the walk over a struct, when
the fields before a field were decoded without error and the field fails
with the error `e`, the walk returns an error that wraps `e`, and with it
the error that `Get` or `UnmarshalTo` returned at the last key looked up; no
`Get` is issued after that key; the fields before hold what was decoded into
them, and the fields after are as they were before the call.  `Decode` returns
what the walk over the root struct returns. -/
theorem decode_first_failure {σ : Type} (L : Lib) (d : Decoder σ) (ctx : Context)
    (pfx name : String) (tag : StructTag) (v : Val) (pre post : Fields) (s : σ) (e : GoError)
    (hpre : (decodeStruct L d ctx pfx pre s).status = .ok)
    (hfail : (decodeField L d ctx pfx name tag v (decodeStruct L d ctx pfx pre s).store).status =
      .fail e) :
    (decodeStruct L d ctx pfx (pre.append (.cons name true tag v post)) s).status =
        .fail (.wrapf "decode field %s: %w" [name] e) ∧
      (GoError.wrapf "decode field %s: %w" [name] e).wraps e ∧
      (decodeStruct L d ctx pfx (pre.append (.cons name true tag v post)) s).gets =
        (decodeStruct L d ctx pfx pre s).gets ++
          (decodeField L d ctx pfx name tag v (decodeStruct L d ctx pfx pre s).store).gets ∧
      (decodeStruct L d ctx pfx (pre.append (.cons name true tag v post)) s).val =
        (decodeStruct L d ctx pfx pre s).val.append
          (.cons name true tag
            (decodeField L d ctx pfx name tag v (decodeStruct L d ctx pfx pre s).store).val
            post) ∧
      (∃ k e0,
        (decodeStruct L d ctx pfx (pre.append (.cons name true tag v post)) s).gets.getLast? =
            some k ∧
          (GoError.wrapf "decode field %s: %w" [name] e).wraps e0 ∧ LeafFailure L d ctx k e0) ∧
      (d.DecodeContext L ctx (.ptr false (.struct (pre.append (.cons name true tag v post)))) s).status =
        (decodeStruct L d ctx d.config.pfx (pre.append (.cons name true tag v post)) s).status := by
  have happ := (decodeStruct_append L d ctx pfx (.cons name true tag v post) pre s).1 hpre
  have hcons : decodeStruct L d ctx pfx (.cons name true tag v post)
      (decodeStruct L d ctx pfx pre s).store =
      ⟨.cons name true tag
          (decodeField L d ctx pfx name tag v (decodeStruct L d ctx pfx pre s).store).val post,
        (decodeField L d ctx pfx name tag v (decodeStruct L d ctx pfx pre s).store).store,
        (decodeField L d ctx pfx name tag v (decodeStruct L d ctx pfx pre s).store).gets,
        .fail (.wrapf "decode field %s: %w" [name] e)⟩ := by
    simp only [decodeStruct, Bool.not_true, Bool.false_eq_true, if_false, hfail, wrapOutcome]
  rw [happ, hcons]
  obtain ⟨k, e0, h1, h2, h3⟩ := decodeField_fail_origin L d ctx pfx name tag v _ e hfail
  refine ⟨rfl, GoError.wraps_wrapf _ _ _ _ (GoError.wraps_refl _), rfl, rfl,
    ⟨k, e0, ?_, GoError.wraps_wrapf _ _ _ _ h2, h3⟩, rfl⟩
  simp [h1]

/-- Witness of C13: in the target of `TestDecoder` with `bar = "x"`, the field
`Bar` fails after `Foo` was decoded; `Foo` holds `"bar"`, `Baz` is as it
was, and the keys looked up are `foo` and `bar`. -/
theorem decode_first_failure_witness :
    (decodeStruct testLib (mapDecoder badKV) Context.background "" rootHead ()).status = .ok ∧
      (decodeStruct testLib (mapDecoder badKV) Context.background ""
          (rootHead.append (.cons "Bar" true [("kv", "bar")] (.int 0) rootTail)) ()).status =
        .fail (.wrapf "decode field %s: %w" ["Bar"]
          (.wrapf "unmarshal value of %q: %w" ["bar"]
            (.wrapf "parse int from %q: %w" ["x"] (.numSyntax "Atoi" "x")))) ∧
      (decodeStruct testLib (mapDecoder badKV) Context.background ""
          (rootHead.append (.cons "Bar" true [("kv", "bar")] (.int 0) rootTail)) ()).gets =
        ["foo", "bar"] ∧
      (decodeStruct testLib (mapDecoder badKV) Context.background ""
          (rootHead.append (.cons "Bar" true [("kv", "bar")] (.int 0) rootTail)) ()).val =
        .cons "Foo" true [("kv", "foo")] (.str "bar")
          (.cons "Bar" true [("kv", "bar")] (.int 0) rootTail) :=
  ⟨rfl,
    (decode_first_failure testLib (mapDecoder badKV) Context.background "" "Bar"
      [("kv", "bar")] (.int 0) rootHead rootTail ()
      (.wrapf "unmarshal value of %q: %w" ["bar"]
        (.wrapf "parse int from %q: %w" ["x"] (.numSyntax "Atoi" "x"))) rfl rfl).1,
    (decode_first_failure testLib (mapDecoder badKV) Context.background "" "Bar"
      [("kv", "bar")] (.int 0) rootHead rootTail ()
      (.wrapf "unmarshal value of %q: %w" ["bar"]
        (.wrapf "parse int from %q: %w" ["x"] (.numSyntax "Atoi" "x"))) rfl rfl).2.2.1.trans rfl,
    (decode_first_failure testLib (mapDecoder badKV) Context.background "" "Bar"
      [("kv", "bar")] (.int 0) rootHead rootTail ()
      (.wrapf "unmarshal value of %q: %w" ["bar"]
        (.wrapf "parse int from %q: %w" ["x"] (.numSyntax "Atoi" "x"))) rfl rfl).2.2.2.1.trans rfl⟩

/-! ## The shape of the target -/

theorem isStructPtr_iff (v : Val) :
    v.isStructPtr = true ↔ ∃ e fs, v = .ptr false e ∧ e.structFields = some fs := by
  cases v with
  | ptr b e =>
    cases b with
    | true => simp [Val.isStructPtr]
    | false =>
      cases e with
      | scanner n rc u => cases u <;> simp [Val.isStructPtr, Val.kind, Val.structFields]
      | _ => simp [Val.isStructPtr, Val.kind, Val.structFields]
  | _ => simp [Val.isStructPtr]

theorem DecodeContext_bad_shape {σ : Type} (L : Lib) (d : Decoder σ) (ctx : Context) (v : Val)
    (s : σ) (h : v.isStructPtr = false) :
    (d.DecodeContext L ctx v s).status.isFail = true ∧ (d.DecodeContext L ctx v s).gets = [] ∧
      (d.DecodeContext L ctx v s).val = v ∧ (d.DecodeContext L ctx v s).store = s := by
  cases v with
  | ptr b e =>
    cases b with
    | true => exact ⟨rfl, rfl, rfl, rfl⟩
    | false =>
      cases e with
      | scanner n rc u =>
        cases u <;> first
          | (simp [Val.isStructPtr, Val.kind] at h; done)
          | exact ⟨rfl, rfl, rfl, rfl⟩
      | _ =>
        first
          | (simp [Val.isStructPtr, Val.kind] at h; done)
          | exact ⟨rfl, rfl, rfl, rfl⟩
  | _ => exact ⟨rfl, rfl, rfl, rfl⟩

theorem DecodeContext_good_shape {σ : Type} (L : Lib) (d : Decoder σ) (ctx : Context)
    (e : Val) (fs : Fields) (s : σ) (h : e.structFields = some fs) :
    (d.DecodeContext L ctx (.ptr false e) s).status =
        (decodeStruct L d ctx d.config.pfx fs s).status ∧
      (d.DecodeContext L ctx (.ptr false e) s).gets =
        (decodeStruct L d ctx d.config.pfx fs s).gets ∧
      (d.DecodeContext L ctx (.ptr false e) s).store =
        (decodeStruct L d ctx d.config.pfx fs s).store := by
  cases e with
  | struct gs =>
    simp only [Val.structFields, Option.some.injEq] at h
    subst h
    exact ⟨rfl, rfl, rfl⟩
  | time t =>
    simp only [Val.structFields, Option.some.injEq] at h
    subst h
    exact ⟨rfl, rfl, rfl⟩
  | scanner n rc u =>
    cases u <;> simp only [Val.structFields, Option.some.injEq, reduceCtorEq] at h <;> subst h <;>
      exact ⟨rfl, rfl, rfl⟩
  | _ => simp only [Val.structFields, reduceCtorEq] at h

theorem Outcome.isFail_iff (o : Outcome) : o.isFail = true ↔ ∃ e, o = .fail e := by
  cases o <;> simp [Outcome.isFail]

/-- C14: the validation of the target shape.  When the target is not a non-nil
pointer to a struct, `DecodeContext` returns an error, issues no `Get`, and
leaves the target and the backend as they were.  When it is, `DecodeContext`
returns what the walk over the fields of the struct returns, started with
the configured prefix.  An error without any `Get` comes back exactly when
the target is not a non-nil pointer to a struct. -/
theorem DecodeContext_target_shape {σ : Type} (L : Lib) (d : Decoder σ) (ctx : Context)
    (v : Val) (s : σ) :
    (v.isStructPtr = false →
        (d.DecodeContext L ctx v s).status.isFail = true ∧ (d.DecodeContext L ctx v s).gets = [] ∧
          (d.DecodeContext L ctx v s).val = v ∧ (d.DecodeContext L ctx v s).store = s) ∧
      (v.isStructPtr = true ↔ ∃ e fs, v = .ptr false e ∧ e.structFields = some fs) ∧
      (∀ e fs, v = .ptr false e → e.structFields = some fs →
        (d.DecodeContext L ctx v s).status = (decodeStruct L d ctx d.config.pfx fs s).status ∧
          (d.DecodeContext L ctx v s).gets = (decodeStruct L d ctx d.config.pfx fs s).gets ∧
          (d.DecodeContext L ctx v s).store = (decodeStruct L d ctx d.config.pfx fs s).store) ∧
      (((d.DecodeContext L ctx v s).status.isFail = true ∧ (d.DecodeContext L ctx v s).gets = []) ↔
        v.isStructPtr = false) := by
  refine ⟨DecodeContext_bad_shape L d ctx v s, isStructPtr_iff v, ?_, ?_⟩
  · intro e fs hv hfs
    subst hv
    exact DecodeContext_good_shape L d ctx e fs s hfs
  · constructor
    · intro ⟨hfail, hgets⟩
      by_contra hne
      have hp : v.isStructPtr = true := by simpa using hne
      obtain ⟨e, fs, hv, hfs⟩ := (isStructPtr_iff v).1 hp
      subst hv
      obtain ⟨h1, h2, _⟩ := DecodeContext_good_shape L d ctx e fs s hfs
      rw [h1] at hfail
      rw [h2] at hgets
      obtain ⟨err, herr⟩ := (Outcome.isFail_iff _).1 hfail
      obtain ⟨k, _, hk, _⟩ := decodeStruct_fail_origin L d ctx fs d.config.pfx s err herr
      rw [hgets] at hk
      simp at hk
    · intro h
      exact ⟨(DecodeContext_bad_shape L d ctx v s h).1, (DecodeContext_bad_shape L d ctx v s h).2.1⟩

/-- Witness of C14: a nil pointer to a struct and a pointer to an `int` are
rejected without a `Get`. -/
theorem DecodeContext_target_shape_witness :
    (Val.ptr true (.struct .nil)).isStructPtr = false ∧
      ((mapDecoder testKV).DecodeContext testLib Context.background
        (.ptr true (.struct .nil)) ()).status.isFail = true ∧
      ((mapDecoder testKV).DecodeContext testLib Context.background
        (.ptr true (.struct .nil)) ()).gets = [] ∧
      (Val.ptr false (.int 0)).isStructPtr = false ∧
      ((mapDecoder testKV).DecodeContext testLib Context.background
        (.ptr false (.int 0)) ()).status.isFail = true :=
  ⟨rfl,
    ((DecodeContext_target_shape testLib (mapDecoder testKV) Context.background
      (.ptr true (.struct .nil)) ()).1 rfl).1,
    ((DecodeContext_target_shape testLib (mapDecoder testKV) Context.background
      (.ptr true (.struct .nil)) ()).1 rfl).2.1,
    rfl,
    ((DecodeContext_target_shape testLib (mapDecoder testKV) Context.background
      (.ptr false (.int 0)) ()).1 rfl).1⟩

/-! ## Skipped fields -/

/-- The walk over a list that starts with a field that is not exported or has
no tag: the field is passed over. -/
theorem decodeStruct_skip_head {σ : Type} (L : Lib) (d : Decoder σ) (ctx : Context)
    (pfx name : String) (exported : Bool) (tag : StructTag) (v : Val) (post : Fields) (s : σ)
    (hskip : exported = false ∨ tag.Get d.config.tag = "") :
    decodeStruct L d ctx pfx (.cons name exported tag v post) s =
      ⟨.cons name exported tag v (decodeStruct L d ctx pfx post s).val,
        (decodeStruct L d ctx pfx post s).store, (decodeStruct L d ctx pfx post s).gets,
        (decodeStruct L d ctx pfx post s).status⟩ := by
  cases exported with
  | false => simp only [decodeStruct, Bool.not_false, if_true]
  | true =>
    have htag : tag.Get d.config.tag = "" := by
      rcases hskip with h | h
      · cases h
      · exact h
    have hf : decodeField L d ctx pfx name tag v s = ⟨v, s, [], .ok⟩ := by
      rw [decodeField_eq, (fieldKey_none _ _ _).2 htag]
    simp only [decodeStruct, Bool.not_true, Bool.false_eq_true, if_false, hf, List.nil_append]

/-- C19: skipped fields.  A field without a tag under the configured tag name,
or with an empty one, and a field that is not exported, is passed over
whatever its type: the walk over the struct issues the same `Get` calls,
leaves the backend in the same state and ends in the same way as the walk
over the struct without the field, and the field comes back as it was, a
nil pointer still nil, between the same fields as before. -/
theorem decode_skips_field {σ : Type} (L : Lib) (d : Decoder σ) (ctx : Context)
    (pfx name : String) (exported : Bool) (tag : StructTag) (v : Val) (pre post : Fields)
    (s : σ) (hskip : exported = false ∨ tag.Get d.config.tag = "") :
    (decodeStruct L d ctx pfx (pre.append (.cons name exported tag v post)) s).gets =
        (decodeStruct L d ctx pfx (pre.append post) s).gets ∧
      (decodeStruct L d ctx pfx (pre.append (.cons name exported tag v post)) s).status =
        (decodeStruct L d ctx pfx (pre.append post) s).status ∧
      (decodeStruct L d ctx pfx (pre.append (.cons name exported tag v post)) s).store =
        (decodeStruct L d ctx pfx (pre.append post) s).store ∧
      ∃ after,
        (decodeStruct L d ctx pfx (pre.append post) s).val =
            (decodeStruct L d ctx pfx pre s).val.append after ∧
          (decodeStruct L d ctx pfx (pre.append (.cons name exported tag v post)) s).val =
            (decodeStruct L d ctx pfx pre s).val.append (.cons name exported tag v after) := by
  by_cases hpre : (decodeStruct L d ctx pfx pre s).status = .ok
  · rw [(decodeStruct_append L d ctx pfx _ pre s).1 hpre,
      (decodeStruct_append L d ctx pfx post pre s).1 hpre,
      decodeStruct_skip_head L d ctx pfx name exported tag v post _ hskip]
    exact ⟨rfl, rfl, rfl, _, rfl, rfl⟩
  · rw [decodeStruct_append_fail L d ctx pfx _ pre s hpre,
      decodeStruct_append_fail L d ctx pfx post pre s hpre]
    exact ⟨rfl, rfl, rfl, _, rfl, rfl⟩

/-- Witness of C19: an unexported nil pointer field `secret` tagged `"secret"`
after `Foo`, with a value for `secret` in the backend: the only key looked
up is `foo` and the field is still nil. -/
theorem decode_skips_field_witness :
    (false = false ∨ StructTag.Get [("kv", "secret")] (mapDecoder secretKV).config.tag = "") ∧
      (decodeStruct testLib (mapDecoder secretKV) Context.background "" (rootHead.append
        (.cons "secret" false [("kv", "secret")] (.ptr true (.int 0)) .nil)) ()).gets = ["foo"] ∧
      (decodeStruct testLib (mapDecoder secretKV) Context.background "" (rootHead.append
        (.cons "secret" false [("kv", "secret")] (.ptr true (.int 0)) .nil)) ()).status = .ok ∧
      (decodeStruct testLib (mapDecoder secretKV) Context.background "" (rootHead.append
        (.cons "secret" false [("kv", "secret")] (.ptr true (.int 0)) .nil)) ()).val =
        .cons "Foo" true [("kv", "foo")] (.str "bar")
          (.cons "secret" false [("kv", "secret")] (.ptr true (.int 0)) .nil) :=
  ⟨Or.inl rfl,
    (decode_skips_field testLib (mapDecoder secretKV) Context.background "" "secret" false
      [("kv", "secret")] (.ptr true (.int 0)) rootHead .nil () (Or.inl rfl)).1.trans rfl,
    (decode_skips_field testLib (mapDecoder secretKV) Context.background "" "secret" false
      [("kv", "secret")] (.ptr true (.int 0)) rootHead .nil () (Or.inl rfl)).2.1.trans rfl,
    rfl⟩

/-! ## Scanner fields -/

theorem fieldClass_of_implementsScanner (v : Val) (h : v.implementsScanner = true) :
    v.fieldClass = .leaf := by
  cases v with
  | ptr b e =>
    cases e
    all_goals first
      | rfl
      | simp [Val.implementsScanner] at h
  | scanner n rc u =>
    cases rc
    all_goals first
      | rfl
      | simp [Val.implementsScanner] at h
  | _ => simp [Val.implementsScanner] at h

theorem fieldTarget_implementsScanner (v : Val) (h : v.implementsScanner = true) :
    (fieldTarget v).implementsScanner = true := by
  cases v with
  | ptr b e =>
    cases e <;> simp [Val.implementsScanner] at h
    cases b <;> rfl
  | scanner n rc u =>
    cases rc <;> simp [Val.implementsScanner] at h
    cases u <;> rfl
  | _ => simp [Val.implementsScanner] at h

/-- A leaf whose key holds a string: `UnmarshalTo` runs on the target of the
field. -/
theorem decodeLeaf_string {σ : Type} (L : Lib) (d : Decoder σ) (ctx : Context) (key : String)
    (v : Val) (s : σ) (value : String) (h : (d.kv.Get ctx s key).1 = .ok (.string value)) :
    (decodeLeaf L d ctx key v s).val =
        fieldOfTarget v (StringValue.UnmarshalTo L value (fieldTarget v) ⟨d.config.sliceSep⟩).1 ∧
      (decodeLeaf L d ctx key v s).status =
        wrapOutcome "unmarshal value of %q: %w" key
          (StringValue.UnmarshalTo L value (fieldTarget v) ⟨d.config.sliceSep⟩).2 := by
  have hk : (initField v).kind = v.kind := by
    cases v with
    | ptr b e => cases b <;> rfl
    | _ => rfl
  by_cases hp : v.kind = .ptr
  · simp only [decodeLeaf, h, Value.UnmarshalTo, fieldTarget, fieldOfTarget, hk, hp, if_true,
      and_self]
  · have hi : initField v = v := by
      cases v with
      | ptr b e => simp [Val.kind] at hp
      | _ => rfl
    simp only [decodeLeaf, h, Value.UnmarshalTo, fieldTarget, fieldOfTarget, hk, hp, if_false,
      hi, and_self]

/-- The hook wins over the structure for a field that passes the assertion
`f.Interface().(Scanner)` of `structField`.  A tagged field whose value has
`Scan` in its method set, a pointer to a struct included, is treated as a
leaf: `decodeField` issues one `Get`, for the key of the field itself, and
no other, and when the backend holds a string for that key the field is what
one call of its `Scan` on that string leaves and the result is the result of
that call. -/
theorem decode_scanner_field {σ : Type} (L : Lib) (d : Decoder σ) (ctx : Context)
    (pfx name key : String) (tag : StructTag) (v : Val) (s : σ)
    (hs : v.implementsScanner = true) (hk : fieldKey d.config pfx tag = some key) :
    decodeField L d ctx pfx name tag v s = decodeLeaf L d ctx key v s ∧
      (decodeField L d ctx pfx name tag v s).gets = [key] ∧
      (∀ value, (d.kv.Get ctx s key).1 = .ok (.string value) →
        (decodeField L d ctx pfx name tag v s).val =
            fieldOfTarget v (callScan L value (fieldTarget v)).1 ∧
          (decodeField L d ctx pfx name tag v s).status =
            wrapOutcome "unmarshal value of %q: %w" key
              (wrapScan (callScan L value (fieldTarget v)).2)) := by
  have heq : decodeField L d ctx pfx name tag v s = decodeLeaf L d ctx key v s := by
    rw [decodeField_eq, hk, fieldClass_of_implementsScanner v hs]
  rw [heq]
  refine ⟨rfl, decodeLeaf_gets L d ctx key v s, fun value hv => ?_⟩
  have hl := decodeLeaf_string L d ctx key v s value hv
  rw [UnmarshalTo_scanner L value (fieldTarget v) _ (fieldTarget_implementsScanner v hs)] at hl
  exact hl

/-- The field `Bin *scanner` of `TestDecoder`: the field under the prefix
`"baz/zxc/"` is looked up at `"baz/zxc/bin"` only and scanned from `"hello"`. -/
theorem decode_scanner_field_witness :
    binField.implementsScanner = true ∧
      fieldKey (mapDecoder testKV).config "baz/zxc/" [("kv", "bin")] = some "baz/zxc/bin" ∧
      (decodeField testLib (mapDecoder testKV) Context.background "baz/zxc/" "Bin" [("kv", "bin")]
        binField ()).gets = ["baz/zxc/bin"] ∧
      (decodeField testLib (mapDecoder testKV) Context.background "baz/zxc/" "Bin" [("kv", "bin")]
        binField ()).val =
        .ptr false (.scanner "scanner" .pointer
          (.struct (.cons "value" false [] (.str "hello") .nil))) :=
  ⟨rfl, rfl,
    (decode_scanner_field testLib (mapDecoder testKV) Context.background "baz/zxc/" "Bin"
      "baz/zxc/bin" [("kv", "bin")] binField () rfl rfl).2.1,
    ((decode_scanner_field testLib (mapDecoder testKV) Context.background "baz/zxc/" "Bin"
      "baz/zxc/bin" [("kv", "bin")] binField () rfl rfl).2.2 "hello" rfl).1.trans rfl⟩

/-! ## The order of the lookups -/

theorem decodeLeaf_recording {σ : Type} (L : Lib) (d : Decoder σ) (ctx : Context) (key : String)
    (v : Val) (s : σ) (log : List String) :
    (decodeLeaf L d.recording ctx key v (s, log)).val = (decodeLeaf L d ctx key v s).val ∧
      (decodeLeaf L d.recording ctx key v (s, log)).gets = (decodeLeaf L d ctx key v s).gets ∧
      (decodeLeaf L d.recording ctx key v (s, log)).status = (decodeLeaf L d ctx key v s).status ∧
      (decodeLeaf L d.recording ctx key v (s, log)).store =
        ((decodeLeaf L d ctx key v s).store, log ++ (decodeLeaf L d ctx key v s).gets) := by
  simp only [decodeLeaf, Decoder.recording, KV.recording]
  split
  · exact ⟨rfl, rfl, rfl, rfl⟩
  · split <;> exact ⟨rfl, rfl, rfl, rfl⟩

/-- The walk over the recording backend is the walk over the backend, and the
record grows by the keys passed to `Get`. -/
theorem decodeStruct_recording {σ : Type} (L : Lib) (d : Decoder σ) (ctx : Context)
    (fs : Fields) :
    ∀ (pfx : String) (s : σ) (log : List String),
      (decodeStruct L d.recording ctx pfx fs (s, log)).val = (decodeStruct L d ctx pfx fs s).val ∧
        (decodeStruct L d.recording ctx pfx fs (s, log)).gets =
          (decodeStruct L d ctx pfx fs s).gets ∧
        (decodeStruct L d.recording ctx pfx fs (s, log)).status =
          (decodeStruct L d ctx pfx fs s).status ∧
        (decodeStruct L d.recording ctx pfx fs (s, log)).store =
          ((decodeStruct L d ctx pfx fs s).store, log ++ (decodeStruct L d ctx pfx fs s).gets) := by
  induction fs using Fields.walk_induction with
  | hnil => intro pfx s log; simp [decodeStruct]
  | hcons n ex t v rest ihv ih =>
    intro pfx s log
    have hcfg : d.recording.config = d.config := rfl
    cases ex with
    | false =>
      simp only [decodeStruct, Bool.not_false, if_true]
      obtain ⟨h1, h2, h3, h4⟩ := ih pfx s log
      exact ⟨by rw [h1], h2, h3, h4⟩
    | true =>
      simp only [decodeStruct, Bool.not_true, Bool.false_eq_true, if_false]
      rw [decodeField_eq, decodeField_eq, hcfg]
      cases hk : fieldKey d.config pfx t with
      | none =>
        obtain ⟨h1, h2, h3, h4⟩ := ih pfx s log
        simp only [h1, h2, h3, h4, List.nil_append, and_self]
      | some key =>
        cases hc : v.fieldClass with
        | nested shape gs =>
          obtain ⟨g1, g2, g3, g4⟩ := ihv shape gs hc (key ++ "/") s log
          simp only [g1, g2, g3, g4]
          cases hst : (decodeStruct L d ctx (key ++ "/") gs s).status with
          | ok =>
            obtain ⟨h1, h2, h3, h4⟩ := ih pfx (decodeStruct L d ctx (key ++ "/") gs s).store
              (log ++ (decodeStruct L d ctx (key ++ "/") gs s).gets)
            simp only [wrapOutcome, h1, h2, h3, h4, List.append_assoc, and_self]
          | fail err => simp only [wrapOutcome, and_self]
          | panicked => simp only [wrapOutcome, and_self]
        | closed after =>
          obtain ⟨h1, h2, h3, h4⟩ := ih pfx s log
          simp only [h1, h2, h3, h4, List.nil_append, and_self]
        | leaf =>
          obtain ⟨g1, g2, g3, g4⟩ := decodeLeaf_recording L d ctx key v s log
          simp only [g1, g2, g3, g4]
          cases hst : (decodeLeaf L d ctx key v s).status with
          | ok =>
            obtain ⟨h1, h2, h3, h4⟩ := ih pfx (decodeLeaf L d ctx key v s).store
              (log ++ (decodeLeaf L d ctx key v s).gets)
            simp only [h1, h2, h3, h4, List.append_assoc, and_self]
          | fail err => simp only [wrapOutcome, and_self]
          | panicked => simp only [wrapOutcome, and_self]

/-- C12: the order of the lookups.  For every decoder, the keys passed to `Get`
during `DecodeContext` are keys of leaf fields only, taken in declaration
order and depth first: when the call succeeds they are exactly the keys of
the exported, tagged leaf fields, one for each leaf, and in any case an
initial part of that list; a struct field that is walked contributes the
keys of its leaves and none of its own.  A backend that records its calls
records exactly these keys in this order. -/
theorem decode_lookup_order {σ : Type} (L : Lib) (d : Decoder σ) (ctx : Context) (fs : Fields)
    (s : σ) :
    ((d.DecodeContext L ctx (.ptr false (.struct fs)) s).status = .ok →
        (d.DecodeContext L ctx (.ptr false (.struct fs)) s).gets =
          leafKeys d.config.tag d.config.pfx fs) ∧
      (d.DecodeContext L ctx (.ptr false (.struct fs)) s).gets <+:
        leafKeys d.config.tag d.config.pfx fs ∧
      (∀ log,
        (d.recording.DecodeContext L ctx (.ptr false (.struct fs)) (s, log)).store.2 =
            log ++ (d.DecodeContext L ctx (.ptr false (.struct fs)) s).gets ∧
          (d.recording.DecodeContext L ctx (.ptr false (.struct fs)) (s, log)).status =
            (d.DecodeContext L ctx (.ptr false (.struct fs)) s).status) := by
  refine ⟨(decodeStruct_gets L d ctx fs d.config.pfx s).1,
    (decodeStruct_gets L d ctx fs d.config.pfx s).2, fun log => ?_⟩
  obtain ⟨_, _, h3, h4⟩ := decodeStruct_recording L d ctx fs d.config.pfx s log
  simp only [Decoder.DecodeContext]
  exact ⟨by rw [show d.recording.config.pfx = d.config.pfx from rfl, h4], h3⟩

/-- Witness of C12 on `TestDecoder`: the seven leaves are looked up in
declaration order, depth first, and the keys `baz` and `baz/zxc` of the
struct fields are not. -/
theorem decode_lookup_order_witness :
    ((mapDecoder testKV).DecodeContext testLib Context.background testTarget ()).status = .ok ∧
      ((mapDecoder testKV).DecodeContext testLib Context.background testTarget ()).gets =
        ["foo", "bar", "baz/qwe", "baz/asd", "baz/zxc/num", "baz/zxc/dur", "baz/zxc/bin"] :=
  ⟨rfl,
    ((decode_lookup_order testLib (mapDecoder testKV) Context.background
      (rootHead.append (.cons "Bar" true [("kv", "bar")] (.int 0) rootTail)) ()).1 rfl).trans rfl⟩

/-! ## Sequences -/

theorem splitGo_skip (sep : List Char) (s : List Char) :
    ∀ (k : Nat) (cur : List Char), k ≤ s.length →
      splitGo sep s k cur = splitGo sep (s.drop k) 0 cur := by
  induction s with
  | nil => intro k cur hk; simp at hk; subst hk; rfl
  | cons c cs ih =>
    intro k cur hk
    cases k with
    | zero => rfl
    | succ k =>
      simp only [splitGo, List.drop_succ_cons]
      exact ih k cur (by simpa using hk)

theorem IsSplit_cons (sep : List Char) (c : Char) (cs p : List Char)
    (parts : List (List Char)) (hc : ¬ sep <+: c :: cs) (h : IsSplit sep cs (p :: parts)) :
    IsSplit sep (c :: cs) ((c :: p) :: parts) := by
  cases parts with
  | nil =>
    obtain ⟨h1, h2⟩ := h
    subst h1
    refine ⟨rfl, fun i => ?_⟩
    cases i with
    | zero => simpa using hc
    | succ i => simpa using h2 i
  | cons q parts =>
    obtain ⟨rest, h1, h2, h3⟩ := h
    subst h1
    refine ⟨rest, by simp, fun i hi => ?_, h3⟩
    cases i with
    | zero => simpa using hc
    | succ i =>
      simp only [List.drop_succ_cons]
      exact h2 i (by simpa using hi)

/-- The scan of `strings.Split` gives the pieces between the occurrences of the
separator, the first piece after what was read before. -/
theorem splitGo_isSplit (sep : List Char) (hsep : sep ≠ []) :
    ∀ (n : Nat) (s cur : List Char), s.length = n →
      ∃ p parts, splitGo sep s 0 cur = (cur.reverse ++ p) :: parts ∧
        IsSplit sep s (p :: parts) := by
  intro n
  induction n using Nat.strong_induction_on with
  | _ n ih =>
    intro s cur hn
    cases s with
    | nil =>
      refine ⟨[], [], by simp [splitGo], rfl, fun i h => ?_⟩
      simp only [List.drop_nil, List.prefix_nil] at h
      exact hsep h
    | cons c cs =>
      simp only [splitGo]
      by_cases hp : sep.isPrefixOf (c :: cs) = true
      · rw [if_pos hp]
        obtain ⟨rest, hrest⟩ := List.isPrefixOf_iff_prefix.1 hp
        cases sep with
        | nil => exact absurd rfl hsep
        | cons x xs =>
          simp only [List.cons_append, List.cons.injEq] at hrest
          obtain ⟨hx, hcs⟩ := hrest
          subst hx
          have hlen : (x :: xs).length - 1 ≤ cs.length := by
            rw [← hcs]; simp
          rw [splitGo_skip (x :: xs) cs _ [] hlen]
          have hdrop : cs.drop ((x :: xs).length - 1) = rest := by
            rw [← hcs]; simp
          rw [hdrop]
          obtain ⟨p', parts', h1, h2⟩ := ih rest.length (by
            rw [← hn, ← hcs]; simp; omega) rest [] rfl
          rw [h1]
          refine ⟨[], p' :: parts', by simp, rest, by simp [← hcs], fun i hi => ?_, h2⟩
          simp at hi
      · rw [if_neg hp]
        obtain ⟨p', parts', h1, h2⟩ := ih cs.length (by rw [← hn]; simp) cs (c :: cur) rfl
        rw [h1]
        refine ⟨c :: p', parts', by simp, IsSplit_cons sep c cs p' parts' ?_ h2⟩
        intro hpre
        exact hp (List.isPrefixOf_iff_prefix.2 hpre)

theorem prefix_drop_append (sep p rest : List Char) :
    sep <+: (p ++ sep ++ rest).drop p.length := by
  rw [List.append_assoc, List.drop_left]
  exact List.prefix_append _ _

/-- The pieces between the occurrences of the separator are determined by the
string. -/
theorem IsSplit_unique (sep : List Char) (parts : List (List Char)) :
    ∀ (s : List Char) (parts' : List (List Char)),
      IsSplit sep s parts → IsSplit sep s parts' → parts = parts' := by
  induction parts with
  | nil => intro s parts' h; exact absurd h (by simp [IsSplit])
  | cons p ps ih =>
    intro s parts' h h'
    cases parts' with
    | nil => exact absurd h' (by simp [IsSplit])
    | cons p' ps' =>
      cases ps with
      | nil =>
        obtain ⟨h1, h2⟩ := h
        cases ps' with
        | nil =>
          obtain ⟨h1', _⟩ := h'
          rw [← h1, ← h1']
        | cons q' ps' =>
          obtain ⟨rest', e', _, _⟩ := h'
          exact absurd (e' ▸ prefix_drop_append sep p' rest') (h2 _)
      | cons q ps =>
        obtain ⟨rest, e, hno, hrest⟩ := h
        cases ps' with
        | nil =>
          obtain ⟨_, h2'⟩ := h'
          exact absurd (e ▸ prefix_drop_append sep p rest) (h2' _)
        | cons q' ps' =>
          obtain ⟨rest', e', hno', hrest'⟩ := h'
          have hlen : p.length = p'.length := by
            rcases Nat.lt_trichotomy p.length p'.length with hlt | heq | hgt
            · exact absurd (e ▸ prefix_drop_append sep p rest) (hno' _ hlt)
            · exact heq
            · exact absurd (e' ▸ prefix_drop_append sep p' rest') (hno _ hgt)
          have hee : p ++ (sep ++ rest) = p' ++ (sep ++ rest') := by
            rw [← List.append_assoc, ← List.append_assoc, ← e, ← e']
          obtain ⟨hp, hr⟩ := List.append_inj hee hlen
          have hr' : rest = rest' := List.append_cancel_left hr
          subst hp hr'
          rw [ih rest (q' :: ps') hrest hrest']

theorem String.data_ne_nil_of_ne_empty (sep : String) (h : sep ≠ "") : sep.data ≠ [] := by
  intro hd
  apply h
  cases sep
  simp only at hd
  subst hd
  rfl

/-- The function `strings.Split` with a non-empty separator gives the pieces of
the string between the occurrences of the separator, and that list only. -/
theorem stringsSplit_isSplit (s sep : String) (h : sep ≠ "") :
    IsSplit sep.data s.data ((stringsSplit s sep).map String.data) ∧
      ∀ parts : List String, IsSplit sep.data s.data (parts.map String.data) →
        parts = stringsSplit s sep := by
  have hd := String.data_ne_nil_of_ne_empty sep h
  obtain ⟨p, parts, h1, h2⟩ := splitGo_isSplit sep.data hd s.data.length s.data [] rfl
  have hmap : (stringsSplit s sep).map String.data = p :: parts := by
    simp only [stringsSplit, if_neg hd, h1, List.reverse_nil, List.nil_append, List.map_map]
    have : String.data ∘ String.mk = id := by funext x; rfl
    rw [this, List.map_id]
  rw [hmap]
  refine ⟨h2, fun parts' h' => ?_⟩
  have := IsSplit_unique sep.data _ s.data _ h' h2
  rw [← hmap] at this
  have hinj : Function.Injective String.data := fun a b hab => by
    cases a; cases b; simp only at hab; subst hab; rfl
  exact List.map_injective_iff.2 hinj this

/-- C18: the sequence decode.  For every string `s` and every non-empty
separator, `StringValue.UnmarshalTo` into a `[]string` target with that
`SliceSep` returns nil and stores the pieces of `s` between the successive
occurrences of the separator, found from left to right without overlap, and
no other list is such a list of pieces.  With an empty `SliceSep` it returns
an error for every `s` and leaves the target as it was. -/
theorem UnmarshalTo_strings (L : Lib) (s : String) (old : List String) :
    (∀ sep : String, sep ≠ "" →
        StringValue.UnmarshalTo L s (.ptr false (.strs old)) ⟨sep⟩ =
            (.ptr false (.strs (stringsSplit s sep)), .ok) ∧
          IsSplit sep.data s.data ((stringsSplit s sep).map String.data) ∧
          ∀ parts : List String, IsSplit sep.data s.data (parts.map String.data) →
            parts = stringsSplit s sep) ∧
      (StringValue.UnmarshalTo L s (.ptr false (.strs old)) ⟨""⟩).1 = .ptr false (.strs old) ∧
      (StringValue.UnmarshalTo L s (.ptr false (.strs old)) ⟨""⟩).2.isFail = true := by
  have hu : ∀ sep, StringValue.UnmarshalTo L s (.ptr false (.strs old)) ⟨sep⟩ =
      if sep = "" then
        (.ptr false (.strs old), .fail (.errorf "slice separator is not set" []))
      else assign false (.strs old) (.strs (stringsSplit s sep)) := fun _ => rfl
  refine ⟨fun sep hsep => ⟨?_, stringsSplit_isSplit s sep hsep⟩, ?_, ?_⟩
  · rw [hu, if_neg hsep]; rfl
  · rw [hu, if_pos rfl]
  · rw [hu, if_pos rfl]; rfl

/-- Witness of C18 on the test `TestStringValue/Slice`: `"hello,world"` with the
separator `","` gives `["hello", "world"]`, and fails without a separator. -/
theorem UnmarshalTo_strings_witness :
    StringValue.UnmarshalTo testLib "hello,world" (.ptr false (.strs [])) ⟨","⟩ =
        (.ptr false (.strs ["hello", "world"]), .ok) ∧
      (StringValue.UnmarshalTo testLib "hello,world" (.ptr false (.strs [])) ⟨""⟩).2.isFail =
        true :=
  ⟨((UnmarshalTo_strings testLib "hello,world" []).1 "," (by decide)).1.trans rfl,
    (UnmarshalTo_strings testLib "hello,world" []).2.2⟩

/-! ## A struct field whose `Scan` has a pointer receiver -/

/-- A field that is a struct, not a pointer, of a type whose `Scan` has a pointer
receiver does not itself have `Scan` in its method set: `structField` reports
it as a struct and the walker recurses into it, here into the field `V`
tagged `"v"`, which is looked up at `"s/v"`. -/
theorem decode_pointer_receiver_struct_field (L : Lib) :
    (Val.scanner "scanner" .pointer
        (.struct (.cons "V" true [("kv", "v")] (.str "") .nil))).implementsScanner = false ∧
      (decodeField L (mapDecoder [("s", "raw"), ("s/v", "inner")]) Context.background "" "S"
        [("kv", "s")]
        (.scanner "scanner" .pointer (.struct (.cons "V" true [("kv", "v")] (.str "") .nil)))
        ()).gets = ["s/v"] :=
  ⟨rfl, rfl⟩

/-- C21: for every string `s`, every slice separator and every target `out` that
neither implements `Scanner` nor is a pointer to one of the supported leaf
types, `StringValue(s).UnmarshalTo(out)` returns the error
`unsupported type %T` and leaves `out` as it was. -/
theorem UnmarshalTo_unsupported (L : Lib) (s : String) (out : Val)
    (opts : ValueUnmarshalOpts) (hscan : out.implementsScanner = false)
    (hsup : out.isSupportedTarget = false) :
    StringValue.UnmarshalTo L s out opts =
      (out, .fail (.errorf "unsupported type %T" [out.typeName])) := by
  cases out with
  | ptr b e =>
    cases e <;> cases b <;>
      first
      | rfl
      | exact Bool.noConfusion hsup
      | exact Bool.noConfusion hscan
  | scanner n r u =>
    cases r
    · simp [Val.implementsScanner] at hscan
    · rfl
  | _ => rfl

/-- C21 at a `*interface{}` target and the string `"x"`. -/
theorem UnmarshalTo_unsupported_witness :
    anyTarget.implementsScanner = false ∧ anyTarget.isSupportedTarget = false ∧
      StringValue.UnmarshalTo testLib "x" anyTarget ⟨","⟩ =
        (anyTarget, .fail (.errorf "unsupported type %T" ["*interface {}"])) :=
  ⟨rfl, rfl, UnmarshalTo_unsupported testLib "x" anyTarget ⟨","⟩ rfl rfl⟩

/-! ## The annotation grammar -/

theorem foldl_omitempty (rest : List String) :
    ∀ spec : tagSpec,
      rest.foldl
          (fun spec s => if s = "omitempty" then { spec with omitempty := true } else spec)
          spec =
        ⟨spec.key, spec.omitempty || rest.any (fun m => m = "omitempty")⟩ := by
  induction rest with
  | nil => intro spec; simp
  | cons m ms ih =>
    intro spec
    simp only [List.foldl_cons, List.any_cons]
    rw [ih]
    by_cases h : m = "omitempty"
    · simp [h]
    · simp [h]

theorem getTagSpecChecked_eq (tag : String) :
    getTagSpecChecked tag = some (getTagSpec tag) := by
  have hsep : ("," : String) ≠ "" := by decide
  have h := (stringsSplit_isSplit tag "," hsep).1
  unfold getTagSpecChecked getTagSpec
  cases hs : stringsSplit tag "," with
  | nil => rw [hs] at h; exact absurd h (by simp [IsSplit])
  | cons key rest => simp [foldl_omitempty]

/-- A piece before which the one-character separator does not occur does not
contain it. -/
theorem not_mem_of_no_occurrence (c : Char) (t : List Char) :
    ∀ p : List Char, (∀ i, i < p.length → ¬ [c] <+: (p ++ t).drop i) → ∀ x ∈ p, x ≠ c := by
  intro p
  induction p with
  | nil => intro _ x hx; simp at hx
  | cons y ys ih =>
    intro h x hx
    rcases List.mem_cons.1 hx with rfl | hx
    · intro hc
      subst hc
      exact h 0 (by simp) (by simp)
    · exact ih (fun i hi => by simpa using h (i + 1) (by simpa using hi)) x hx

/-- The first piece of a split at a one-character separator is the part of the
string before the first occurrence of that character. -/
theorem IsSplit_head (c : Char) (s p : List Char) (parts : List (List Char))
    (h : IsSplit [c] s (p :: parts)) : p = s.takeWhile (fun x => x ≠ c) := by
  cases parts with
  | nil =>
    obtain ⟨h1, h2⟩ := h
    subst h1
    have := not_mem_of_no_occurrence c [] s (fun i _ => by simpa using h2 i)
    symm
    rw [List.takeWhile_eq_self_iff]
    intro x hx
    simpa using this x hx
  | cons q parts =>
    obtain ⟨rest, h1, h2, _⟩ := h
    subst h1
    have := not_mem_of_no_occurrence c ([c] ++ rest) p
      (fun i hi => by simpa [List.append_assoc] using h2 i hi)
    rw [List.append_assoc, List.takeWhile_append_of_pos (fun x hx => by simpa using this x hx)]
    simp

/-- The key of the spec is the part of the annotation before its first comma. -/
theorem getTagSpec_key (a : String) :
    (getTagSpec a).key = String.mk (a.data.takeWhile (fun c => c ≠ ',')) := by
  have hsep : ("," : String) ≠ "" := by decide
  have h := (stringsSplit_isSplit a "," hsep).1
  unfold getTagSpec
  cases hs : stringsSplit a "," with
  | nil => rw [hs] at h; exact absurd h (by simp [IsSplit])
  | cons key rest =>
    rw [hs] at h
    have hd : (",": String).data = [','] := rfl
    rw [hd] at h
    have := IsSplit_head ',' a.data key.data (rest.map String.data) (by simpa using h)
    simp only
    rw [← this]

/-- The items of the annotation after the key, and the flag they set. -/
theorem getTagSpec_mods (a : String) :
    ∃ mods : List String,
      IsSplit [','] a.data (((getTagSpec a).key :: mods).map String.data) ∧
        ((getTagSpec a).omitempty = true ↔ "omitempty" ∈ mods) := by
  have hsep : ("," : String) ≠ "" := by decide
  have h := (stringsSplit_isSplit a "," hsep).1
  unfold getTagSpec
  cases hs : stringsSplit a "," with
  | nil => rw [hs] at h; exact absurd h (by simp [IsSplit])
  | cons key rest =>
    rw [hs] at h
    have hd : (",": String).data = [','] := rfl
    rw [hd] at h
    exact ⟨rest, h, by simp⟩

/-- C22: for every annotation string `a`, `getTagSpec(a)` does not reach its
`panic`; the key of the spec it returns is the part of `a` before the first
comma (all of `a` when it has none); and the flag `omitempty` is set exactly
when one of the comma-separated items after the key is `omitempty`, whatever the
other items are. -/
theorem getTagSpec_grammar (a : String) :
    getTagSpecChecked a = some (getTagSpec a) ∧
      (getTagSpec a).key = String.mk (a.data.takeWhile (fun c => c ≠ ',')) ∧
      ∃ mods : List String,
        IsSplit [','] a.data (((getTagSpec a).key :: mods).map String.data) ∧
          ((getTagSpec a).omitempty = true ↔ "omitempty" ∈ mods) :=
  ⟨getTagSpecChecked_eq a, getTagSpec_key a, getTagSpec_mods a⟩

/-! ## The modifier `omitempty` -/

theorem takeWhile_append_stop (p : Char → Bool) (c : Char) (m : List Char) (hc : p c = false) :
    ∀ l : List Char, (l ++ c :: m).takeWhile p = l.takeWhile p := by
  intro l
  induction l with
  | nil => simp [List.takeWhile_cons, hc]
  | cons x xs ih =>
    simp only [List.cons_append, List.takeWhile_cons]
    split
    · rw [ih]
    · rfl

theorem getTagSpec_key_omitempty (k : String) :
    (getTagSpec (k ++ ",omitempty")).key = (getTagSpec k).key := by
  rw [getTagSpec_key, getTagSpec_key]
  have : (k ++ ",omitempty").data = k.data ++ ',' :: "omitempty".data := by
    rw [String.data_append]
  rw [this, takeWhile_append_stop _ ',' _ (by simp)]

theorem fieldKey_omitempty (cfg : decoderConfig) (pfx : String) (tag tag' : StructTag)
    (k : String) (hk : k ≠ "") (h : tag.Get cfg.tag = k ++ ",omitempty")
    (h' : tag'.Get cfg.tag = k) : fieldKey cfg pfx tag = fieldKey cfg pfx tag' := by
  have hne : k ++ ",omitempty" ≠ "" := by
    intro he
    have := congrArg String.data he
    rw [String.data_append] at this
    have h2 : k.data ++ ",omitempty".data ≠ [] := by
      simp [String.data_ne_nil_of_ne_empty k hk]
    exact h2 this
  unfold fieldKey
  rw [h, h', if_neg hne, if_neg hk, getTagSpec_key_omitempty]

/-- The walker reads the tag of a field only through `fieldKey`. -/
theorem decodeField_congr {σ : Type} (L : Lib) (d : Decoder σ) (ctx : Context)
    (pfx name : String) (tag tag' : StructTag) (v : Val) (s : σ)
    (h : fieldKey d.config pfx tag = fieldKey d.config pfx tag') :
    decodeField L d ctx pfx name tag v s = decodeField L d ctx pfx name tag' v s := by
  rw [decodeField_eq, decodeField_eq, h]

/-- C23, counterexample: over `MapKV{"": "x"}` a string field annotated
`",omitempty"` (the key `""` with the modifier) is looked up at the key `""`
and becomes `"x"`, while the same field annotated `""` is skipped without any
`Get` and keeps its value. -/
theorem omitempty_empty_key_differs :
    ((mapDecoder [("", "x")]).Decode testLib (annotatedTarget ",omitempty" (.str "")) ()).gets
        = [""] ∧
      ((mapDecoder [("", "x")]).Decode testLib (annotatedTarget ",omitempty" (.str "")) ()).val
        = annotatedTarget ",omitempty" (.str "x") ∧
      ((mapDecoder [("", "x")]).Decode testLib (annotatedTarget "" (.str "")) ()).gets = [] ∧
      ((mapDecoder [("", "x")]).Decode testLib (annotatedTarget "" (.str "")) ()).val
        = annotatedTarget "" (.str "") :=
  ⟨rfl, rfl, rfl, rfl⟩

/-- C23, amended: for every non-empty key `k`, every decoder, backend state and
field value, decoding a field annotated `k,omitempty` gives the same walk as
decoding the same field annotated `k`: the same `Get` calls, the same outcome,
the same backend state and the same field value; and a struct that begins with
that field is decoded to the same `Get` calls, outcome, backend state and field
values under either annotation. -/
theorem decode_omitempty_inert {σ : Type} (L : Lib) (d : Decoder σ) (ctx : Context)
    (pfx name : String) (tag tag' : StructTag) (k : String) (v : Val) (s : σ)
    (hk : k ≠ "") (h : tag.Get d.config.tag = k ++ ",omitempty")
    (h' : tag'.Get d.config.tag = k) :
    decodeField L d ctx pfx name tag v s = decodeField L d ctx pfx name tag' v s ∧
      ∀ (e : Bool) (rest : Fields),
        (decodeStruct L d ctx pfx (.cons name e tag v rest) s).gets =
            (decodeStruct L d ctx pfx (.cons name e tag' v rest) s).gets ∧
          (decodeStruct L d ctx pfx (.cons name e tag v rest) s).status =
            (decodeStruct L d ctx pfx (.cons name e tag' v rest) s).status ∧
          (decodeStruct L d ctx pfx (.cons name e tag v rest) s).store =
            (decodeStruct L d ctx pfx (.cons name e tag' v rest) s).store ∧
          ∃ v1 rest1,
            (decodeStruct L d ctx pfx (.cons name e tag v rest) s).val =
                .cons name e tag v1 rest1 ∧
              (decodeStruct L d ctx pfx (.cons name e tag' v rest) s).val =
                .cons name e tag' v1 rest1 := by
  have hf := decodeField_congr L d ctx pfx name tag tag' v s
    (fieldKey_omitempty d.config pfx tag tag' k hk h h')
  refine ⟨hf, fun e rest => ?_⟩
  cases e with
  | false => exact ⟨rfl, rfl, rfl, _, _, rfl, rfl⟩
  | true =>
    simp only [decodeStruct, Bool.not_true, Bool.false_eq_true, if_false, hf]
    cases (decodeField L d ctx pfx name tag' v s).status with
    | ok => exact ⟨rfl, rfl, rfl, _, _, rfl, rfl⟩
    | fail err => exact ⟨rfl, rfl, rfl, _, _, rfl, rfl⟩
    | panicked => exact ⟨rfl, rfl, rfl, _, _, rfl, rfl⟩

/-- C23, amended, at the annotations `n,omitempty` and `n` of an `int` field
over `MapKV{"n": "5"}`. -/
theorem decode_omitempty_inert_witness :
    ("n" : String) ≠ "" ∧
      decodeField testLib (mapDecoder [("n", "5")]) Context.background "" "N"
          [("kv", "n,omitempty")] (.int 0) () =
        decodeField testLib (mapDecoder [("n", "5")]) Context.background "" "N"
          [("kv", "n")] (.int 0) () ∧
      (decodeField testLib (mapDecoder [("n", "5")]) Context.background "" "N"
          [("kv", "n,omitempty")] (.int 0) ()).val = .int 5 :=
  ⟨by decide,
    (decode_omitempty_inert testLib (mapDecoder [("n", "5")]) Context.background "" "N"
      [("kv", "n,omitempty")] [("kv", "n")] "n" (.int 0) () (by decide) rfl rfl).1, rfl⟩

/-! ## The split of a sequence loses nothing -/

theorem splitGo_length (sep : List Char) (s : List Char) :
    ∀ (skip : Nat) (cur : List Char),
      (splitGo sep s skip cur).length = countGo sep s skip + 1 := by
  induction s with
  | nil => intro skip cur; simp [splitGo, countGo]
  | cons c cs ih =>
    intro skip cur
    cases skip with
    | succ k => simp only [splitGo, countGo]; exact ih k cur
    | zero =>
      simp only [splitGo, countGo]
      split
      · simp only [List.length_cons, ih]
      · exact ih 0 _

/-- With a one-character separator the count is the number of characters of the
string equal to it. -/
theorem countGo_single (c : Char) (s : List Char) : countGo [c] s 0 = s.count c := by
  induction s with
  | nil => rfl
  | cons x xs ih =>
    simp only [countGo, List.length_singleton, Nat.sub_self]
    by_cases h : x = c
    · subst h
      simp [List.isPrefixOf, ih]
    · have h' : ¬ c = x := fun e => h e.symm
      simp [List.isPrefixOf, ih, h, h', List.count_cons]

theorem IsSplit_no_infix (sep : List Char) (hsep : sep ≠ []) (parts : List (List Char)) :
    ∀ s : List Char, IsSplit sep s parts → ∀ p ∈ parts, ¬ sep <:+: p := by
  induction parts with
  | nil => intro s h; exact absurd h (by simp [IsSplit])
  | cons p ps ih =>
    intro s h x hx
    cases ps with
    | nil =>
      obtain ⟨h1, h2⟩ := h
      simp only [List.mem_singleton] at hx
      subst hx h1
      rintro ⟨a, b, hab⟩
      apply h2 a.length
      rw [← hab, List.append_assoc, List.drop_left]
      exact List.prefix_append _ _
    | cons q ps =>
      obtain ⟨rest, h1, h2, h3⟩ := h
      rcases List.mem_cons.1 hx with rfl | hx
      · rintro ⟨a, b, hab⟩
        have hlen : a.length < x.length := by
          have := congrArg List.length hab
          have hpos : 0 < sep.length := List.length_pos.2 hsep
          simp only [List.length_append] at this
          omega
        apply h2 a.length hlen
        rw [h1, ← hab]
        simp only [List.append_assoc, List.drop_left]
        exact List.prefix_append _ _
      · exact ih rest h3 x hx

theorem stringsJoin_data (sep : String) :
    ∀ parts : List String, ∀ s : List Char,
      IsSplit sep.data s (parts.map String.data) → (stringsJoin parts sep).data = s := by
  intro parts
  induction parts with
  | nil => intro s h; exact absurd h (by simp [IsSplit])
  | cons p ps ih =>
    intro s h
    cases ps with
    | nil =>
      obtain ⟨h1, _⟩ := h
      simp only [stringsJoin]
      exact h1.symm
    | cons q ps =>
      obtain ⟨rest, h1, _, h3⟩ := h
      simp only [stringsJoin, String.data_append]
      rw [ih rest h3, h1]

/-- C25: for every string `s` and every non-empty separator, the slice that
`StringValue(s).UnmarshalTo` stores into a `[]string` target is not empty, has
one element more than there are non-overlapping occurrences of the separator
in `s` counted from the left, has no element that contains the separator, and
is joined by the separator back into `s`; the empty string gives the slice
with the one element `""`. -/
theorem UnmarshalTo_strings_lossless (L : Lib) (s sep : String) (old : List String)
    (hsep : sep ≠ "") :
    ∃ parts : List String,
      StringValue.UnmarshalTo L s (.ptr false (.strs old)) ⟨sep⟩ =
          (.ptr false (.strs parts), .ok) ∧
        parts ≠ [] ∧
        parts.length = countGo sep.data s.data 0 + 1 ∧
        (∀ x ∈ parts, ¬ sep.data <:+: x.data) ∧
        stringsJoin parts sep = s ∧
        (s = "" → parts = [""]) := by
  have hd := String.data_ne_nil_of_ne_empty sep hsep
  have hsplit := (stringsSplit_isSplit s sep hsep).1
  have hlen : (stringsSplit s sep).length = countGo sep.data s.data 0 + 1 := by
    simp only [stringsSplit, if_neg hd, List.length_map, splitGo_length]
  have hu : StringValue.UnmarshalTo L s (.ptr false (.strs old)) ⟨sep⟩ =
      if sep = "" then
        (.ptr false (.strs old), .fail (.errorf "slice separator is not set" []))
      else assign false (.strs old) (.strs (stringsSplit s sep)) := rfl
  refine ⟨stringsSplit s sep, ?_, ?_, hlen, ?_, ?_, ?_⟩
  · rw [hu, if_neg hsep]; rfl
  · intro h
    rw [h] at hlen
    simp at hlen
  · intro x hx
    exact IsSplit_no_infix sep.data hd _ s.data hsplit x.data (List.mem_map_of_mem _ hx)
  · have := stringsJoin_data sep (stringsSplit s sep) s.data hsplit
    cases hj : stringsJoin (stringsSplit s sep) sep
    cases s
    rw [hj] at this
    simp only at this
    rw [this]
  · intro hs
    subst hs
    simp only [stringsSplit, if_neg hd]
    rfl

/-- C25 on `"a,b,,c"` with the separator `","`: three occurrences, four
elements, the third of them empty. -/
theorem UnmarshalTo_strings_lossless_witness :
    (("," : String) ≠ "") ∧
      (∃ parts : List String,
        StringValue.UnmarshalTo testLib "a,b,,c" (.ptr false (.strs [])) ⟨","⟩ =
            (.ptr false (.strs parts), .ok) ∧
          parts ≠ [] ∧
          parts.length = countGo ",".data "a,b,,c".data 0 + 1 ∧
          (∀ x ∈ parts, ¬ ",".data <:+: x.data) ∧
          stringsJoin parts "," = "a,b,,c" ∧
          (("a,b,,c" : String) = "" → parts = [""])) ∧
      stringsSplit "a,b,,c" "," = ["a", "b", "", "c"] ∧
      countGo ",".data "a,b,,c".data 0 = 3 :=
  ⟨by decide, UnmarshalTo_strings_lossless testLib "a,b,,c" "," [] (by decide),
    by decide, by decide⟩

/-! ## A backend that fails without being reached -/

/-- Over a backend whose `Get` fails with `e0` at every key and leaves its state
as it was, the walk either makes no `Get` and succeeds, or makes one `Get` and
fails with an error that wraps `e0`; the state of the backend stays. -/
theorem decodeStruct_failing_backend {σ : Type} (L : Lib) (d : Decoder σ) (ctx : Context)
    (e0 : GoError) (hfail : ∀ s k, d.kv.Get ctx s k = (.error e0, s)) (fs : Fields) :
    ∀ (pfx : String) (s : σ),
      (decodeStruct L d ctx pfx fs s).store = s ∧
        (((decodeStruct L d ctx pfx fs s).status = .ok ∧
            (decodeStruct L d ctx pfx fs s).gets = []) ∨
          ((decodeStruct L d ctx pfx fs s).gets.length = 1 ∧
            ∃ e, (decodeStruct L d ctx pfx fs s).status = .fail e ∧ e.wraps e0)) := by
  induction fs using Fields.walk_induction with
  | hnil => intro pfx s; exact ⟨rfl, Or.inl ⟨rfl, rfl⟩⟩
  | hcons n ex t v rest ihv ih =>
    intro pfx s
    cases ex with
    | false =>
      simp only [decodeStruct, Bool.not_false, if_true]
      exact ih pfx s
    | true =>
      simp only [decodeStruct, Bool.not_true, Bool.false_eq_true, if_false]
      rw [decodeField_eq]
      cases hk : fieldKey d.config pfx t with
      | none =>
        simp only [List.nil_append]
        exact ih pfx s
      | some key =>
        cases hc : v.fieldClass with
        | nested shape gs =>
          simp only
          obtain ⟨h1, h2⟩ := ihv shape gs hc (key ++ "/") s
          rcases h2 with ⟨hok, hg⟩ | ⟨hlen, e, he, hw⟩
          · simp only [hok, hg, wrapOutcome, h1, List.nil_append]
            exact ih pfx s
          · simp only [he, wrapOutcome, h1, hlen, true_and]
            exact Or.inr ⟨_, rfl,
              GoError.wraps_wrapf _ _ _ _ (GoError.wraps_wrapf _ _ _ _ hw)⟩
        | closed after =>
          simp only [List.nil_append]
          exact ih pfx s
        | leaf =>
          have hl : decodeLeaf L d ctx key v s =
              ⟨initField v, s, [key], .fail (.wrapf "get key %q: %w" [key] e0)⟩ := by
            simp only [decodeLeaf, hfail]
          simp only [hl, wrapOutcome, List.length_singleton, true_and]
          exact Or.inr ⟨_, rfl,
            GoError.wraps_wrapf _ _ _ _ (GoError.wraps_wrapf _ _ _ _ (GoError.wraps_refl _))⟩

/-- C24: when the context is already cancelled, with error `e0`,
`consulKV.Get` returns `e0` for every key and leaves the Consul client as it
was, whatever the client is; and `DecodeContext` of a decoder over that
backend, on a pointer to a struct, leaves the client as it was, calls `Get`
for the key of the first leaf only, and, when the struct has a leaf, fails
with an error that wraps `e0` (without a leaf there is no lookup and no
error). -/
theorem consul_cancelled {σ : Type} (L : Lib) (ckv : ConsulClient σ) (cfg : decoderConfig)
    (ctx : Context) (e0 : GoError) (hctx : ctx.err = some e0) :
    (∀ (s : σ) (key : String), consulKV.Get ckv ctx s key = (.error e0, s)) ∧
      ∀ (fs : Fields) (s : σ),
        (Decoder.DecodeContext L ⟨consulKV.toKV ckv, cfg⟩ ctx (.ptr false (.struct fs)) s).store
            = s ∧
          (Decoder.DecodeContext L ⟨consulKV.toKV ckv, cfg⟩ ctx (.ptr false (.struct fs)) s).gets
            = (leafKeys cfg.tag cfg.pfx fs).take 1 ∧
          (leafKeys cfg.tag cfg.pfx fs ≠ [] →
            ∃ e, (Decoder.DecodeContext L ⟨consulKV.toKV ckv, cfg⟩ ctx
                (.ptr false (.struct fs)) s).status = .fail e ∧ e.wraps e0) ∧
          (leafKeys cfg.tag cfg.pfx fs = [] →
            (Decoder.DecodeContext L ⟨consulKV.toKV ckv, cfg⟩ ctx
                (.ptr false (.struct fs)) s).status = .ok) := by
  have hget : ∀ (s : σ) (key : String), consulKV.Get ckv ctx s key = (.error e0, s) := by
    intro s key
    simp only [consulKV.Get, hctx]
  refine ⟨hget, fun fs s => ?_⟩
  have hfail : ∀ s k, (⟨consulKV.toKV ckv, cfg⟩ : Decoder σ).kv.Get ctx s k = (.error e0, s) :=
    hget
  obtain ⟨h1, h2⟩ := decodeStruct_failing_backend L ⟨consulKV.toKV ckv, cfg⟩ ctx e0 hfail fs
    cfg.pfx s
  obtain ⟨g1, g2⟩ := decodeStruct_gets L ⟨consulKV.toKV ckv, cfg⟩ ctx fs cfg.pfx s
  simp only [Decoder.DecodeContext, leafKeys]
  refine ⟨h1, ?_⟩
  rcases h2 with ⟨hok, hg⟩ | ⟨hlen, e, he, hw⟩
  · have hk := g1 hok
    rw [hg] at hk
    refine ⟨?_, ?_, fun _ => hok⟩
    · rw [hg, ← hk]; rfl
    · intro hne
      exact absurd hk.symm hne
  · have hp := List.prefix_iff_eq_take.1 g2
    rw [hlen] at hp
    refine ⟨hp, fun _ => ⟨e, he, hw⟩, fun hnil => ?_⟩
    rw [hnil] at hp
    rw [hp] at hlen
    simp at hlen

/-- C24 on the decoder that `consul.NewDecoder` builds over a client that
counts its calls, with the context cancelled: the client is not called, one
`Get` is made, for `"a"`, and the decode fails. -/
theorem consul_cancelled_witness :
    (⟨some Canceled⟩ : Context).err = some Canceled ∧
      (Consul.NewDecoder countingClient []).1 =
        some ⟨consulKV.toKV countingClient, { defaultConfig with tag := "consul" }⟩ ∧
      (Decoder.DecodeContext testLib
          ⟨consulKV.toKV countingClient, { defaultConfig with tag := "consul" }⟩
          ⟨some Canceled⟩ (.ptr false (.struct consulFields)) 0).store = 0 ∧
      (Decoder.DecodeContext testLib
          ⟨consulKV.toKV countingClient, { defaultConfig with tag := "consul" }⟩
          ⟨some Canceled⟩ (.ptr false (.struct consulFields)) 0).gets = ["a"] ∧
      (Decoder.DecodeContext testLib
          ⟨consulKV.toKV countingClient, { defaultConfig with tag := "consul" }⟩
          ⟨some Canceled⟩ (.ptr false (.struct consulFields)) 0).status.isFail = true ∧
      (Decoder.DecodeContext testLib
          ⟨consulKV.toKV countingClient, { defaultConfig with tag := "consul" }⟩
          Context.background (.ptr false (.struct consulFields)) 0).store = 2 :=
  ⟨rfl, rfl,
    ((consul_cancelled testLib countingClient { defaultConfig with tag := "consul" }
      ⟨some Canceled⟩ Canceled rfl).2 consulFields 0).1,
    rfl, rfl, rfl⟩

/-! ## Decoding twice -/

theorem finishParse_int_ok (tname s : String) (size : Nat) (old : Val) (conv : Int → Val)
    (h : (finishParse tname (unmarshalIntNumber s size false old conv)).2 = .ok) :
    ∃ x, ∀ old1, finishParse tname (unmarshalIntNumber s size false old1 conv) =
      (.ptr false (conv x), .ok) := by
  unfold unmarshalIntNumber at h ⊢
  cases hp : parseInt s.data size with
  | mk val err =>
    cases err with
    | some e => simp [hp, finishParse] at h
    | none => exact ⟨val, fun old1 => by simp [finishParse]⟩

theorem finishParse_float_ok (L : Lib) (tname s : String) (size : Nat) (old : Val)
    (conv : Nat → Val)
    (h : (finishParse tname (unmarshalFloatNumber L s size false old conv)).2 = .ok) :
    ∃ x, ∀ old1, finishParse tname (unmarshalFloatNumber L s size false old1 conv) =
      (.ptr false (conv x), .ok) := by
  unfold unmarshalFloatNumber at h ⊢
  cases hp : L.parseFloat s size with
  | error e => simp [hp, finishParse] at h
  | ok val => exact ⟨val, fun old1 => by simp [finishParse]⟩

/-- A successful `UnmarshalTo` of a value of the package into a non-nil pointer
to a built-in leaf type stores a value of that type which the same call, made
again, stores again. -/
theorem UnmarshalTo_idem (L : Lib) (value : Value) (e : Val) (opts : ValueUnmarshalOpts)
    (hv : ∀ name, value ≠ .custom name)
    (he : e.isBasic = true) (hok : (value.UnmarshalTo L (.ptr false e) opts).2 = .ok) :
    ∃ e1, e1.isBasic = true ∧
      value.UnmarshalTo L (.ptr false e) opts = (.ptr false e1, .ok) ∧
      value.UnmarshalTo L (.ptr false e1) opts = (.ptr false e1, .ok) := by
  cases value with
  | null => exact ⟨e, he, rfl, rfl⟩
  | custom name => exact absurd rfl (hv name)
  | string sv =>
    simp only [Value.UnmarshalTo] at hok ⊢
    cases e with
    | duration old =>
      simp only [StringValue.UnmarshalTo] at hok ⊢
      cases hp : L.parseDuration sv with
      | error err => simp [hp] at hok
      | ok x => exact ⟨.duration x, rfl, by simp [assign], by simp [assign]⟩
    | str old => exact ⟨.str sv, rfl, rfl, rfl⟩
    | int old =>
      simp only [StringValue.UnmarshalTo] at hok ⊢
      cases hp : parseInt sv.data intSize with
      | mk val err =>
        cases err with
        | some e => simp [hp] at hok
        | none => exact ⟨.int val, rfl, by simp [assign], by simp [assign]⟩
    | intN w old =>
      simp only [StringValue.UnmarshalTo] at hok ⊢
      obtain ⟨x, hx⟩ := finishParse_int_ok _ _ _ _ _ hok
      exact ⟨.intN w (convSigned w x), rfl, hx _, hx _⟩
    | uint old =>
      simp only [StringValue.UnmarshalTo] at hok ⊢
      cases hp : parseUint sv.data 64 with
      | mk val err =>
        cases err with
        | some e => simp [hp] at hok
        | none => exact ⟨.uint (val % 2 ^ intSize), rfl, by simp [assign], by simp [assign]⟩
    | uintN w old =>
      simp only [StringValue.UnmarshalTo] at hok ⊢
      obtain ⟨x, hx⟩ := finishParse_int_ok _ _ _ _ _ hok
      exact ⟨.uintN w (convUnsigned w x), rfl, hx _, hx _⟩
    | bool old =>
      simp only [StringValue.UnmarshalTo] at hok ⊢
      cases hp : parseBool sv with
      | none => simp [hp] at hok
      | some x => exact ⟨.bool x, rfl, by simp [assign], by simp [assign]⟩
    | float32 old =>
      simp only [StringValue.UnmarshalTo] at hok ⊢
      obtain ⟨x, hx⟩ := finishParse_float_ok _ _ _ _ _ _ hok
      exact ⟨.float32 x, rfl, hx _, hx _⟩
    | float64 old =>
      simp only [StringValue.UnmarshalTo] at hok ⊢
      obtain ⟨x, hx⟩ := finishParse_float_ok _ _ _ _ _ _ hok
      exact ⟨.float64 x, rfl, hx _, hx _⟩
    | strs old =>
      simp only [StringValue.UnmarshalTo] at hok ⊢
      by_cases hs : opts.SliceSep = ""
      · simp [hs] at hok
      · exact ⟨.strs (stringsSplit sv opts.SliceSep), rfl, by simp [hs, assign],
          by simp [hs, assign]⟩
    | _ => exact absurd he (by simp [Val.isBasic])
theorem isBasic_facts (e : Val) (he : e.isBasic = true) :
    e.fieldClass = .leaf ∧ (∀ b, (Val.ptr b e).fieldClass = .leaf) ∧ ¬ e.kind = .ptr ∧
      initField e = e := by
  cases e <;> first
    | exact Bool.noConfusion he
    | exact ⟨rfl, fun _ => rfl, by simp [Val.kind], rfl⟩

theorem builtinLeaves_eq (tagName : String) (v : Val) :
    v.builtinLeaves tagName =
      match v.fieldClass with
      | .nested _ fs => fs.builtinLeaves tagName
      | .closed _ => true
      | .leaf => v.isBasicLeaf := by
  cases v with
  | ptr b e => cases e <;> simp only [Val.builtinLeaves, Val.fieldClass, Val.isBasicLeaf]
  | scanner n r u =>
    cases r <;> cases u <;>
      simp only [Val.builtinLeaves, Val.fieldClass, Val.isBasicLeaf, Val.isBasic]
  | _ => simp only [Val.builtinLeaves, Val.fieldClass, Val.isBasicLeaf, Val.isBasic]

theorem fieldClass_build (shape : StructShape) (fs : Fields) :
    (shape.build fs).fieldClass = .nested shape fs := by
  cases shape <;> rfl

theorem fieldClass_closed_idem (v after : Val) (h : v.fieldClass = .closed after) :
    after.fieldClass = .closed after := by
  cases v with
  | ptr b e =>
    cases e <;> simp only [Val.fieldClass, FieldClass.closed.injEq, reduceCtorEq] at h
    subst h; rfl
  | time t =>
    simp only [Val.fieldClass, FieldClass.closed.injEq] at h
    subst h; rfl
  | scanner n r u =>
    cases r <;> cases u <;>
      simp only [Val.fieldClass, FieldClass.closed.injEq, reduceCtorEq] at h
    subst h; rfl
  | _ => simp only [Val.fieldClass, reduceCtorEq] at h

theorem decodeLeaf_idem_plain {σ : Type} (L : Lib) (d : Decoder σ) (ctx : Context)
    (key : String) (hpure : ∀ s1 s2 k, (d.kv.Get ctx s1 k).1 = (d.kv.Get ctx s2 k).1)
    (hval : ∀ s k name, (d.kv.Get ctx s k).1 ≠ .ok (.custom name))
    (v : Val) (s : σ) (hv : v.isBasic = true)
    (hok : (decodeLeaf L d ctx key v s).status = .ok) :
    (decodeLeaf L d ctx key v s).val.fieldClass = .leaf ∧
      ∀ s1, decodeLeaf L d ctx key (decodeLeaf L d ctx key v s).val s1 =
        ⟨(decodeLeaf L d ctx key v s).val, (d.kv.Get ctx s1 key).2, [key], .ok⟩ := by
  cases hg : (d.kv.Get ctx s key).1 with
  | error err => simp [decodeLeaf, hg] at hok
  | ok value =>
    have hg1 : ∀ s1, (d.kv.Get ctx s1 key).1 = .ok value := fun s1 => (hpure s1 s key).trans hg
    obtain ⟨_, _, hk, hi⟩ := isBasic_facts v hv
    simp only [decodeLeaf, hg, hi, if_neg hk, wrapOutcome_eq_ok] at hok
    have hcv : ∀ name, value ≠ .custom name := fun name h => hval s key name (h ▸ hg)
    obtain ⟨e1, he1, h1, h2⟩ := UnmarshalTo_idem L value v ⟨d.config.sliceSep⟩ hcv hv hok
    have hv1 : (decodeLeaf L d ctx key v s).val = e1 := by
      simp only [decodeLeaf, hg, hi, if_neg hk, h1, Val.deref]
    rw [hv1]
    obtain ⟨hc1, _, hk1, hi1⟩ := isBasic_facts e1 he1
    refine ⟨hc1, fun s1 => ?_⟩
    simp only [decodeLeaf, hg1 s1, hi1, if_neg hk1, h2, wrapOutcome, Val.deref]

/-- A leaf of a built-in type that was looked up with success is, when looked up
again over a backend whose values depend on the key only, a leaf that keeps
its value. -/
theorem decodeLeaf_idem {σ : Type} (L : Lib) (d : Decoder σ) (ctx : Context) (key : String)
    (hpure : ∀ s1 s2 k, (d.kv.Get ctx s1 k).1 = (d.kv.Get ctx s2 k).1)
    (hval : ∀ s k name, (d.kv.Get ctx s k).1 ≠ .ok (.custom name))
    (v : Val) (s : σ) (hv : v.isBasicLeaf = true)
    (hok : (decodeLeaf L d ctx key v s).status = .ok) :
    (decodeLeaf L d ctx key v s).val.fieldClass = .leaf ∧
      ∀ s1, decodeLeaf L d ctx key (decodeLeaf L d ctx key v s).val s1 =
        ⟨(decodeLeaf L d ctx key v s).val, (d.kv.Get ctx s1 key).2, [key], .ok⟩ := by
  cases hg : (d.kv.Get ctx s key).1 with
  | error err => simp [decodeLeaf, hg] at hok
  | ok value =>
    have hg1 : ∀ s1, (d.kv.Get ctx s1 key).1 = .ok value := fun s1 => (hpure s1 s key).trans hg
    cases v with
    | ptr b e =>
      have he : e.isBasic = true := hv
      obtain ⟨_, hc, _, _⟩ := isBasic_facts e he
      have hi : initField (.ptr b e) = .ptr false e := by cases b <;> rfl
      have hk : (Val.ptr false e).kind = .ptr := rfl
      simp only [decodeLeaf, hg, hi, hk, if_true, wrapOutcome_eq_ok] at hok
      have hcv : ∀ name, value ≠ .custom name := fun name h => hval s key name (h ▸ hg)
      obtain ⟨e1, he1, h1, h2⟩ := UnmarshalTo_idem L value e ⟨d.config.sliceSep⟩ hcv he hok
      have hv1 : (decodeLeaf L d ctx key (.ptr b e) s).val = .ptr false e1 := by
        simp only [decodeLeaf, hg, hi, hk, if_true, h1]
      rw [hv1]
      refine ⟨(isBasic_facts e1 he1).2.1 false, fun s1 => ?_⟩
      have hi1 : initField (.ptr false e1) = .ptr false e1 := rfl
      have hk1 : (Val.ptr false e1).kind = .ptr := rfl
      simp only [decodeLeaf, hg1 s1, hi1, hk1, if_true, h2, wrapOutcome]
    | _ =>
      all_goals first
        | exact Bool.noConfusion hv
        | exact decodeLeaf_idem_plain L d ctx key hpure hval _ s hv hok
/-- A walk that succeeded over fields whose leaves are of built-in types, run
again on the fields it left, over a backend whose values are values of the
package and depend on the key only, succeeds, makes the same `Get` calls and
leaves the fields as they are. -/
theorem decodeStruct_idem {σ : Type} (L : Lib) (d : Decoder σ) (ctx : Context)
    (hpure : ∀ s1 s2 k, (d.kv.Get ctx s1 k).1 = (d.kv.Get ctx s2 k).1)
    (hval : ∀ s k name, (d.kv.Get ctx s k).1 ≠ .ok (.custom name)) (fs : Fields) :
    fs.builtinLeaves d.config.tag = true → ∀ (pfx : String) (s : σ),
      (decodeStruct L d ctx pfx fs s).status = .ok → ∀ s1,
        (decodeStruct L d ctx pfx (decodeStruct L d ctx pfx fs s).val s1).status = .ok ∧
          (decodeStruct L d ctx pfx (decodeStruct L d ctx pfx fs s).val s1).val =
            (decodeStruct L d ctx pfx fs s).val ∧
          (decodeStruct L d ctx pfx (decodeStruct L d ctx pfx fs s).val s1).gets =
            (decodeStruct L d ctx pfx fs s).gets := by
  induction fs using Fields.walk_induction with
  | hnil => intro _ pfx s _ s1; exact ⟨rfl, rfl, rfl⟩
  | hcons n ex t v rest ihv ih =>
    intro hb pfx s
    cases ex with
    | false =>
      simp only [Fields.builtinLeaves, true_or, if_true] at hb
      simp only [decodeStruct, Bool.not_false, if_true]
      intro hok s1
      obtain ⟨h1, h2, h3⟩ := ih hb pfx s hok s1
      exact ⟨h1, by rw [h2], h3⟩
    | true =>
      simp only [decodeStruct, Bool.not_true, Bool.false_eq_true, if_false]
      rw [decodeField_eq]
      cases hk : fieldKey d.config pfx t with
      | none =>
        have ht := (fieldKey_none _ _ _).1 hk
        simp only [Fields.builtinLeaves, ht, or_true, if_true] at hb
        simp only [List.nil_append]
        intro hok s1
        simp only [decodeStruct, Bool.not_true, Bool.false_eq_true, if_false]
        rw [decodeField_eq, hk]
        simp only [List.nil_append]
        obtain ⟨h1, h2, h3⟩ := ih hb pfx s hok s1
        exact ⟨h1, by rw [h2], h3⟩
      | some key =>
        obtain ⟨hne, _⟩ := fieldKey_some _ _ _ _ hk
        simp only [Fields.builtinLeaves, hne, or_false, reduceCtorEq, if_false,
          Bool.and_eq_true, builtinLeaves_eq] at hb
        obtain ⟨hbv, hbr⟩ := hb
        cases hc : v.fieldClass with
        | nested shape gs =>
          rw [hc] at hbv
          simp only at hbv ⊢
          cases hst : (decodeStruct L d ctx (key ++ "/") gs s).status with
          | ok =>
            simp only [wrapOutcome]
            intro hok s1
            obtain ⟨a1, a2, a3⟩ := ihv shape gs hc hbv (key ++ "/") s hst s1
            simp only [decodeStruct, Bool.not_true, Bool.false_eq_true, if_false]
            rw [decodeField_eq, hk]
            simp only [fieldClass_build, a1, a2, a3, wrapOutcome]
            obtain ⟨h1, h2, h3⟩ := ih hbr pfx _ hok
              (decodeStruct L d ctx (key ++ "/")
                (decodeStruct L d ctx (key ++ "/") gs s).val s1).store
            exact ⟨h1, by rw [h2], by rw [h3]⟩
          | fail err => simp [wrapOutcome]
          | panicked => simp [wrapOutcome]
        | closed after =>
          simp only [List.nil_append]
          intro hok s1
          simp only [decodeStruct, Bool.not_true, Bool.false_eq_true, if_false]
          rw [decodeField_eq, hk]
          simp only [fieldClass_closed_idem v after hc, List.nil_append]
          obtain ⟨h1, h2, h3⟩ := ih hbr pfx s hok s1
          exact ⟨h1, by rw [h2], h3⟩
        | leaf =>
          rw [hc] at hbv
          simp only at hbv ⊢
          cases hst : (decodeLeaf L d ctx key v s).status with
          | ok =>
            simp only
            intro hok s1
            obtain ⟨a1, a2⟩ := decodeLeaf_idem L d ctx key hpure hval v s hbv hst
            simp only [decodeStruct, Bool.not_true, Bool.false_eq_true, if_false]
            rw [decodeField_eq, hk]
            simp only [a1, a2 s1, decodeLeaf_gets]
            obtain ⟨h1, h2, h3⟩ := ih hbr pfx _ hok (d.kv.Get ctx s1 key).2
            exact ⟨h1, by rw [h2], by rw [h3]⟩
          | fail err => simp [wrapOutcome]
          | panicked => simp [wrapOutcome]
/-- A `MapKV` gives values of the package only. -/
theorem MapKV.Get_ne_custom (m : MapKV) (ctx : Context) (s : Unit) (k name : String) :
    ((MapKV.toKV m).Get ctx s k).1 ≠ .ok (.custom name) := by
  simp only [MapKV.toKV, MapKV.Get]
  split <;> simp

/-- C26, counterexample: the backend `appendKV` has no state and its `Get` gives
the same value for every key in every state, and the leaf `L []string` of the
target is of a built-in leaf type; the value it gives is a value of the
caller whose `UnmarshalTo` appends `"x"` to the target.  `Decode` succeeds and
leaves `["x"]`; `Decode` on that target succeeds again and leaves
`["x", "x"]`. -/
theorem decode_custom_value_repeats :
    (∀ (s1 s2 : Unit) (k : String),
        (appendKV.Get Context.background s1 k).1 = (appendKV.Get Context.background s2 k).1) ∧
      (seqFields []).builtinLeaves "kv" = true ∧
      ((Decoder.mk appendKV defaultConfig).Decode testLib (seqTarget []) ()).status = .ok ∧
      ((Decoder.mk appendKV defaultConfig).Decode testLib (seqTarget []) ()).val =
        seqTarget ["x"] ∧
      ((Decoder.mk appendKV defaultConfig).Decode testLib
        ((Decoder.mk appendKV defaultConfig).Decode testLib (seqTarget []) ()).val ()).status =
        .ok ∧
      ((Decoder.mk appendKV defaultConfig).Decode testLib
        ((Decoder.mk appendKV defaultConfig).Decode testLib (seqTarget []) ()).val ()).val =
        seqTarget ["x", "x"] :=
  ⟨fun _ _ _ => rfl, rfl, rfl, rfl, rfl, rfl⟩

/-- C26, amended: for every decoder over a backend whose `Get` gives, for each
key, a result that does not depend on the state of the backend and is, when
it is a value, a `NullValue` or a `StringValue` of the package (such as
`MapKV`), and every target in which the leaves that the walk looks up are of
built-in leaf types or pointers to them: when `DecodeContext` (and so
`Decode`, its case with the background context) succeeds, a second run on the
target it left, from any state of the backend, succeeds as well, passes the
same keys to `Get` in the same order, and leaves the target equal to what the
first run left. -/
theorem decode_idempotent {σ : Type} (L : Lib) (d : Decoder σ) (ctx : Context) (v : Val)
    (s s1 : σ) (hpure : ∀ s1 s2 k, (d.kv.Get ctx s1 k).1 = (d.kv.Get ctx s2 k).1)
    (hval : ∀ s k name, (d.kv.Get ctx s k).1 ≠ .ok (.custom name))
    (hleaf : ∀ e fs, v = .ptr false e → e.structFields = some fs →
      fs.builtinLeaves d.config.tag = true)
    (hok : (d.DecodeContext L ctx v s).status = .ok) :
    (d.DecodeContext L ctx (d.DecodeContext L ctx v s).val s1).status = .ok ∧
      (d.DecodeContext L ctx (d.DecodeContext L ctx v s).val s1).gets =
        (d.DecodeContext L ctx v s).gets ∧
      (d.DecodeContext L ctx (d.DecodeContext L ctx v s).val s1).val =
        (d.DecodeContext L ctx v s).val := by
  cases v with
  | ptr b e =>
    cases b with
    | true => exact Outcome.noConfusion hok
    | false =>
      cases e with
      | struct fs =>
        have hb := hleaf _ fs rfl rfl
        simp only [Decoder.DecodeContext] at hok ⊢
        obtain ⟨h1, h2, h3⟩ :=
          decodeStruct_idem L d ctx hpure hval fs hb d.config.pfx s hok s1
        exact ⟨h1, h3, by rw [h2]⟩
      | time t => exact ⟨rfl, rfl, rfl⟩
      | scanner n rc u =>
        cases u with
        | struct fs =>
          have hb := hleaf _ fs rfl rfl
          simp only [Decoder.DecodeContext] at hok ⊢
          obtain ⟨h1, h2, h3⟩ :=
            decodeStruct_idem L d ctx hpure hval fs hb d.config.pfx s hok s1
          exact ⟨h1, h3, by rw [h2]⟩
        | time t => exact ⟨rfl, rfl, rfl⟩
        | _ => exact Outcome.noConfusion hok
      | _ => exact Outcome.noConfusion hok
  | _ => exact Outcome.noConfusion hok

/-- C26, amended, on a target with a string, a nil `*int` whose key is absent
and a nil pointer to a struct with a `uint8` and a `[]string`, over a `MapKV`:
the first `Decode` succeeds, and the second makes the same four `Get` calls
and leaves the target as the first did. -/
theorem decode_idempotent_witness :
    ((mapDecoder basicKV).Decode testLib basicTarget ()).status = .ok ∧
      (((mapDecoder basicKV).Decode testLib
            ((mapDecoder basicKV).Decode testLib basicTarget ()).val ()).status = .ok ∧
        ((mapDecoder basicKV).Decode testLib
            ((mapDecoder basicKV).Decode testLib basicTarget ()).val ()).gets =
          ((mapDecoder basicKV).Decode testLib basicTarget ()).gets ∧
        ((mapDecoder basicKV).Decode testLib
            ((mapDecoder basicKV).Decode testLib basicTarget ()).val ()).val =
          ((mapDecoder basicKV).Decode testLib basicTarget ()).val) ∧
      ((mapDecoder basicKV).Decode testLib basicTarget ()).gets =
        ["a", "p", "s/n", "s/l"] ∧
      ((mapDecoder basicKV).Decode testLib basicTarget ()).val =
        .ptr false (.struct
          (.cons "A" true [("kv", "a")] (.str "x")
            (.cons "P" true [("kv", "p")] (.ptr false (.int 0))
              (.cons "S" true [("kv", "s")]
                (.ptr false (.struct
                  (.cons "N" true [("kv", "n")] (.uintN .w8 3)
                    (.cons "L" true [("kv", "l")] (.strs ["u", "v"]) .nil)))) .nil)))) :=
  ⟨rfl,
    decode_idempotent testLib (mapDecoder basicKV) Context.background basicTarget () ()
      (fun _ _ _ => rfl)
      (fun s k name => MapKV.Get_ne_custom basicKV Context.background s k name)
      (fun e fs h1 h2 => by
        cases h1
        cases h2
        rfl)
      rfl,
    rfl, rfl⟩

/-! ## A struct whose `Scan` has a pointer receiver, as a field -/

/-- C11: a struct field that implements `Scanner` in the documented way is not
treated as a leaf.  The type `Custom` of the docstring of `Scanner` has its
`Scan` on the pointer receiver, so a field `C Custom` does not pass the
assertion `f.Interface().(Scanner)` of `structField`, although its address,
which the leaf path would pass to `UnmarshalTo`, does.  Over
`MapKV{"c": "foo,1"}` the decoder walks into the struct: it makes no `Get`,
`Scan` is not called whatever it does, the field keeps its zero value and
`Decode` returns nil.  The same type behind a pointer, a field `C *Custom`,
is looked up at `"c"` and scanned, and so is a field of a defined type over
`string` whose `Scan` has a pointer receiver. -/
theorem decode_struct_scanner_walked (L : Lib) :
    customVal.kind = .struct ∧ customVal.implementsScanner = false ∧
      (Val.ptr false customVal).implementsScanner = true ∧
      ((mapDecoder [("c", "foo,1")]).Decode L customTarget ()).gets = [] ∧
      ((mapDecoder [("c", "foo,1")]).Decode L customTarget ()).val = customTarget ∧
      ((mapDecoder [("c", "foo,1")]).Decode L customTarget ()).status = .ok ∧
      (decodeField L (mapDecoder [("c", "foo,1")]) Context.background "" "C" [("kv", "c")]
        (.ptr true customVal) ()).gets = ["c"] ∧
      (decodeField L (mapDecoder [("c", "foo,1")]) Context.background "" "C" [("kv", "c")]
        (.ptr true customVal) ()).val =
        .ptr false (.scanner "Custom" .pointer
          (L.scan "Custom" "foo,1"
            (.struct (.cons "Foo" true [] (.str "") (.cons "Bar" true [] (.int 0) .nil)))).1) ∧
      (decodeField L (mapDecoder [("c", "foo,1")]) Context.background "" "C" [("kv", "c")]
        (.scanner "Name" .pointer (.str "")) ()).gets = ["c"] ∧
      (decodeField L (mapDecoder [("c", "foo,1")]) Context.background "" "C" [("kv", "c")]
        (.scanner "Name" .pointer (.str "")) ()).val =
        .scanner "Name" .pointer (L.scan "Name" "foo,1" (.str "")).1 :=
  ⟨rfl, rfl, rfl, rfl, rfl, rfl, rfl, rfl, rfl, rfl⟩

/-! ## The defaults -/

theorem intercalate_go_eq (ks : List String) :
    ∀ acc : String, String.intercalate.go acc "/" ks =
      acc ++ (if ks = [] then "" else "/" ++ joinKeys ks) := by
  induction ks with
  | nil => intro acc; simp [String.intercalate.go]
  | cons k ks ih =>
    intro acc
    simp only [String.intercalate.go, ih, reduceCtorEq, if_false]
    cases ks with
    | nil => simp [joinKeys, String.append_assoc]
    | cons c cs => simp [joinKeys, String.append_assoc]

/-- The key of a chain is its tag keys joined with `/`. -/
theorem joinKeys_eq_intercalate (ch : List String) : joinKeys ch = "/".intercalate ch := by
  cases ch with
  | nil => rfl
  | cons k ks =>
    simp only [String.intercalate, intercalate_go_eq]
    cases ks with
    | nil => simp [joinKeys]
    | cons c cs => simp [joinKeys, String.append_assoc]

/-- The keys that `DecodeContext` passes to `Get` on a pointer to a struct. -/
theorem DecodeContext_gets {σ : Type} (L : Lib) (d : Decoder σ) (ctx : Context) (fs : Fields)
    (s : σ) :
    ((d.DecodeContext L ctx (.ptr false (.struct fs)) s).status = .ok →
        (d.DecodeContext L ctx (.ptr false (.struct fs)) s).gets =
          (leafChains d.config.tag fs).map (fun ch => d.config.pfx ++ "/".intercalate ch)) ∧
      (d.DecodeContext L ctx (.ptr false (.struct fs)) s).gets <+:
        (leafChains d.config.tag fs).map (fun ch => d.config.pfx ++ "/".intercalate ch) := by
  have h := decodeStruct_gets L d ctx fs d.config.pfx s
  simp only [joinKeys_eq_intercalate] at h
  exact h

/-- A tagged `[]string` field whose key holds a string is split on the slice
separator of the configuration. -/
theorem decodeField_strs {σ : Type} (L : Lib) (d : Decoder σ) (ctx : Context)
    (pfx name : String) (tag : StructTag) (old : List String) (sv : String) (s : σ)
    (hsep : d.config.sliceSep ≠ "") (htag : tag.Get d.config.tag ≠ "")
    (hget : (d.kv.Get ctx s (pfx ++ (getTagSpec (tag.Get d.config.tag)).key)).1 =
      .ok (.string sv)) :
    (decodeField L d ctx pfx name tag (.strs old) s).val =
        .strs (stringsSplit sv d.config.sliceSep) ∧
      (decodeField L d ctx pfx name tag (.strs old) s).status = .ok := by
  have hk : fieldKey d.config pfx tag =
      some (pfx ++ (getTagSpec (tag.Get d.config.tag)).key) := by
    simp only [fieldKey, if_neg htag]
  rw [decodeField_eq, hk]
  have hc : (Val.strs old).fieldClass = .leaf := rfl
  simp only [hc]
  have hl := decodeLeaf_string L d ctx _ (.strs old) s sv hget
  have hu : StringValue.UnmarshalTo L sv (.ptr false (.strs old)) ⟨d.config.sliceSep⟩ =
      (.ptr false (.strs (stringsSplit sv d.config.sliceSep)), .ok) := by
    simp only [StringValue.UnmarshalTo, if_neg hsep, assign]
    rfl
  have hft : fieldTarget (.strs old) = .ptr false (.strs old) := rfl
  rw [hft, hu] at hl
  exact ⟨hl.1, hl.2⟩

/-- C17: the defaults.  `NewDecoder` without options, and so `UnmarshalContext`
and `Unmarshal`, gives a decoder with the tag name `kv`, the separator `/`,
the slice separator `,` and the empty prefix, and that decoder behaves so: on a
pointer to a struct it passes to `Get`, in order, the keys of the leaves that
the annotations named `kv` mark, each key being the annotation keys on the
path to the leaf joined with `/`, with nothing before them (all these keys when
it succeeds, an initial part of them otherwise); and a `[]string` field whose
key holds a string receives the pieces of that string between the commas.  A
list of options of the package that `NewDecoder` accepts leaves each of the
four settings that none of its options names at this default, in the
configuration and in what the decoder does: without `WithTag` the annotations
named `kv` are read, without `WithPrefix` nothing stands before the keys,
without `WithSliceSeparator` sequences are split on `,`, and the keys are
joined with `/`. -/
theorem NewDecoder_defaults {σ : Type} (L : Lib) (kv : KV σ) :
    NewDecoder kv [] = (some ⟨kv, ⟨"/", ",", "kv", ""⟩⟩, none) ∧
      (∀ ctx v s, UnmarshalContext L ctx kv v s =
        (Decoder.mk kv ⟨"/", ",", "kv", ""⟩).DecodeContext L ctx v s) ∧
      (∀ v s, Unmarshal L kv v s = (Decoder.mk kv ⟨"/", ",", "kv", ""⟩).Decode L v s) ∧
      (∀ (os : List BuiltinOption) (d : Decoder σ),
        NewDecoder kv (os.map BuiltinOption.toOption) = (some d, none) →
          ((∀ o ∈ os, o.isSeparator = false) → d.config.separator = "/") ∧
          ((∀ o ∈ os, o.isSliceSeparator = false) → d.config.sliceSep = ",") ∧
          ((∀ o ∈ os, o.isTag = false) → d.config.tag = "kv") ∧
          ((∀ o ∈ os, o.isPfx = false) → d.config.pfx = "")) ∧
      (∀ ctx fs s,
        ((UnmarshalContext L ctx kv (.ptr false (.struct fs)) s).status = .ok →
          (UnmarshalContext L ctx kv (.ptr false (.struct fs)) s).gets =
            (leafChains "kv" fs).map (fun ch => "/".intercalate ch)) ∧
        (UnmarshalContext L ctx kv (.ptr false (.struct fs)) s).gets <+:
          (leafChains "kv" fs).map (fun ch => "/".intercalate ch)) ∧
      (∀ ctx pfx name (tag : StructTag) old sv s, tag.Get "kv" ≠ "" →
        (kv.Get ctx s (pfx ++ (getTagSpec (tag.Get "kv")).key)).1 = .ok (.string sv) →
        (decodeField L (Decoder.mk kv ⟨"/", ",", "kv", ""⟩) ctx pfx name tag (.strs old) s).val =
            .strs (stringsSplit sv ",") ∧
          (decodeField L (Decoder.mk kv ⟨"/", ",", "kv", ""⟩) ctx pfx name tag (.strs old)
            s).status = .ok) ∧
      (∀ (os : List BuiltinOption) (d : Decoder σ),
        NewDecoder kv (os.map BuiltinOption.toOption) = (some d, none) →
          (∀ ctx fs s, (d.DecodeContext L ctx (.ptr false (.struct fs)) s).status = .ok →
            ((∀ o ∈ os, o.isTag = false) →
              (d.DecodeContext L ctx (.ptr false (.struct fs)) s).gets =
                (leafChains "kv" fs).map (fun ch => d.config.pfx ++ "/".intercalate ch)) ∧
            ((∀ o ∈ os, o.isPfx = false) →
              (d.DecodeContext L ctx (.ptr false (.struct fs)) s).gets =
                (leafChains d.config.tag fs).map (fun ch => "/".intercalate ch))) ∧
          ((∀ o ∈ os, o.isSliceSeparator = false) →
            ∀ ctx pfx name (tag : StructTag) old sv s, tag.Get d.config.tag ≠ "" →
              (kv.Get ctx s (pfx ++ (getTagSpec (tag.Get d.config.tag)).key)).1 =
                .ok (.string sv) →
              (decodeField L d ctx pfx name tag (.strs old) s).val =
                  .strs (stringsSplit sv ",") ∧
                (decodeField L d ctx pfx name tag (.strs old) s).status = .ok)) := by
  have hcfg : ∀ (os : List BuiltinOption) (d : Decoder σ),
      NewDecoder kv (os.map BuiltinOption.toOption) = (some d, none) →
        d.kv = kv ∧
        ((∀ o ∈ os, o.isSeparator = false) → d.config.separator = "/") ∧
        ((∀ o ∈ os, o.isSliceSeparator = false) → d.config.sliceSep = ",") ∧
        ((∀ o ∈ os, o.isTag = false) → d.config.tag = "kv") ∧
        ((∀ o ∈ os, o.isPfx = false) → d.config.pfx = "") := by
    intro os d h
    have hc := NewDecoder_some kv _ d h
    refine ⟨?_, ?_⟩
    · unfold NewDecoder at h
      split at h
      · simp only [Prod.mk.injEq, Option.some.injEq, and_true] at h
        rw [← h]
      · simp at h
    · rw [hc]
      exact runOptions_builtin os defaultConfig
  refine ⟨rfl, fun _ _ _ => rfl, fun _ _ => rfl, fun os d h => (hcfg os d h).2,
    fun ctx fs s => ?_, fun ctx pfx name tag old sv s htag hget => ?_, fun os d h => ?_⟩
  · have h := DecodeContext_gets L (Decoder.mk kv ⟨"/", ",", "kv", ""⟩) ctx fs s
    simp only [String.empty_append] at h
    exact h
  · exact decodeField_strs L (Decoder.mk kv ⟨"/", ",", "kv", ""⟩) ctx pfx name tag old sv s
      (show ("," : String) ≠ "" by decide) htag hget
  · obtain ⟨hkv, _, hs, ht, hp⟩ := hcfg os d h
    refine ⟨fun ctx fs s hok => ⟨fun hno => ?_, fun hno => ?_⟩,
      fun hno ctx pfx name tag old sv s htag hget => ?_⟩
    · have := (DecodeContext_gets L d ctx fs s).1 hok
      rw [ht hno] at this
      exact this
    · have := (DecodeContext_gets L d ctx fs s).1 hok
      rw [hp hno] at this
      simp only [String.empty_append] at this
      exact this
    · have h1 := decodeField_strs L d ctx pfx name tag old sv s
        (by rw [hs hno]; decide) htag (by rw [hkv]; exact hget)
      rw [hs hno] at h1
      exact h1

/-- Witness of C17: the option list `WithPrefix("cfg/")` leaves the separator,
the slice separator and the tag name at their defaults; and `Unmarshal`
over a `MapKV` looks up the fields tagged `kv` at `a`, `p`, `s/n`, `s/l` and
splits the value `"u,v"` of `s/l` into `u` and `v`. -/
theorem NewDecoder_defaults_witness :
    NewDecoder (MapKV.toKV []) ([BuiltinOption.pfx "cfg/"].map BuiltinOption.toOption) =
        (some (Decoder.mk (MapKV.toKV []) ⟨"/", ",", "kv", "cfg/"⟩), none) ∧
      (Decoder.mk (MapKV.toKV []) ⟨"/", ",", "kv", "cfg/"⟩).config.separator = "/" ∧
      (Decoder.mk (MapKV.toKV []) ⟨"/", ",", "kv", "cfg/"⟩).config.sliceSep = "," ∧
      (Decoder.mk (MapKV.toKV []) ⟨"/", ",", "kv", "cfg/"⟩).config.tag = "kv" ∧
      (UnmarshalContext testLib Context.background (MapKV.toKV basicKV) basicTarget ()).status =
        .ok ∧
      (UnmarshalContext testLib Context.background (MapKV.toKV basicKV) basicTarget ()).gets =
        ["a", "p", "s/n", "s/l"] ∧
      (decodeField testLib (Decoder.mk (MapKV.toKV basicKV) ⟨"/", ",", "kv", ""⟩)
        Context.background "s/" "L" [("kv", "l")] (.strs []) ()).val = .strs ["u", "v"] :=
  ⟨rfl,
    ((NewDecoder_defaults testLib (MapKV.toKV [])).2.2.2.1 [BuiltinOption.pfx "cfg/"] _ rfl).1
      (by simp [BuiltinOption.isSeparator]),
    ((NewDecoder_defaults testLib (MapKV.toKV [])).2.2.2.1 [BuiltinOption.pfx "cfg/"] _ rfl).2.1
      (by simp [BuiltinOption.isSliceSeparator]),
    ((NewDecoder_defaults testLib (MapKV.toKV [])).2.2.2.1 [BuiltinOption.pfx "cfg/"] _
      rfl).2.2.1 (by simp [BuiltinOption.isTag]),
    rfl,
    (((NewDecoder_defaults testLib (MapKV.toKV basicKV)).2.2.2.2.1 Context.background basicFields
      ()).1
      rfl).trans rfl,
    (((NewDecoder_defaults testLib (MapKV.toKV basicKV)).2.2.2.2.2.1 Context.background "s/" "L"
      [("kv", "l")] [] "u,v" () (by decide) rfl).1).trans rfl⟩

end Marshaler
